import Mathlib

/-!
Verification of the segregated-free-list storage allocator in `src/mm.c`.

The heap is embedded at the block level: the region is
`[pad][prologue][block_0 ... block_{k-1}][epilogue]`, and a state records the
ordered list of blocks between the sentinels, the 16 segregated-list head
pointers (`l0`..`l15` in the source), and the `alt` placement toggle.
Each block carries its boundary-tag size (header and footer always agree by
construction of every write in `mm.c`, which writes both together), its
allocation bit, its intrusive free-list links (the first two pointer words
of a free block's payload), and its payload bytes.

Addresses are byte offsets from `mem_heap_lo()`: the pad occupies `[0,4)`,
the prologue `[4,12)`, and the payload pointer of block `i` is
`16 + sum of the sizes of blocks 0..i-1`, exactly as `PTR_NEXT_BLK` walks
them in the source.  `NULL` is address `0` (no payload pointer is ever 0).
The page size `CHUNKSIZE = mem_pagesize()` is an external parameter `chunk`.
`mem_sbrk` success is an oracle `Bool` passed to the calls that may extend.

Machine arithmetic: block sizes in reachable states are far below `2^32`,
so sizes are plain `Nat`; the one place where `size_t` overflow is
observable, the adjusted-size computation, is modelled both exactly
(`adjust_size64`, with `% 2^64`) and mathematically (`adjust_size`).
-/

/-- A block between the sentinels: boundary-tag size (total bytes, header and
footer included), allocation bit, intrusive links (meaningful only while the
block is free and linked), and payload bytes (`size - 8` of them). -/
structure Blk where
  size  : Nat
  alloc : Bool
  next  : Option Nat
  prev  : Option Nat
  data  : List Nat
deriving DecidableEq, Repr, Inhabited

/-- Allocator state: blocks in address order, the 16 segregated list heads
(`get_seg_list`/`set_seg_list`), and the `alt` placement toggle. -/
structure State where
  blocks : List Blk
  heads  : List (Option Nat)
  alt    : Bool
deriving DecidableEq, Repr, Inhabited

/-- `WSIZE = 4`, `DSIZE = 8` (mm.c lines 47-48). -/
def DSIZE : Nat := 8

/-- `MINIMUM_ALLOC = 2 * sizeof(int) = 8` (mm.c line 50). -/
def MINIMUM_ALLOC : Nat := 8

/-- `MINIMUM_UNALLOC = MINIMUM_ALLOC + 2 * sizeof(block *) = 24` on a 64-bit
target (mm.c line 51). -/
def MINIMUM_UNALLOC : Nat := 24

/-- Sum of the sizes of a list of blocks. -/
def sumSizes (bs : List Blk) : Nat := (bs.map Blk.size).sum

/-- Payload address of the block at index `i` (`16 +` sizes before it). -/
def addrOfIdx (bs : List Blk) (i : Nat) : Nat := 16 + sumSizes (bs.take i)

/-- One past the last byte of the heap: `mem_heap_hi() + 1`
(pad + prologue + blocks + epilogue header). -/
def heapEnd (st : State) : Nat := 16 + sumSizes st.blocks + 4

/-- Find the block whose payload address is `a`, walking blocks from `base`
like `PTR_NEXT_BLK` does. -/
def getBlkAux : List Blk → Nat → Nat → Option Blk
  | [], _, _ => none
  | b :: bs, base, a => if a = base then some b else getBlkAux bs (base + b.size) a

/-- Block at payload address `a` (the heap starts at payload address 16). -/
def getBlk (st : State) (a : Nat) : Option Blk := getBlkAux st.blocks 16 a

/-- Index of the block whose payload address is `a`. -/
def idxAux : List Blk → Nat → Nat → Option Nat
  | [], _, _ => none
  | b :: bs, base, a => if a = base then some 0 else (idxAux bs (base + b.size) a).map (· + 1)

/-- Index of the block at payload address `a`. -/
def idxOf (st : State) (a : Nat) : Option Nat := idxAux st.blocks 16 a

/-- Update (links of) the block at payload address `a`. -/
def updBlks : List Blk → Nat → Nat → (Blk → Blk) → List Blk
  | [], _, _, _ => []
  | b :: bs, base, a, f => if a = base then f b :: bs else b :: updBlks bs (base + b.size) a f

/-- Update the block at payload address `a` in a state. -/
def updateAt (st : State) (a : Nat) (f : Blk → Blk) : State :=
  { st with blocks := updBlks st.blocks 16 a f }

/-- `GET_SIZE(HDR_PTR(bp))`; reads outside any block yield the benign
default 0 (such reads are undefined behaviour in the source). -/
def sizeAt (st : State) (a : Nat) : Nat := ((getBlk st a).map Blk.size).getD 0

/-- `GET_ALLOC(HDR_PTR(bp))` with benign default `false`. -/
def allocAt (st : State) (a : Nat) : Bool := ((getBlk st a).map Blk.alloc).getD false

/-- `GET_NEXT(bp)` with benign default `NULL`. -/
def nextLinkAt (st : State) (a : Nat) : Option Nat := ((getBlk st a).map Blk.next).getD none

/-- `GET_PREV(bp)` with benign default `NULL`. -/
def prevLinkAt (st : State) (a : Nat) : Option Nat := ((getBlk st a).map Blk.prev).getD none

/-- Payload bytes at payload address `a`. -/
def dataAt (st : State) (a : Nat) : List Nat := ((getBlk st a).map Blk.data).getD []

/-- Base-2 logarithm by structural recursion on a fuel bound (32 suffices
for any value of `unsigned int`). -/
def log2fuel : Nat → Nat → Nat
  | 0, _ => 0
  | fuel + 1, n => if 2 ≤ n then log2fuel fuel (n / 2) + 1 else 0

/-- `get_list_index` (mm.c lines 226-245): hand-tuned small classes, then
power-of-two classes from the highest set bit of `(unsigned int)size`,
clamped to `[0, 16)`.  (`31 - __builtin_clz` of the truncated size is its
base-2 logarithm; the `index < 0` clamp coincides with `Nat` subtraction.) -/
def get_list_index (size : Nat) : Nat :=
  if size ≤ 32 then 0
  else if size ≤ 48 then 1
  else if size ≤ 64 then 2
  else if size ≤ 96 then 3
  else if size ≤ 128 then 4
  else
    let msb := log2fuel 32 (size % 2 ^ 32)
    let index := msb - 2
    if index ≥ 16 then 15 else index

/-- `insert_free_block` (mm.c lines 768-781): prepend `bp` to the list of
its size class, fixing up the old head's `prev` link. -/
def insert_free_block (st : State) (bp : Nat) : State :=
  let index := get_list_index (sizeAt st bp)
  let h0 := st.heads.getD index none
  let st1 := updateAt st bp (fun b => { b with prev := none, next := h0 })
  let st2 := match h0 with
    | some h => updateAt st1 h (fun b => { b with prev := some bp })
    | none => st1
  { st2 with heads := st2.heads.set index (some bp) }

/-- `remove_free_block` (mm.c lines 786-800): doubly-linked unlink; when
`bp` has no `prev` link the class head is redirected. -/
def remove_free_block (st : State) (bp : Nat) : State :=
  let index := get_list_index (sizeAt st bp)
  let pv := prevLinkAt st bp
  let nx := nextLinkAt st bp
  let st1 := match pv with
    | some pb => updateAt st pb (fun b => { b with next := nx })
    | none => { st with heads := st.heads.set index nx }
  match nx with
  | some nb => updateAt st1 nb (fun b => { b with prev := pv })
  | none => st1

/-- A fresh free block (payload bytes unspecified, modelled as zeros). -/
def freeBlk (size : Nat) : Blk := ⟨size, false, none, none, List.replicate (size - 8) 0⟩

/-- Replace blocks `i, …, i+k-1` by `nbs`. -/
def splice (bs : List Blk) (i k : Nat) (nbs : List Blk) : List Blk :=
  bs.take i ++ nbs ++ bs.drop (i + k)

/-- `coalesce` (mm.c lines 602-642): boundary-tag coalescing of the free
block at `bp` with its physical neighbours, by the four-case scheme.  The
prologue (left of block 0) and epilogue (right of the last block) read as
allocated.  Returns the new state and the pointer to the coalesced block. -/
def coalesce (st : State) (bp : Nat) : State × Nat :=
  match idxOf st bp with
  | none => (st, bp)
  | some i =>
    let bs := st.blocks
    let prev_alloc : Bool := i = 0 || (bs.getD (i - 1) default).alloc
    let next_alloc : Bool := i + 1 = bs.length || (bs.getD (i + 1) default).alloc
    let size := (bs.getD i default).size
    if prev_alloc && next_alloc then
      (insert_free_block st bp, bp)
    else if prev_alloc && !next_alloc then
      let nsz := (bs.getD (i + 1) default).size
      let st1 := remove_free_block st (bp + size)
      let st2 := { st1 with blocks := splice st1.blocks i 2 [freeBlk (size + nsz)] }
      (insert_free_block st2 bp, bp)
    else if !prev_alloc && next_alloc then
      let psz := (bs.getD (i - 1) default).size
      let pa := bp - psz
      let st1 := remove_free_block st pa
      let st2 := { st1 with blocks := splice st1.blocks (i - 1) 2 [freeBlk (psz + size)] }
      (insert_free_block st2 pa, pa)
    else
      let psz := (bs.getD (i - 1) default).size
      let nsz := (bs.getD (i + 1) default).size
      let pa := bp - psz
      let st1 := remove_free_block (remove_free_block st pa) (bp + size)
      let st2 := { st1 with blocks := splice st1.blocks (i - 1) 3 [freeBlk (psz + size + nsz)] }
      (insert_free_block st2 pa, pa)

/-- `place` (mm.c lines 647-714): unlink the chosen free block; split when
the remainder is at least `SPLIT_IF_REMAINDER_BIGGER_THAN = MINIMUM_UNALLOC`,
placing the allocated piece on the right when `alt` is set (USE_ALT build)
and on the left otherwise; flip `alt`; return the allocated payload pointer.
(Callers guarantee `asize ≤ csize`, so the `csize - asize` below does not
truncate on any call the source makes.) -/
def place (st : State) (bp asize : Nat) : State × Nat :=
  let csize := sizeAt st bp
  let st0 := remove_free_block st bp
  let res :=
    if MINIMUM_UNALLOC ≤ csize - asize then
      if st0.alt then
        match idxOf st0 bp with
        | none => (st0, bp)
        | some i =>
          let b := st0.blocks.getD i default
          let abp := bp + (csize - asize)
          let fb : Blk := ⟨csize - asize, false, none, none, b.data.take (csize - asize - 8)⟩
          let ab : Blk := ⟨asize, true, none, none, b.data.drop (csize - asize)⟩
          let st1 := { st0 with blocks := splice st0.blocks i 1 [fb, ab] }
          (insert_free_block st1 bp, abp)
      else
        match idxOf st0 bp with
        | none => (st0, bp)
        | some i =>
          let b := st0.blocks.getD i default
          let ab : Blk := ⟨asize, true, none, none, b.data.take (asize - 8)⟩
          let fb : Blk := ⟨csize - asize, false, none, none, b.data.drop asize⟩
          let st1 := { st0 with blocks := splice st0.blocks i 1 [ab, fb] }
          (insert_free_block st1 (bp + asize), bp)
    else
      (updateAt st0 bp (fun b => { b with alloc := true }), bp)
  ({ res.1 with alt := !res.1.alt }, res.2)

/-- `extend_heap` (mm.c lines 578-597): round the word count up to an even
number of words and to `MINIMUM_UNALLOC` bytes, grow the region (`ok` is the
`mem_sbrk` success oracle; on failure nothing changes), write the new free
block and epilogue, and coalesce with a free predecessor. -/
def extend_heap (st : State) (words : Nat) (ok : Bool) : Option (State × Nat) :=
  if !ok then none
  else
    let size0 := if words % 2 = 1 then (words + 1) * 4 else words * 4
    let size := if size0 < MINIMUM_UNALLOC then MINIMUM_UNALLOC else size0
    let bp := 16 + sumSizes st.blocks
    let st1 := { st with blocks := st.blocks ++ [freeBlk size] }
    some (coalesce st1 bp)

/-- The size-class walk fuel: a well-formed list has at most as many nodes
as there are blocks, so this fuel lets every such walk reach its end. -/
def walkFuel (st : State) : Nat := st.blocks.length + 1

/-- Inner loop of `find_fit` (mm.c lines 733-753): bounded best-fit scan of
one list, with first-fit fallback once `FIT_SEARCH_DEPTH = 2^16` nodes have
been scanned, and immediate exact-match return. -/
def fit_in_list (st : State) (asize : Nat) : Nat → Option Nat → Nat → Option (Nat × Nat) → Option (Nat × Nat)
  | 0, _, _, best => best
  | _ + 1, none, _, best => best
  | fuel + 1, some bp, depth, best =>
    if depth < 2 ^ 16 || best = none then
      let csize := sizeAt st bp
      let better : Bool := asize ≤ csize &&
        (match best with | none => true | some (_, bsz) => csize < bsz)
      if better && csize = asize then some (bp, csize)
      else fit_in_list st asize fuel (nextLinkAt st bp) (depth + 1)
        (if better then some (bp, csize) else best)
    else best

/-- Outer loop of `find_fit` (mm.c lines 728-759): scan class lists upward
from the class of `asize`; return as soon as one list yields a fit. -/
def fit_from (st : State) (asize : Nat) : Nat → Nat → Option Nat
  | _, 0 => none
  | i, fuel + 1 =>
    if 16 ≤ i then none
    else
      match fit_in_list st asize (walkFuel st) (st.heads.getD i none) 0 none with
      | some (bp, _) => some bp
      | none => fit_from st asize (i + 1) fuel

/-- `find_fit` (mm.c lines 719-763). -/
def find_fit (st : State) (asize : Nat) : Option Nat :=
  fit_from st asize (get_list_index asize) 16

/-- The adjusted block size computed by `mm_malloc`/`mm_realloc`
(mm.c lines 343-346 and 406-409), in exact mathematical arithmetic:
`2*DSIZE` for requests up to `DSIZE`, else
`DSIZE * ((size + DSIZE + (DSIZE-1)) / DSIZE)` with C integer division. -/
def adjust_size (n : Nat) : Nat :=
  if n ≤ DSIZE then 2 * DSIZE else DSIZE * ((n + DSIZE + (DSIZE - 1)) / DSIZE)

/-- The same adjusted-size computation in 64-bit `size_t` arithmetic,
exactly as the hardware evaluates it (every intermediate mod `2^64`). -/
def adjust_size64 (n : Nat) : Nat :=
  if n % 2 ^ 64 ≤ DSIZE then 2 * DSIZE
  else (DSIZE * (((n + DSIZE + (DSIZE - 1)) % 2 ^ 64) / DSIZE)) % 2 ^ 64

/-- `mm_malloc` (mm.c lines 334-370): adjust the size, search the lists,
extend by `max(asize, CHUNKSIZE)` on a miss (flipping `alt` after a
successful extension), and place.  Returns the new state and the payload
pointer (0 is `NULL`). -/
def mm_malloc (chunk : Nat) (st : State) (n : Nat) (ok : Bool) : State × Nat :=
  if n = 0 then (st, 0)
  else
    let asize := adjust_size n
    match find_fit st asize with
    | some bp => place st bp asize
    | none =>
      let extendsize := max asize chunk
      match extend_heap st (extendsize / 4) ok with
      | none => (st, 0)
      | some (st1, bp) => place { st1 with alt := !st1.alt } bp asize

/-- `mm_free` (mm.c lines 375-385): clear the allocation bits of the tags
and coalesce.  (`free(NULL)` is a no-op; freeing a non-block pointer is
undefined behaviour in the source and a no-op here.) -/
def mm_free (st : State) (p : Nat) : State :=
  if p = 0 then st
  else
    match idxOf st p with
    | none => st
    | some _ =>
      let st1 := updateAt st p (fun b => { b with alloc := false })
      (coalesce st1 p).1

/-- `mm_realloc` (mm.c lines 390-573).  `REALLOC_BUFFER = 1`,
`SPLIT_ON_REALLOC = 1`, and the realloc split threshold
`SPLIT_IF_REMAINDER_BIGGER_THAN_REALLOC = CHUNKSIZE = chunk`.
Bytes moved by `memmove`/`memcpy` are read from the pre-write state, which
is exactly what makes the overlapping copy safe.  Payload bytes that the
source leaves unspecified (the tail beyond the copied span of a block that
grew) are modelled as zeros. -/
def mm_realloc (chunk : Nat) (st : State) (p n : Nat) (ok : Bool) : State × Nat :=
  if p = 0 then mm_malloc chunk st n ok
  else if n = 0 then (mm_free st p, 0)
  else
    match idxOf st p with
    | none => (st, p)
    | some i =>
      let bs := st.blocks
      let old := (bs.getD i default).size
      let asize := adjust_size n
      if asize ≤ old then
        if chunk ≤ old - asize then
          let b := bs.getD i default
          let ab : Blk := ⟨asize, true, none, none, b.data.take (asize - 8)⟩
          let st1 := { st with blocks := splice bs i 1 [ab, freeBlk (old - asize)] }
          (insert_free_block st1 (p + asize), p)
        else (st, p)
      else
        let next_alloc : Bool := i + 1 = bs.length || (bs.getD (i + 1) default).alloc
        let prev_alloc : Bool := i = 0 || (bs.getD (i - 1) default).alloc
        let next_size := if next_alloc then 0 else (bs.getD (i + 1) default).size
        let prev_size := if prev_alloc then 0 else (bs.getD (i - 1) default).size
        if !next_alloc && asize ≤ old + next_size then
          let st1 := remove_free_block st (p + old)
          let b := st1.blocks.getD i default
          let nb := st1.blocks.getD (i + 1) default
          let merged : Blk := ⟨old + next_size, true, none, none,
            b.data ++ List.replicate 8 0 ++ nb.data⟩
          let st2 := { st1 with blocks := splice st1.blocks i 2 [merged] }
          if chunk ≤ old + next_size - asize then
            let b2 := st2.blocks.getD i default
            let ab : Blk := ⟨asize, true, none, none, b2.data.take (asize - 8)⟩
            let st3 := { st2 with blocks := splice st2.blocks i 1 [ab, freeBlk (old + next_size - asize)] }
            (insert_free_block st3 (p + asize), p)
          else (st2, p)
        else if !prev_alloc && asize ≤ prev_size + old then
          let pa := p - prev_size
          let st1 := remove_free_block st pa
          let k := min (old - DSIZE) n
          let b := st1.blocks.getD i default
          let merged : Blk := ⟨prev_size + old, true, none, none,
            b.data.take k ++ List.replicate (prev_size + old - 8 - k) 0⟩
          let st2 := { st1 with blocks := splice st1.blocks (i - 1) 2 [merged] }
          if chunk ≤ prev_size + old - asize then
            let b2 := st2.blocks.getD (i - 1) default
            let ab : Blk := ⟨asize, true, none, none, b2.data.take (asize - 8)⟩
            let st3 := { st2 with blocks := splice st2.blocks (i - 1) 1 [ab, freeBlk (prev_size + old - asize)] }
            (insert_free_block st3 (pa + asize), pa)
          else (st2, pa)
        else if !prev_alloc && !next_alloc && asize ≤ prev_size + old + next_size then
          let pa := p - prev_size
          let st1 := remove_free_block (remove_free_block st pa) (p + old)
          let k := min (old - DSIZE) n
          let b := st1.blocks.getD i default
          let merged : Blk := ⟨prev_size + old + next_size, true, none, none,
            b.data.take k ++ List.replicate (prev_size + old + next_size - 8 - k) 0⟩
          let st2 := { st1 with blocks := splice st1.blocks (i - 1) 3 [merged] }
          if chunk ≤ prev_size + old + next_size - asize then
            let b2 := st2.blocks.getD (i - 1) default
            let ab : Blk := ⟨asize, true, none, none, b2.data.take (asize - 8)⟩
            let st3 := { st2 with blocks := splice st2.blocks (i - 1) 1 [ab, freeBlk (prev_size + old + next_size - asize)] }
            (insert_free_block st3 (pa + asize), pa)
          else (st2, pa)
        else
          let res := mm_malloc chunk st (n * 1) ok
          if res.2 = 0 then (res.1, 0)
          else
            let k := min (old - DSIZE) n
            let copied := (dataAt res.1 p).take k
            let st2 := updateAt res.1 res.2 (fun b => { b with data := copied ++ b.data.drop k })
            (mm_free st2 p, res.2)

/-- The empty pre-`mm_init` state: no blocks, all 16 list heads `NULL`. -/
def init_state : State := ⟨[], List.replicate 16 none, false⟩

/-- `mm_init` (mm.c lines 278-329) after a successful pair of `mem_sbrk`
calls: sentinels in place and the heap extended by one `CHUNKSIZE` free
block (`SMALL_INIT_AMT = 0`, so no pre-partitioning). -/
def mm_init (chunk : Nat) : State :=
  match extend_heap init_state (chunk / 4) true with
  | some (st, _) => st
  | none => init_state

/-- Nodes visited by walking a free list from cursor `cur` (at most `fuel`
of them). -/
def walkList (st : State) : Nat → Option Nat → List Nat
  | 0, _ => []
  | _ + 1, none => []
  | fuel + 1, some a => a :: walkList st fuel (nextLinkAt st a)

/-- Whether the walk from `cur` reaches `NULL` within `fuel` steps. -/
def walkEnds (st : State) : Nat → Option Nat → Bool
  | 0, cur => cur = none
  | _ + 1, none => true
  | fuel + 1, some a => walkEnds st fuel (nextLinkAt st a)

/-- The blocks of a state paired with their payload addresses. -/
def addrBlocksAux : List Blk → Nat → List (Nat × Blk)
  | [], _ => []
  | b :: bs, base => (base, b) :: addrBlocksAux bs (base + b.size)

/-- The blocks of a state paired with their payload addresses. -/
def addrBlocks (st : State) : List (Nat × Blk) := addrBlocksAux st.blocks 16

/-- Check 1 of `mm_check` (mm.c lines 810-819): every node of every free
list is marked free. -/
def checkListsFree (st : State) : Bool :=
  (List.range 16).all fun i =>
    (walkList st (walkFuel st) (st.heads.getD i none)).all fun a => !allocAt st a

/-- Check 2 of `mm_check` (mm.c lines 822-829): no two physically adjacent
blocks are both free (the walk starts at the allocated prologue and the
block after the last one is the allocated epilogue, so only interior pairs
can fail). -/
def checkNoAdjacentFree : List Blk → Bool
  | [] => true
  | [_] => true
  | b :: b2 :: bs => (b.alloc || b2.alloc) && checkNoAdjacentFree (b2 :: bs)

/-- Check 3 of `mm_check` (mm.c lines 832-853): every free block of the
heap occurs in the free list of its size class. -/
def checkFreeInList (st : State) : Bool :=
  (addrBlocks st).all fun ab =>
    ab.2.alloc ||
      (walkList st (walkFuel st) (st.heads.getD (get_list_index ab.2.size) none)).contains ab.1

/-- Check 4 of `mm_check` (mm.c lines 856-871): every free-list node's
links are `NULL` or stay inside `[mem_heap_lo(), mem_heap_hi()]`. -/
def checkLinksInHeap (st : State) : Bool :=
  (List.range 16).all fun i =>
    (walkList st (walkFuel st) (st.heads.getD i none)).all fun a =>
      (match nextLinkAt st a with | none => true | some x => x + 1 ≤ heapEnd st) &&
      (match prevLinkAt st a with | none => true | some x => x + 1 ≤ heapEnd st)

/-- `mm_check` (mm.c lines 805-874): the conjunction of its four scans
(the source accumulates them in the `correct` flag). -/
def mm_check (st : State) : Bool :=
  checkListsFree st && checkNoAdjacentFree st.blocks && checkFreeInList st &&
    checkLinksInHeap st

/-- A public call: `mm_malloc`, `mm_free`, or `mm_realloc` (with the
`mem_sbrk` oracle for the calls that may extend the heap). -/
inductive Op where
  | mal (n : Nat) (ok : Bool)
  | fre (p : Nat)
  | rea (p n : Nat) (ok : Bool)
deriving DecidableEq, Repr

/-- Is `a` the payload address of a currently allocated block? -/
def isAllocAddr (st : State) (a : Nat) : Bool := ((getBlk st a).map Blk.alloc).getD false

/-- A call is legal when any pointer it passes is `NULL` or a payload
pointer of a currently allocated block (anything else is undefined
behaviour by §7 of the specification). -/
def legalOp (st : State) : Op → Bool
  | .mal _ _ => true
  | .fre p => p = 0 || isAllocAddr st p
  | .rea p _ _ => p = 0 || isAllocAddr st p

/-- The state after a public call. -/
def applyOp (chunk : Nat) (st : State) : Op → State
  | .mal n ok => (mm_malloc chunk st n ok).1
  | .fre p => mm_free st p
  | .rea p n ok => (mm_realloc chunk st p n ok).1

/-- Heap states reachable by legal public calls after a successful init
with page size `chunk`. -/
inductive Reach (chunk : Nat) : State → Prop where
  | init : Reach chunk (mm_init chunk)
  | step {st : State} (op : Op) : Reach chunk st → legalOp st op = true →
      Reach chunk (applyOp chunk st op)

/-- Modelled from the spec: claim C2's adjusted-size formula
`D · ⌈(n + D + (D−1)) / D⌉` read with a true mathematical ceiling
(`⌈x / D⌉ = (x + (D−1)) / D` in `Nat` division). -/
def c2_spec_asize (n : Nat) : Nat :=
  if n ≤ DSIZE then 2 * DSIZE
  else DSIZE * ((n + DSIZE + (DSIZE - 1) + (DSIZE - 1)) / DSIZE)

/-- Is `a` the payload address of a free block? -/
def isFreeAddr (st : State) (a : Nat) : Bool :=
  match getBlk st a with
  | some b => !b.alloc
  | none => false

/-- Modelled from the spec: the free-block minimum of §3,
`2D + 2·ptr_size` rounded up to a multiple of eight — 32 bytes on the
64-bit target. -/
def specFreeMin : Nat := 32

/-- Modelled from the spec: the invariants of §3 over this embedding.
Invariants 1 (identical header/footer tags) and 6 (sentinels present,
allocated, bracketing the blocks) hold by construction of the embedding —
a state carries one tag per block and always brackets the block list with
the sentinels — so they contribute no conjunct.  Invariant 2: every size a
positive multiple of 8, allocated sizes `≥ 2D`, free sizes `≥` the free
minimum.  Invariant 3: no two adjacent free blocks.  Invariant 4: every
free block in exactly one segregated list, the one of its size class.
Invariant 5: links of free blocks null or a free block inside the region. -/
def inv3 (st : State) : Bool :=
  (st.blocks.all fun b =>
    decide (0 < b.size) && decide (b.size % 8 = 0) &&
      (if b.alloc then decide (2 * DSIZE ≤ b.size) else decide (specFreeMin ≤ b.size))) &&
  checkNoAdjacentFree st.blocks &&
  ((addrBlocks st).all fun ab => ab.2.alloc ||
    ((List.range 16).all fun i =>
      decide ((walkList st (walkFuel st) (st.heads.getD i none)).count ab.1 =
        if i = get_list_index ab.2.size then 1 else 0))) &&
  ((addrBlocks st).all fun ab => ab.2.alloc ||
    ((match ab.2.next with
      | none => true
      | some x => isFreeAddr st x && decide (x + 1 ≤ heapEnd st)) &&
     (match ab.2.prev with
      | none => true
      | some x => isFreeAddr st x && decide (x + 1 ≤ heapEnd st))))

/-- The heap after `init; a = malloc(1); b = malloc(1); c = malloc(1);
d = malloc(1); free(b)` with page size 4096.  The `alt` toggle makes the
four placements alternate sides, so `b`'s size-16 block (payload address
4096) has allocated physical neighbours on both sides and `free(b)` leaves
it as a free block of size 16. -/
def traceFree16 : State :=
  applyOp 4096 (applyOp 4096 (applyOp 4096 (applyOp 4096 (applyOp 4096
    (mm_init 4096) (.mal 1 true)) (.mal 1 true)) (.mal 1 true)) (.mal 1 true)) (.fre 4096)

/-- The heap after `init; a = malloc(4200); b = malloc(4200);
c = malloc(4200); free(c); realloc(b, 1)` with page size 4096.  `free(c)`
leaves a free block right after `b`; the realloc shrink path splits off a
free remainder of 4192 ≥ CHUNKSIZE bytes directly before it and inserts it
without coalescing. -/
def traceUncoalesced : State :=
  applyOp 4096 (applyOp 4096 (applyOp 4096 (applyOp 4096 (applyOp 4096
    (mm_init 4096) (.mal 4200 true)) (.mal 4200 true)) (.mal 4200 true)) (.fre 12528)) (.rea 8320 1 true)

/-- The size part of the heap invariant: every block's size is a multiple
of 8 and at least `2 * DSIZE = 16`. -/
def sizesOK (st : State) : Prop := ∀ b ∈ st.blocks, b.size % 8 = 0 ∧ 16 ≤ b.size

/-- An optional address that is `NULL` or 8-byte aligned. -/
def alignedO (o : Option Nat) : Prop := ∀ a, o = some a → a % 8 = 0

/-- Every segregated-list head and every block's link fields are `NULL`
or 8-byte aligned. -/
def linksOK (st : State) : Prop :=
  (∀ o ∈ st.heads, alignedO o) ∧ ∀ b ∈ st.blocks, alignedO b.next ∧ alignedO b.prev

/-- The alignment invariant maintained by every public call: aligned
sizes and aligned link values. -/
def invAlign (st : State) : Prop := sizesOK st ∧ linksOK st

/-- The geometric view of the block at payload address `a`: size,
allocation bit, and payload bytes — everything except the intrusive
links. -/
def blkView (st : State) (a : Nat) : Option (Nat × Bool × List Nat) :=
  (getBlk st a).map fun b => (b.size, b.alloc, b.data)

/-- An optional address that is `NULL` or 8-byte aligned, decidably. -/
def alignedB (o : Option Nat) : Bool := o.getD 0 % 8 == 0

/-- Decidable block well-formedness: sizes at least 16 and multiples of 8,
payload arrays of exactly `size - 8` bytes, link fields aligned. -/
def blocksWF (st : State) : Bool :=
  st.blocks.all fun b =>
    decide (16 ≤ b.size) && decide (b.size % 8 = 0) &&
      decide (b.data.length = b.size - 8) && alignedB b.next && alignedB b.prev

/-- Decidable list well-formedness: the heads aligned and every node of
every segregated list the payload address of a free block. -/
def goodLists (st : State) : Bool :=
  (st.heads.all fun o => alignedB o) &&
  ((List.range 16).all fun c =>
    (walkList st (walkFuel st) (st.heads.getD c none)).all fun a => isFreeAddr st a)

/-- The decidable well-formedness bundle assumed by the realloc
payload-preservation theorem: well-formed blocks and well-formed lists. -/
def GoodSt (st : State) : Bool := blocksWF st && goodLists st

/-- Claim C2, counterexample: at request size `n = 10` the code
(mm.c line 346) computes `asize = 24`, while the claim's formula
`D · ⌈(n + D + (D−1)) / D⌉`, with `⌈⌉` a true ceiling, yields 32.  The
`(D−1)` summand is the rounding bias that makes C's floor division round
up; reading an additional ceiling over it overshoots whenever
`n mod 8 ≠ 1`. -/
theorem c2_counterexample :
    adjust_size 10 = 24 ∧ c2_spec_asize 10 = 32 ∧ adjust_size 10 ≠ c2_spec_asize 10 := by
  decide

/-- Claim C2, amended: for `0 < n ≤ D` the adjusted size is `2D = 16`;
for `n > D` it is `D · ⌊(n + D + (D−1)) / D⌋` (C integer division), which
is the least multiple of `D` covering the payload and the `D` bytes of
header+footer, i.e. the unique multiple of 8 in `[n + 8, n + 16)`; in both
cases it is a multiple of 8. -/
theorem c2_amended (n : Nat) (hn : 0 < n) :
    adjust_size n % 8 = 0 ∧
    (n ≤ 8 → adjust_size n = 16) ∧
    (8 < n → adjust_size n = 8 * ((n + 8 + 7) / 8) ∧
      n + 8 ≤ adjust_size n ∧ adjust_size n < n + 16) := by
  unfold adjust_size DSIZE
  by_cases h : n ≤ 8 <;> simp [h] <;> omega

/-- Witness for `c2_amended` at `n = 20`. -/
theorem c2_amended_witness :
    adjust_size 20 % 8 = 0 ∧
    (20 ≤ 8 → adjust_size 20 = 16) ∧
    (8 < 20 → adjust_size 20 = 8 * ((20 + 8 + 7) / 8) ∧
      20 + 8 ≤ adjust_size 20 ∧ adjust_size 20 < 20 + 16) :=
  c2_amended 20 (by decide)

/-- Claim C6: `mm_realloc(NULL, n)` is exactly `mm_malloc(n)`, and for a
non-null pointer `mm_realloc(p, 0)` is exactly `mm_free(p)` followed by
returning `NULL` (mm.c lines 391-399). -/
theorem c6_realloc_null_zero :
    (∀ chunk st n ok, mm_realloc chunk st 0 n ok = mm_malloc chunk st n ok) ∧
    (∀ chunk st p ok, p ≠ 0 → mm_realloc chunk st p 0 ok = (mm_free st p, 0)) := by
  constructor
  · intro chunk st n ok
    simp [mm_realloc]
  · intro chunk st p ok hp
    simp [mm_realloc, hp]

/-- Witness for `c6_realloc_null_zero` on the freshly initialised heap and
its first payload address. -/
theorem c6_realloc_null_zero_witness :
    mm_realloc 4096 (mm_init 4096) 16 0 true = (mm_free (mm_init 4096) 16, 0) :=
  c6_realloc_null_zero.2 4096 (mm_init 4096) 16 true (by decide)

/-- Claim C8, counterexample: the size adjustment does not saturate.  At
`n = 2^64 - 1` the 64-bit computation `DSIZE * ((n + 15) / DSIZE)` wraps:
`n + 15` overflows to 14, so the adjusted size is 8 — smaller than `n` and
different from the mathematical (unwrapped) value. -/
theorem c8_counterexample :
    adjust_size64 (2 ^ 64 - 1) = 8 ∧ ¬(2 ^ 64 - 1 ≤ adjust_size64 (2 ^ 64 - 1)) ∧
    adjust_size64 (2 ^ 64 - 1) ≠ adjust_size (2 ^ 64 - 1) := by
  refine ⟨by decide, ?_, ?_⟩ <;> decide

/-- Claim C8, amended: the computation does not saturate but is exact for
every request with `n + 15 < 2^64` (all `n ≤ 2^64 - 16`): there the 64-bit
arithmetic agrees with the mathematical value, the result does not wrap
and is at least `n`; beyond that bound the addition `n + D + (D-1)` wraps
(see `c8_counterexample`). -/
theorem c8_amended (n : Nat) (h : n + 15 < 2 ^ 64) :
    adjust_size64 n = adjust_size n ∧ n ≤ adjust_size64 n ∧ adjust_size64 n % 8 = 0 := by
  have hn : n % 2 ^ 64 = n := Nat.mod_eq_of_lt (by omega)
  unfold adjust_size64 adjust_size DSIZE
  rw [hn]
  by_cases hsmall : n ≤ 8
  · simp [hsmall]
    omega
  · simp only [if_neg hsmall]
    have h15 : (n + 8 + (8 - 1)) % 2 ^ 64 = n + 8 + (8 - 1) := Nat.mod_eq_of_lt (by omega)
    rw [h15]
    have hle : 8 * ((n + 8 + (8 - 1)) / 8) % 2 ^ 64 = 8 * ((n + 8 + (8 - 1)) / 8) :=
      Nat.mod_eq_of_lt (by omega)
    rw [hle]
    omega

/-- Witness for `c8_amended` at `n = 100`. -/
theorem c8_amended_witness :
    adjust_size64 100 = adjust_size 100 ∧ 100 ≤ adjust_size64 100 ∧
      adjust_size64 100 % 8 = 0 :=
  c8_amended 100 (by norm_num)

/-- Claim C3: the no-adjacent-free-blocks invariant is broken by the code.
After `init; a = malloc(4200); b = malloc(4200); c = malloc(4200);
free(c); realloc(b, 1)` (page size 4096), the realloc shrink path
(mm.c lines 412-429) splits off a free remainder of 4192 bytes directly
before the free block left by `free(c)` and inserts it without coalescing,
so between public calls two adjacent blocks are both free — a state the
code's own `mm_check` rejects. -/
theorem c3_adjacent_free_reachable :
    Reach 4096 traceUncoalesced ∧
    checkNoAdjacentFree traceUncoalesced.blocks = false ∧
    mm_check traceUncoalesced = false :=
  ⟨Reach.step _ (Reach.step _ (Reach.step _ (Reach.step _ (Reach.step _
      Reach.init (by decide)) (by decide)) (by decide)) (by decide)) (by decide),
    by decide, by decide⟩

/-- Claim C7, counterexample: a free block of size 16 (< 32, and < 24) is
reachable.  After `init; a = malloc(1); b = malloc(1); c = malloc(1);
d = malloc(1); free(b)` (page size 4096), `b`'s size-16 block has
allocated neighbours on both sides, so `free(b)` leaves a free block of
size 16 in the heap between public calls. -/
theorem c7_counterexample :
    Reach 4096 traceFree16 ∧
    (traceFree16.blocks.any fun b => !b.alloc && decide (b.size < specFreeMin)) = true ∧
    (traceFree16.blocks.any fun b => !b.alloc && decide (b.size = 16)) = true :=
  ⟨Reach.step _ (Reach.step _ (Reach.step _ (Reach.step _ (Reach.step _
      Reach.init (by decide)) (by decide)) (by decide)) (by decide)) (by decide),
    by decide, by decide⟩

/-- Claim C9, counterexample: `mm_check` is not complete for the §3
invariants.  On the reachable state of `traceFree16` (which contains a
free block of size 16, violating §3's free-size minimum) every scan of
`mm_check` passes — `mm_check` never examines block sizes (nor tag
equality, nor the sentinels) — so it answers `true` while §3 fails. -/
theorem c9_counterexample :
    Reach 4096 traceFree16 ∧ mm_check traceFree16 = true ∧ inv3 traceFree16 = false :=
  ⟨Reach.step _ (Reach.step _ (Reach.step _ (Reach.step _ (Reach.step _
      Reach.init (by decide)) (by decide)) (by decide)) (by decide)) (by decide),
    by decide, by decide⟩

/-- `List.getD` yields a member of the list or the default. -/
theorem getD_mem_or {α : Type} (l : List α) (i : Nat) (d : α) :
    l.getD i d ∈ l ∨ l.getD i d = d := by
  induction l generalizing i with
  | nil => right; simp
  | cons x xs ih =>
    cases i with
    | zero => left; simp
    | succ j =>
      rcases ih j with h | h
      · left
        simpa using Or.inr h
      · right
        simpa using h

/-- `List.getD` at an index within bounds is a member. -/
theorem getD_mem {α : Type} (l : List α) (i : Nat) (d : α) (h : i < l.length) :
    l.getD i d ∈ l := by
  induction l generalizing i with
  | nil => simp at h
  | cons x xs ih =>
    cases i with
    | zero => simp
    | succ j =>
      simp only [List.length_cons, Nat.succ_lt_succ_iff] at h
      simpa using Or.inr (ih j h)

/-- Members of `List.set` are members of the list or the new value. -/
theorem mem_set_or {α : Type} (l : List α) (i : Nat) (v x : α) (h : x ∈ l.set i v) :
    x ∈ l ∨ x = v := by
  induction l generalizing i with
  | nil => simp at h
  | cons a as ih =>
    cases i with
    | zero =>
      rcases List.mem_cons.mp h with h1 | h1
      · right; exact h1
      · left; exact List.mem_cons_of_mem _ h1
    | succ j =>
      rcases List.mem_cons.mp h with h1 | h1
      · left; simp [h1]
      · rcases ih j h1 with h2 | h2
        · left; exact List.mem_cons_of_mem _ h2
        · right; exact h2

/-- Members of `updBlks` are members of the original list or the image of
one under the update. -/
theorem mem_updBlks_or (bs : List Blk) (base a : Nat) (f : Blk → Blk) (x : Blk)
    (h : x ∈ updBlks bs base a f) : x ∈ bs ∨ ∃ b ∈ bs, x = f b := by
  induction bs generalizing base with
  | nil => simp [updBlks] at h
  | cons b rest ih =>
    simp only [updBlks] at h
    by_cases hba : a = base
    · rw [if_pos hba] at h
      rcases List.mem_cons.mp h with h1 | h1
      · right; exact ⟨b, List.mem_cons_self b rest, h1⟩
      · left; exact List.mem_cons_of_mem _ h1
    · rw [if_neg hba] at h
      rcases List.mem_cons.mp h with h1 | h1
      · left; simp [h1]
      · rcases ih (base + b.size) h1 with h2 | ⟨b0, hb0, he⟩
        · left; exact List.mem_cons_of_mem _ h2
        · right; exact ⟨b0, List.mem_cons_of_mem _ hb0, he⟩

/-- A block found by address is a member of the list. -/
theorem getBlkAux_mem (bs : List Blk) (base a : Nat) (b : Blk)
    (h : getBlkAux bs base a = some b) : b ∈ bs := by
  induction bs generalizing base with
  | nil => simp [getBlkAux] at h
  | cons x xs ih =>
    simp only [getBlkAux] at h
    by_cases hba : a = base
    · rw [if_pos hba] at h
      cases h
      exact List.mem_cons_self _ _
    · rw [if_neg hba] at h
      exact List.mem_cons_of_mem _ (ih (base + x.size) h)

/-- An address at which a block is found is aligned, provided the walk
starts aligned and all sizes are multiples of 8. -/
theorem getBlkAux_aligned (bs : List Blk) (base a : Nat) (b : Blk)
    (h : getBlkAux bs base a = some b) (hb : base % 8 = 0)
    (hs : ∀ x ∈ bs, x.size % 8 = 0) : a % 8 = 0 := by
  induction bs generalizing base with
  | nil => simp [getBlkAux] at h
  | cons x xs ih =>
    simp only [getBlkAux] at h
    by_cases hba : a = base
    · rw [hba]; exact hb
    · rw [if_neg hba] at h
      have hx : x.size % 8 = 0 := hs x (List.mem_cons_self x xs)
      exact ih (base + x.size) h (by omega) (fun y hy => hs y (List.mem_cons_of_mem _ hy))

/-- `idxAux` and `getBlkAux` find a block at the same addresses. -/
theorem idxAux_isSome_iff (bs : List Blk) (base a : Nat) :
    (idxAux bs base a).isSome = (getBlkAux bs base a).isSome := by
  induction bs generalizing base with
  | nil => simp [idxAux, getBlkAux]
  | cons x xs ih =>
    simp only [idxAux, getBlkAux]
    by_cases hba : a = base
    · simp [hba]
    · simp only [if_neg hba]
      rw [← ih (base + x.size)]
      cases idxAux xs (base + x.size) a <;> simp

/-- The index found by `idxAux` is within bounds. -/
theorem idxAux_lt_length (bs : List Blk) (base a i : Nat)
    (h : idxAux bs base a = some i) : i < bs.length := by
  induction bs generalizing base i with
  | nil => simp [idxAux] at h
  | cons x xs ih =>
    simp only [idxAux] at h
    by_cases hba : a = base
    · rw [if_pos hba] at h
      cases h
      simp
    · rw [if_neg hba] at h
      cases hi : idxAux xs (base + x.size) a with
      | none => rw [hi] at h; simp at h
      | some j =>
        rw [hi] at h
        simp at h
        have := ih (base + x.size) j hi
        simp only [List.length_cons]
        omega

/-- An address with an index is aligned, under aligned sizes. -/
theorem idxOf_aligned (st : State) (a i : Nat) (h : idxOf st a = some i)
    (hs : ∀ x ∈ st.blocks, x.size % 8 = 0) : a % 8 = 0 := by
  have h1 : (idxOf st a).isSome = true := by rw [h]; rfl
  rw [idxOf, idxAux_isSome_iff] at h1
  cases hg : getBlkAux st.blocks 16 a with
  | none => rw [hg] at h1; simp at h1
  | some b => exact getBlkAux_aligned st.blocks 16 a b hg (by norm_num) hs

/-- The sum of multiples of 8 is one. -/
theorem sumSizes_aligned (bs : List Blk) (h : ∀ b ∈ bs, b.size % 8 = 0) :
    sumSizes bs % 8 = 0 := by
  induction bs with
  | nil => simp [sumSizes]
  | cons x xs ih =>
    have hx : x.size % 8 = 0 := h x (List.mem_cons_self x xs)
    have hxs : sumSizes xs % 8 = 0 := ih (fun y hy => h y (List.mem_cons_of_mem _ hy))
    simp only [sumSizes, List.map_cons, List.sum_cons] at *
    omega

/-- `sizeAt` reads a multiple of 8 under the size invariant. -/
theorem sizeAt_aligned (st : State) (a : Nat) (h : sizesOK st) : sizeAt st a % 8 = 0 := by
  unfold sizeAt
  cases hg : getBlk st a with
  | none => simp
  | some b =>
    have := (h b (getBlkAux_mem _ _ _ _ hg)).1
    simpa using this

/-- `nextLinkAt` reads an aligned optional address. -/
theorem nextLinkAt_aligned (st : State) (a : Nat) (h : linksOK st) :
    alignedO (nextLinkAt st a) := by
  unfold nextLinkAt
  cases hg : getBlk st a with
  | none => intro x hx; simp at hx
  | some b =>
    have := (h.2 b (getBlkAux_mem _ _ _ _ hg)).1
    simpa using this

/-- `prevLinkAt` reads an aligned optional address. -/
theorem prevLinkAt_aligned (st : State) (a : Nat) (h : linksOK st) :
    alignedO (prevLinkAt st a) := by
  unfold prevLinkAt
  cases hg : getBlk st a with
  | none => intro x hx; simp at hx
  | some b =>
    have := (h.2 b (getBlkAux_mem _ _ _ _ hg)).2
    simpa using this

/-- Class-list heads are aligned optional addresses. -/
theorem headsGetD_aligned (st : State) (idx : Nat) (h : linksOK st) :
    alignedO (st.heads.getD idx none) := by
  rcases getD_mem_or st.heads idx none with hm | hd
  · exact h.1 _ hm
  · rw [hd]; intro x hx; simp at hx

/-- `NULL` is an aligned optional address. -/
theorem alignedO_none : alignedO none := fun _ ha => Option.noConfusion ha

/-- An aligned address is an aligned optional address. -/
theorem alignedO_some {x : Nat} (hx : x % 8 = 0) : alignedO (some x) := by
  intro a ha
  cases ha
  exact hx

/-- The invariant ignores the `alt` toggle. -/
theorem invAlign_alt (st : State) (b : Bool) (h : invAlign st) :
    invAlign { st with alt := b } := h

/-- `updateAt` preserves the invariant when the update keeps the size and
maps aligned links to aligned links. -/
theorem invAlign_updateAt (st : State) (a : Nat) (f : Blk → Blk) (h : invAlign st)
    (hsz : ∀ b, (f b).size = b.size)
    (hlk : ∀ b, alignedO b.next → alignedO b.prev →
      alignedO (f b).next ∧ alignedO (f b).prev) :
    invAlign (updateAt st a f) := by
  obtain ⟨hsizes, hheads, hlinks⟩ : sizesOK st ∧ _ ∧ _ := ⟨h.1, h.2.1, h.2.2⟩
  refine ⟨?_, ?_, ?_⟩
  · intro b hb
    rcases mem_updBlks_or _ _ _ _ _ hb with hm | ⟨b0, hb0, he⟩
    · exact hsizes b hm
    · rw [he, hsz]
      exact hsizes b0 hb0
  · exact hheads
  · intro b hb
    rcases mem_updBlks_or _ _ _ _ _ hb with hm | ⟨b0, hb0, he⟩
    · exact hlinks b hm
    · rw [he]
      exact hlk b0 (hlinks b0 hb0).1 (hlinks b0 hb0).2

/-- Replacing the heads by a version with one aligned entry set preserves
the invariant. -/
theorem invAlign_setHead (st : State) (idx : Nat) (v : Option Nat) (h : invAlign st)
    (hv : alignedO v) : invAlign { st with heads := st.heads.set idx v } := by
  refine ⟨h.1, ?_, h.2.2⟩
  intro o ho
  rcases mem_set_or _ _ _ _ ho with hm | he
  · exact h.2.1 o hm
  · rw [he]
    exact hv

/-- `insert_free_block` preserves the invariant when the inserted address
is aligned. -/
theorem invAlign_insert (st : State) (bp : Nat) (h : invAlign st) (hbp : bp % 8 = 0) :
    invAlign (insert_free_block st bp) := by
  have hh0 : alignedO (st.heads.getD (get_list_index (sizeAt st bp)) none) :=
    headsGetD_aligned st _ h.2
  have h1 : invAlign (updateAt st bp fun b =>
      { b with prev := none, next := st.heads.getD (get_list_index (sizeAt st bp)) none }) :=
    invAlign_updateAt _ _ _ h (fun _ => rfl) (fun _ _ _ => ⟨hh0, alignedO_none⟩)
  unfold insert_free_block
  dsimp only
  cases hh : st.heads.getD (get_list_index (sizeAt st bp)) none with
  | none =>
    rw [hh] at h1
    exact invAlign_setHead _ _ _ h1 (alignedO_some hbp)
  | some hd =>
    rw [hh] at h1
    have h2 := invAlign_updateAt _ hd (fun b => { b with prev := some bp }) h1
      (fun _ => rfl) (fun _ hn _ => ⟨hn, alignedO_some hbp⟩)
    exact invAlign_setHead _ _ _ h2 (alignedO_some hbp)

/-- `remove_free_block` preserves the invariant. -/
theorem invAlign_remove (st : State) (bp : Nat) (h : invAlign st) :
    invAlign (remove_free_block st bp) := by
  have hpv : alignedO (prevLinkAt st bp) := prevLinkAt_aligned st bp h.2
  have hnx : alignedO (nextLinkAt st bp) := nextLinkAt_aligned st bp h.2
  have h1 : invAlign (match prevLinkAt st bp with
      | some pb => updateAt st pb (fun b => { b with next := nextLinkAt st bp })
      | none => { st with
          heads := st.heads.set (get_list_index (sizeAt st bp)) (nextLinkAt st bp) }) := by
    cases hp : prevLinkAt st bp with
    | none => exact invAlign_setHead _ _ _ h hnx
    | some pb => exact invAlign_updateAt _ _ _ h (fun _ => rfl) (fun _ _ hp2 => ⟨hnx, hp2⟩)
  unfold remove_free_block
  dsimp only
  cases hn : nextLinkAt st bp with
  | none =>
    rw [hn] at h1
    exact h1
  | some nb =>
    rw [hn] at h1
    exact invAlign_updateAt _ _ _ h1 (fun _ => rfl) (fun _ hn2 _ => ⟨hn2, hpv⟩)

/-- Members of a `splice` come from the original list or the new blocks. -/
theorem mem_splice_or (bs : List Blk) (i k : Nat) (nbs : List Blk) (x : Blk)
    (h : x ∈ splice bs i k nbs) : x ∈ bs ∨ x ∈ nbs := by
  unfold splice at h
  rcases List.mem_append.mp h with h1 | h1
  · rcases List.mem_append.mp h1 with h2 | h2
    · exact Or.inl (List.take_subset i bs h2)
    · exact Or.inr h2
  · exact Or.inl (List.drop_subset _ bs h1)

/-- Replacing a segment of the blocks by well-formed new blocks preserves
the invariant. -/
theorem invAlign_splice (blocks : List Blk) (heads : List (Option Nat)) (alt : Bool)
    (i k : Nat) (nbs : List Blk) (h : invAlign ⟨blocks, heads, alt⟩)
    (hn : ∀ b ∈ nbs, (b.size % 8 = 0 ∧ 16 ≤ b.size) ∧ alignedO b.next ∧ alignedO b.prev) :
    invAlign ⟨splice blocks i k nbs, heads, alt⟩ := by
  refine ⟨?_, h.2.1, ?_⟩
  · intro b hb
    rcases mem_splice_or _ _ _ _ _ hb with hm | hm
    · exact h.1 b hm
    · exact (hn b hm).1
  · intro b hb
    rcases mem_splice_or _ _ _ _ _ hb with hm | hm
    · exact h.2.2 b hm
    · exact (hn b hm).2

/-- The adjusted size is a multiple of 8 and at least 16. -/
theorem adjust_size_basic (n : Nat) : adjust_size n % 8 = 0 ∧ 16 ≤ adjust_size n := by
  unfold adjust_size DSIZE
  split
  · omega
  · constructor <;> omega

/-- `place` preserves the invariant and returns an aligned payload
pointer, for an aligned candidate and adjusted size. -/
theorem place_invAlign (st : State) (bp asize : Nat) (h : invAlign st) (hbp : bp % 8 = 0)
    (ha8 : asize % 8 = 0) (ha16 : 16 ≤ asize) :
    invAlign (place st bp asize).1 ∧ (place st bp asize).2 % 8 = 0 := by
  have hcs : sizeAt st bp % 8 = 0 := sizeAt_aligned st bp h.1
  have h0 : invAlign (remove_free_block st bp) := invAlign_remove st bp h
  unfold place
  dsimp only
  split
  · rename_i hsplit
    rw [MINIMUM_UNALLOC] at hsplit
    split
    · cases hio : idxOf (remove_free_block st bp) bp with
      | none => exact ⟨invAlign_alt _ _ h0, hbp⟩
      | some i =>
        constructor
        · apply invAlign_alt
          apply invAlign_insert _ _ _ hbp
          apply invAlign_splice _ _ _ _ _ _ h0
          intro b hb
          simp only [List.mem_cons, List.mem_singleton, List.not_mem_nil, or_false] at hb
          rcases hb with hb | hb <;> subst hb
          · exact ⟨⟨by dsimp only [freeBlk]; omega, by dsimp only [freeBlk]; omega⟩, alignedO_none, alignedO_none⟩
          · exact ⟨⟨by dsimp only; exact ha8, by dsimp only; exact ha16⟩, alignedO_none, alignedO_none⟩
        · dsimp only
          omega
    · cases hio : idxOf (remove_free_block st bp) bp with
      | none => exact ⟨invAlign_alt _ _ h0, hbp⟩
      | some i =>
        refine ⟨?_, hbp⟩
        apply invAlign_alt
        apply invAlign_insert _ _ _ (by omega : (bp + asize) % 8 = 0)
        apply invAlign_splice _ _ _ _ _ _ h0
        intro b hb
        simp only [List.mem_cons, List.mem_singleton, List.not_mem_nil, or_false] at hb
        rcases hb with hb | hb <;> subst hb
        · exact ⟨⟨by dsimp only; exact ha8, by dsimp only; exact ha16⟩, alignedO_none, alignedO_none⟩
        · exact ⟨⟨by dsimp only [freeBlk]; omega, by dsimp only [freeBlk]; omega⟩, alignedO_none, alignedO_none⟩
  · refine ⟨?_, hbp⟩
    apply invAlign_alt
    exact invAlign_updateAt _ _ _ h0 (fun _ => rfl) (fun _ x y => ⟨x, y⟩)

/-- `coalesce` preserves the invariant and returns an aligned pointer. -/
theorem coalesce_invAlign (st : State) (bp : Nat) (h : invAlign st) (hbp : bp % 8 = 0) :
    invAlign (coalesce st bp).1 ∧ (coalesce st bp).2 % 8 = 0 := by
  unfold coalesce
  cases hi : idxOf st bp with
  | none => exact ⟨h, hbp⟩
  | some i =>
    dsimp only
    have hlen : i < st.blocks.length := idxAux_lt_length _ _ _ _ hi
    have hsi := h.1 _ (getD_mem st.blocks i default hlen)
    split
    · exact ⟨invAlign_insert st bp h hbp, hbp⟩
    · rename_i hc1
      split
      · rename_i hc2
        have hna : (decide (i + 1 = st.blocks.length) ||
            (st.blocks.getD (i + 1) default).alloc) = false := by
          cases hx : (decide (i + 1 = st.blocks.length) || (st.blocks.getD (i + 1) default).alloc)
          · rfl
          · rw [hx] at hc2; simp at hc2
        have hi1 : i + 1 < st.blocks.length := by
          simp only [Bool.or_eq_false_iff, decide_eq_false_iff_not] at hna
          omega
        have hsn := h.1 _ (getD_mem st.blocks (i + 1) default hi1)
        refine ⟨?_, hbp⟩
        apply invAlign_insert _ _ _ hbp
        apply invAlign_splice _ _ _ _ _ _ (invAlign_remove st _ h)
        intro b hb
        simp only [List.mem_singleton] at hb
        subst hb
        exact ⟨⟨by dsimp only [freeBlk]; omega, by dsimp only [freeBlk]; omega⟩, alignedO_none, alignedO_none⟩
      · rename_i hc2
        split
        · rename_i hc3
          have hpa : (decide (i = 0) || (st.blocks.getD (i - 1) default).alloc) = false := by
            cases hx : (decide (i = 0) || (st.blocks.getD (i - 1) default).alloc)
            · rfl
            · rw [hx] at hc3; simp at hc3
          have hi0 : i ≠ 0 := by
            simp only [Bool.or_eq_false_iff, decide_eq_false_iff_not] at hpa
            exact hpa.1
          have hi1 : i - 1 < st.blocks.length := by omega
          have hsp := h.1 _ (getD_mem st.blocks (i - 1) default hi1)
          refine ⟨?_, by omega⟩
          apply invAlign_insert _ _ _ (by omega)
          apply invAlign_splice _ _ _ _ _ _ (invAlign_remove st _ h)
          intro b hb
          simp only [List.mem_singleton] at hb
          subst hb
          exact ⟨⟨by dsimp only [freeBlk]; omega, by dsimp only [freeBlk]; omega⟩, alignedO_none, alignedO_none⟩
        · rename_i hc3
          have hP : (decide (i = 0) || (st.blocks.getD (i - 1) default).alloc) = false := by
            cases hx : (decide (i = 0) || (st.blocks.getD (i - 1) default).alloc)
            · rfl
            · cases hy : (decide (i + 1 = st.blocks.length) || (st.blocks.getD (i + 1) default).alloc)
              · rw [hx, hy] at hc2; simp at hc2
              · rw [hx, hy] at hc1; simp at hc1
          have hN : (decide (i + 1 = st.blocks.length) ||
              (st.blocks.getD (i + 1) default).alloc) = false := by
            cases hy : (decide (i + 1 = st.blocks.length) || (st.blocks.getD (i + 1) default).alloc)
            · rfl
            · rw [hP, hy] at hc3; simp at hc3
          have hi0 : i ≠ 0 := by
            simp only [Bool.or_eq_false_iff, decide_eq_false_iff_not] at hP
            exact hP.1
          have hi1 : i + 1 < st.blocks.length := by
            simp only [Bool.or_eq_false_iff, decide_eq_false_iff_not] at hN
            omega
          have him : i - 1 < st.blocks.length := by omega
          have hsp := h.1 _ (getD_mem st.blocks (i - 1) default him)
          have hsn := h.1 _ (getD_mem st.blocks (i + 1) default hi1)
          refine ⟨?_, by omega⟩
          apply invAlign_insert _ _ _ (by omega)
          apply invAlign_splice _ _ _ _ _ _ (invAlign_remove (remove_free_block st _) _
            (invAlign_remove st _ h))
          intro b hb
          simp only [List.mem_singleton] at hb
          subst hb
          exact ⟨⟨by dsimp only [freeBlk]; omega, by dsimp only [freeBlk]; omega⟩, alignedO_none, alignedO_none⟩

/-- `extend_heap` preserves the invariant and returns an aligned pointer
when the region grows. -/
theorem extend_invAlign (st : State) (words : Nat) (ok : Bool) (st2 : State) (bp : Nat)
    (h : invAlign st) (he : extend_heap st words ok = some (st2, bp)) :
    invAlign st2 ∧ bp % 8 = 0 := by
  unfold extend_heap at he
  cases ok with
  | false => simp at he
  | true =>
    simp only [Bool.not_true, Bool.false_eq_true, if_false, Option.some_inj] at he
    have hsz8 : (if (if words % 2 = 1 then (words + 1) * 4 else words * 4) < MINIMUM_UNALLOC
        then MINIMUM_UNALLOC
        else if words % 2 = 1 then (words + 1) * 4 else words * 4) % 8 = 0 := by
      rw [MINIMUM_UNALLOC]
      by_cases hw : words % 2 = 1
      · simp only [if_pos hw]
        split <;> omega
      · simp only [if_neg hw]
        split <;> omega
    have hsz16 : 16 ≤ (if (if words % 2 = 1 then (words + 1) * 4 else words * 4) < MINIMUM_UNALLOC
        then MINIMUM_UNALLOC
        else if words % 2 = 1 then (words + 1) * 4 else words * 4) := by
      rw [MINIMUM_UNALLOC]
      by_cases hw : words % 2 = 1
      · simp only [if_pos hw]
        split <;> omega
      · simp only [if_neg hw]
        split <;> omega
    have hbase : (16 + sumSizes st.blocks) % 8 = 0 := by
      have := sumSizes_aligned st.blocks (fun b hb => (h.1 b hb).1)
      omega
    have h1 : invAlign { st with blocks := st.blocks ++
        [freeBlk (if (if words % 2 = 1 then (words + 1) * 4 else words * 4) < MINIMUM_UNALLOC
          then MINIMUM_UNALLOC
          else if words % 2 = 1 then (words + 1) * 4 else words * 4)] } := by
      refine ⟨?_, h.2.1, ?_⟩
      · intro b hb
        rcases List.mem_append.mp hb with hm | hm
        · exact h.1 b hm
        · simp only [List.mem_singleton] at hm
          subst hm
          exact ⟨hsz8, hsz16⟩
      · intro b hb
        rcases List.mem_append.mp hb with hm | hm
        · exact h.2.2 b hm
        · simp only [List.mem_singleton] at hm
          subst hm
          exact ⟨alignedO_none, alignedO_none⟩
    have hco := coalesce_invAlign _ (16 + sumSizes st.blocks) h1 hbase
    show invAlign (st2, bp).1 ∧ (st2, bp).2 % 8 = 0
    rw [← he]
    exact hco

/-- The inner best-fit scan only returns addresses drawn from the cursor
chain or the running best, so its result is aligned. -/
theorem fit_in_list_aligned (st : State) (asize : Nat) (hl : linksOK st) :
    ∀ fuel cur depth best, alignedO cur →
      (∀ p q, best = some (p, q) → p % 8 = 0) →
      ∀ p q, fit_in_list st asize fuel cur depth best = some (p, q) → p % 8 = 0 := by
  intro fuel
  induction fuel with
  | zero =>
    intro cur depth best _ hbest p q hf
    exact hbest p q hf
  | succ m ih =>
    intro cur depth best hcur hbest p q hf
    cases cur with
    | none => exact hbest p q hf
    | some bp =>
      have hbp : bp % 8 = 0 := hcur bp rfl
      rw [fit_in_list] at hf
      dsimp only at hf
      cases best with
      | none =>
        dsimp only at hf
        split at hf
        · split at hf
          · rw [Option.some_inj] at hf
            rw [show p = bp from (congrArg Prod.fst hf).symm]
            exact hbp
          · refine ih (nextLinkAt st bp) (depth + 1) _ (nextLinkAt_aligned st bp hl) ?_ p q hf
            intro p2 q2 hb2
            split at hb2
            · rw [Option.some_inj] at hb2
              rw [show p2 = bp from (congrArg Prod.fst hb2).symm]
              exact hbp
            · exact absurd hb2 (by simp)
        · exact absurd hf (by simp)
      | some pr =>
        obtain ⟨bb, bsz⟩ := pr
        have hbb : bb % 8 = 0 := hbest bb bsz rfl
        dsimp only at hf
        split at hf
        · split at hf
          · rw [Option.some_inj] at hf
            rw [show p = bp from (congrArg Prod.fst hf).symm]
            exact hbp
          · refine ih (nextLinkAt st bp) (depth + 1) _ (nextLinkAt_aligned st bp hl) ?_ p q hf
            intro p2 q2 hb2
            split at hb2
            · rw [Option.some_inj] at hb2
              rw [show p2 = bp from (congrArg Prod.fst hb2).symm]
              exact hbp
            · rw [Option.some_inj] at hb2
              rw [show p2 = bb from (congrArg Prod.fst hb2).symm]
              exact hbb
        · rw [Option.some_inj] at hf
          rw [show p = bb from (congrArg Prod.fst hf).symm]
          exact hbb

/-- The outer class scan returns aligned addresses. -/
theorem fit_from_aligned (st : State) (asize : Nat) (hl : linksOK st) :
    ∀ fuel i a, fit_from st asize i fuel = some a → a % 8 = 0 := by
  intro fuel
  induction fuel with
  | zero =>
    intro i a hf
    rw [fit_from] at hf
    exact absurd hf (by simp)
  | succ m ih =>
    intro i a hf
    rw [fit_from] at hf
    split at hf
    · exact absurd hf (by simp)
    · cases hfit : fit_in_list st asize (walkFuel st) (st.heads.getD i none) 0 none with
      | some pq =>
        rw [hfit] at hf
        have hp : pq.1 = a := by
          cases pq
          rw [Option.some_inj] at hf
          exact hf
        rw [← hp]
        exact fit_in_list_aligned st asize hl (walkFuel st) _ 0 none
          (headsGetD_aligned st i hl) (fun p q hpq => by cases hpq) pq.1 pq.2
          (by rw [hfit])
      | none =>
        rw [hfit] at hf
        exact ih (i + 1) a hf

/-- `find_fit` returns aligned addresses. -/
theorem find_fit_aligned (st : State) (asize a : Nat) (hl : linksOK st)
    (hf : find_fit st asize = some a) : a % 8 = 0 :=
  fit_from_aligned st asize hl 16 (get_list_index asize) a hf

/-- `mm_malloc` preserves the invariant and returns `NULL` or an aligned
payload pointer (0 is itself a multiple of 8). -/
theorem malloc_invAlign (chunk : Nat) (st : State) (n : Nat) (ok : Bool) (h : invAlign st) :
    invAlign (mm_malloc chunk st n ok).1 ∧ (mm_malloc chunk st n ok).2 % 8 = 0 := by
  unfold mm_malloc
  split
  · exact ⟨h, by norm_num⟩
  · dsimp only
    cases hf : find_fit st (adjust_size n) with
    | some bp =>
      exact place_invAlign st bp _ h (find_fit_aligned st _ bp h.2 hf)
        (adjust_size_basic n).1 (adjust_size_basic n).2
    | none =>
      cases he : extend_heap st (max (adjust_size n) chunk / 4) ok with
      | none => exact ⟨h, by norm_num⟩
      | some pr =>
        have hx := extend_invAlign st _ ok pr.1 pr.2 h (by rw [he])
        exact place_invAlign _ pr.2 _ (invAlign_alt _ _ hx.1) hx.2
          (adjust_size_basic n).1 (adjust_size_basic n).2

/-- `mm_free` preserves the invariant. -/
theorem free_invAlign (st : State) (p : Nat) (h : invAlign st) : invAlign (mm_free st p) := by
  unfold mm_free
  split
  · exact h
  · cases hi : idxOf st p with
    | none => exact h
    | some i =>
      have hp : p % 8 = 0 := idxOf_aligned st p i hi (fun x hx => (h.1 x hx).1)
      have h1 := invAlign_updateAt st p (fun b => { b with alloc := false }) h
        (fun _ => rfl) (fun _ x y => ⟨x, y⟩)
      exact (coalesce_invAlign _ p h1 hp).1

/-- `mm_realloc` preserves the invariant and returns `NULL` or an aligned
payload pointer, for an aligned argument pointer and `CHUNKSIZE ≥ 16`
(every real page size satisfies this). -/
theorem realloc_invAlign (chunk : Nat) (st : State) (p n : Nat) (ok : Bool)
    (h : invAlign st) (hch : 16 ≤ chunk) (hp8 : p % 8 = 0) :
    invAlign (mm_realloc chunk st p n ok).1 ∧ (mm_realloc chunk st p n ok).2 % 8 = 0 := by
  unfold mm_realloc
  split
  · exact malloc_invAlign chunk st n ok h
  · split
    · exact ⟨free_invAlign st p h, by norm_num⟩
    · cases hi : idxOf st p with
      | none => exact ⟨h, hp8⟩
      | some i =>
        dsimp only
        have hlen : i < st.blocks.length := idxAux_lt_length _ _ _ _ hi
        have hold := h.1 _ (getD_mem st.blocks i default hlen)
        have ha := adjust_size_basic n
        split
        · split
          · dsimp only
            refine ⟨?_, hp8⟩
            apply invAlign_insert _ _ _ (by omega)
            apply invAlign_splice _ _ _ _ _ _ h
            intro b hb
            simp only [List.mem_cons, List.mem_singleton, List.not_mem_nil, or_false] at hb
            rcases hb with hb | hb <;> subst hb
            · exact ⟨⟨by dsimp only; exact ha.1, by dsimp only; exact ha.2⟩,
                alignedO_none, alignedO_none⟩
            · exact ⟨⟨by dsimp only [freeBlk]; omega, by dsimp only [freeBlk]; omega⟩,
                alignedO_none, alignedO_none⟩
          · exact ⟨h, hp8⟩
        · cases hNA : (decide (i + 1 = st.blocks.length) ||
              (st.blocks.getD (i + 1) default).alloc) with
          | false =>
            have hi1 : i + 1 < st.blocks.length := by
              simp only [Bool.or_eq_false_iff, decide_eq_false_iff_not] at hNA
              omega
            have hnx := h.1 _ (getD_mem st.blocks (i + 1) default hi1)
            simp only [Bool.not_false, Bool.true_and, Bool.false_eq_true, if_false,
              decide_eq_true_eq]
            split
            · -- grow into next
              split
              · dsimp only
                refine ⟨?_, hp8⟩
                apply invAlign_insert _ _ _ (by omega)
                apply invAlign_splice
                · apply invAlign_splice _ _ _ _ _ _ (invAlign_remove st _ h)
                  intro b hb
                  simp only [List.mem_singleton] at hb
                  subst hb
                  exact ⟨⟨by dsimp only; omega, by dsimp only; omega⟩,
                    alignedO_none, alignedO_none⟩
                · intro b hb
                  simp only [List.mem_cons, List.mem_singleton, List.not_mem_nil, or_false] at hb
                  rcases hb with hb | hb <;> subst hb
                  · exact ⟨⟨by dsimp only; exact ha.1, by dsimp only; exact ha.2⟩,
                      alignedO_none, alignedO_none⟩
                  · exact ⟨⟨by dsimp only [freeBlk]; omega, by dsimp only [freeBlk]; omega⟩,
                      alignedO_none, alignedO_none⟩
              · dsimp only
                refine ⟨?_, hp8⟩
                apply invAlign_splice _ _ _ _ _ _ (invAlign_remove st _ h)
                intro b hb
                simp only [List.mem_singleton] at hb
                subst hb
                exact ⟨⟨by dsimp only; omega, by dsimp only; omega⟩,
                  alignedO_none, alignedO_none⟩
            · cases hPA : (decide (i = 0) || (st.blocks.getD (i - 1) default).alloc) with
              | false =>
                have hi0 : i ≠ 0 := by
                  simp only [Bool.or_eq_false_iff, decide_eq_false_iff_not] at hPA
                  exact hPA.1
                have him : i - 1 < st.blocks.length := by omega
                have hpv := h.1 _ (getD_mem st.blocks (i - 1) default him)
                simp only [Bool.not_false, Bool.true_and, Bool.false_eq_true, if_false,
                  decide_eq_true_eq]
                split
                · -- grow into previous
                  split
                  · dsimp only
                    refine ⟨?_, by omega⟩
                    apply invAlign_insert _ _ _ (by omega)
                    apply invAlign_splice
                    · apply invAlign_splice _ _ _ _ _ _ (invAlign_remove st _ h)
                      intro b hb
                      simp only [List.mem_singleton] at hb
                      subst hb
                      exact ⟨⟨by dsimp only; omega, by dsimp only; omega⟩,
                        alignedO_none, alignedO_none⟩
                    · intro b hb
                      simp only [List.mem_cons, List.mem_singleton, List.not_mem_nil,
                        or_false] at hb
                      rcases hb with hb | hb <;> subst hb
                      · exact ⟨⟨by dsimp only; exact ha.1, by dsimp only; exact ha.2⟩,
                          alignedO_none, alignedO_none⟩
                      · exact ⟨⟨by dsimp only [freeBlk]; omega,
                          by dsimp only [freeBlk]; omega⟩, alignedO_none, alignedO_none⟩
                  · dsimp only
                    refine ⟨?_, by omega⟩
                    apply invAlign_splice _ _ _ _ _ _ (invAlign_remove st _ h)
                    intro b hb
                    simp only [List.mem_singleton] at hb
                    subst hb
                    exact ⟨⟨by dsimp only; omega, by dsimp only; omega⟩,
                      alignedO_none, alignedO_none⟩
                · split
                  · -- grow into both
                    split
                    · dsimp only
                      refine ⟨?_, by omega⟩
                      apply invAlign_insert _ _ _ (by omega)
                      apply invAlign_splice
                      · apply invAlign_splice _ _ _ _ _ _
                          (invAlign_remove _ _ (invAlign_remove st _ h))
                        intro b hb
                        simp only [List.mem_singleton] at hb
                        subst hb
                        exact ⟨⟨by dsimp only; omega, by dsimp only; omega⟩,
                          alignedO_none, alignedO_none⟩
                      · intro b hb
                        simp only [List.mem_cons, List.mem_singleton, List.not_mem_nil,
                          or_false] at hb
                        rcases hb with hb | hb <;> subst hb
                        · exact ⟨⟨by dsimp only; exact ha.1, by dsimp only; exact ha.2⟩,
                            alignedO_none, alignedO_none⟩
                        · exact ⟨⟨by dsimp only [freeBlk]; omega,
                            by dsimp only [freeBlk]; omega⟩, alignedO_none, alignedO_none⟩
                    · dsimp only
                      refine ⟨?_, by omega⟩
                      apply invAlign_splice _ _ _ _ _ _
                        (invAlign_remove _ _ (invAlign_remove st _ h))
                      intro b hb
                      simp only [List.mem_singleton] at hb
                      subst hb
                      exact ⟨⟨by dsimp only; omega, by dsimp only; omega⟩,
                        alignedO_none, alignedO_none⟩
                  · have hm := malloc_invAlign chunk st (n * 1) ok h
                    split
                    · exact ⟨hm.1, by norm_num⟩
                    · dsimp only
                      exact ⟨free_invAlign _ p
                        (invAlign_updateAt _ _ _ hm.1 (fun _ => rfl)
                          (fun _ x y => ⟨x, y⟩)), hm.2⟩
              | true =>
                simp only [Bool.not_true, Bool.false_and, Bool.false_eq_true, if_false,
                  Bool.and_false]
                have hm := malloc_invAlign chunk st (n * 1) ok h
                split
                · exact ⟨hm.1, by norm_num⟩
                · dsimp only
                  exact ⟨free_invAlign _ p
                    (invAlign_updateAt _ _ _ hm.1 (fun _ => rfl)
                      (fun _ x y => ⟨x, y⟩)), hm.2⟩
          | true =>
            simp only [Bool.not_true, Bool.false_and, Bool.false_eq_true, if_false,
              Bool.and_false]
            cases hPA : (decide (i = 0) || (st.blocks.getD (i - 1) default).alloc) with
            | false =>
              have hi0 : i ≠ 0 := by
                simp only [Bool.or_eq_false_iff, decide_eq_false_iff_not] at hPA
                exact hPA.1
              have him : i - 1 < st.blocks.length := by omega
              have hpv := h.1 _ (getD_mem st.blocks (i - 1) default him)
              simp only [Bool.not_false, Bool.true_and, Bool.false_eq_true, if_false,
                decide_eq_true_eq]
              split
              · -- grow into previous
                split
                · dsimp only
                  refine ⟨?_, by omega⟩
                  apply invAlign_insert _ _ _ (by omega)
                  apply invAlign_splice
                  · apply invAlign_splice _ _ _ _ _ _ (invAlign_remove st _ h)
                    intro b hb
                    simp only [List.mem_singleton] at hb
                    subst hb
                    exact ⟨⟨by dsimp only; omega, by dsimp only; omega⟩,
                      alignedO_none, alignedO_none⟩
                  · intro b hb
                    simp only [List.mem_cons, List.mem_singleton, List.not_mem_nil,
                      or_false] at hb
                    rcases hb with hb | hb <;> subst hb
                    · exact ⟨⟨by dsimp only; exact ha.1, by dsimp only; exact ha.2⟩,
                        alignedO_none, alignedO_none⟩
                    · exact ⟨⟨by dsimp only [freeBlk]; omega,
                        by dsimp only [freeBlk]; omega⟩, alignedO_none, alignedO_none⟩
                · dsimp only
                  refine ⟨?_, by omega⟩
                  apply invAlign_splice _ _ _ _ _ _ (invAlign_remove st _ h)
                  intro b hb
                  simp only [List.mem_singleton] at hb
                  subst hb
                  exact ⟨⟨by dsimp only; omega, by dsimp only; omega⟩,
                    alignedO_none, alignedO_none⟩
              · have hm := malloc_invAlign chunk st (n * 1) ok h
                split
                · exact ⟨hm.1, by norm_num⟩
                · dsimp only
                  exact ⟨free_invAlign _ p
                    (invAlign_updateAt _ _ _ hm.1 (fun _ => rfl)
                      (fun _ x y => ⟨x, y⟩)), hm.2⟩
            | true =>
              simp only [Bool.not_true, Bool.false_and, Bool.false_eq_true, if_false,
                Bool.and_false]
              have hm := malloc_invAlign chunk st (n * 1) ok h
              split
              · exact ⟨hm.1, by norm_num⟩
              · dsimp only
                exact ⟨free_invAlign _ p
                  (invAlign_updateAt _ _ _ hm.1 (fun _ => rfl)
                    (fun _ x y => ⟨x, y⟩)), hm.2⟩

/-- The empty pre-init state satisfies the invariant. -/
theorem invAlign_init_state : invAlign init_state := by
  refine ⟨?_, ?_, ?_⟩
  · intro b hb
    exact absurd hb (List.not_mem_nil b)
  · intro o ho
    rw [List.eq_of_mem_replicate ho]
    exact alignedO_none
  · intro b hb
    exact absurd hb (List.not_mem_nil b)

/-- A legal pointer argument is `NULL` or aligned. -/
theorem legal_ptr_aligned (st : State) (p : Nat) (h : invAlign st)
    (hl : (decide (p = 0) || isAllocAddr st p) = true) : p % 8 = 0 := by
  simp only [Bool.or_eq_true, decide_eq_true_eq] at hl
  rcases hl with hz | ha
  · rw [hz]
  · unfold isAllocAddr at ha
    cases hg : getBlk st p with
    | none =>
      rw [hg] at ha
      simp at ha
    | some b =>
      exact getBlkAux_aligned st.blocks 16 p b hg (by norm_num) (fun x hx => (h.1 x hx).1)

/-- Every state reachable by legal public calls after a successful init
satisfies the alignment invariant (`16 ≤ chunk` holds of every real page
size). -/
theorem reach_invAlign (chunk : Nat) (st : State) (hch : 16 ≤ chunk)
    (h : Reach chunk st) : invAlign st := by
  induction h with
  | init =>
    unfold mm_init
    cases he : extend_heap init_state (chunk / 4) true with
    | none => exact invAlign_init_state
    | some pr =>
      exact (extend_invAlign init_state _ true pr.1 pr.2 invAlign_init_state (by rw [he])).1
  | step op hst hlegal ih =>
    cases op with
    | mal n ok => exact (malloc_invAlign chunk _ n ok ih).1
    | fre p =>
      exact free_invAlign _ p ih
    | rea p n ok =>
      exact (realloc_invAlign chunk _ p n ok ih hch (legal_ptr_aligned _ p ih hlegal)).1

/-- Claim C1: after a successful init (with any page size ≥ 16, as every
real page size is), in every reachable heap state, every pointer returned
by `mm_malloc` or by a legal `mm_realloc` call is a multiple of 8 (this
includes `NULL = 0`, so non-null returned payload pointers are 8-byte
aligned as the claim states). -/
theorem c1_returned_pointers_aligned (chunk : Nat) (st : State) (hch : 16 ≤ chunk)
    (hr : Reach chunk st) (n m p : Nat) (ok ok2 : Bool)
    (hp : p = 0 ∨ isAllocAddr st p = true) :
    (mm_malloc chunk st n ok).2 % 8 = 0 ∧ (mm_realloc chunk st p m ok2).2 % 8 = 0 := by
  have h := reach_invAlign chunk st hch hr
  refine ⟨(malloc_invAlign chunk st n ok h).2, (realloc_invAlign chunk st p m ok2 h hch ?_).2⟩
  apply legal_ptr_aligned st p h
  rcases hp with hp | hp
  · rw [hp]
    simp
  · rw [hp]
    simp

/-- Witness for `c1_returned_pointers_aligned` on the freshly initialised
heap: a malloc of 5 bytes and a realloc of the null pointer. -/
theorem c1_returned_pointers_aligned_witness :
    (mm_malloc 4096 (mm_init 4096) 5 true).2 % 8 = 0 ∧
      (mm_realloc 4096 (mm_init 4096) 0 7 true).2 % 8 = 0 :=
  c1_returned_pointers_aligned 4096 (mm_init 4096) (by norm_num) Reach.init 5 7 0 true true
    (Or.inl rfl)

/-- Claim C7, amended: in every reachable heap state every block's size is
a positive multiple of 8 and at least `2D = 16` — for allocated and for
free blocks alike.  The code's free minimum is not 32 (nor even
`MINIMUM_UNALLOC = 24`): those constants only govern when splits happen,
and freeing a minimal 16-byte allocated block whose neighbours are
allocated leaves a 16-byte free block (see `c7_counterexample`). -/
theorem c7_amended (chunk : Nat) (st : State) (hch : 16 ≤ chunk) (hr : Reach chunk st) :
    ∀ b ∈ st.blocks, 0 < b.size ∧ b.size % 8 = 0 ∧
      (b.alloc = true → 16 ≤ b.size) ∧ (b.alloc = false → 16 ≤ b.size) := by
  have h := reach_invAlign chunk st hch hr
  intro b hb
  have hs := h.1 b hb
  exact ⟨by omega, hs.1, fun _ => hs.2, fun _ => hs.2⟩

/-- Witness for `c7_amended`: the single free block of the freshly
initialised heap with page size 24. -/
theorem c7_amended_witness :
    0 < (freeBlk 24).size ∧ (freeBlk 24).size % 8 = 0 ∧
      ((freeBlk 24).alloc = true → 16 ≤ (freeBlk 24).size) ∧
      ((freeBlk 24).alloc = false → 16 ≤ (freeBlk 24).size) :=
  c7_amended 24 (mm_init 24) (by norm_num) Reach.init (freeBlk 24) (by decide)

/-- Reading the updated address applies the update to the read. -/
theorem getBlkAux_updBlks_same (bs : List Blk) (base a : Nat) (f : Blk → Blk) :
    getBlkAux (updBlks bs base a f) base a = (getBlkAux bs base a).map f := by
  induction bs generalizing base with
  | nil => simp [updBlks, getBlkAux]
  | cons b rest ih =>
    simp only [updBlks, getBlkAux]
    by_cases hba : a = base
    · simp [if_pos hba, getBlkAux, hba]
    · simp only [if_neg hba, getBlkAux, ih (base + b.size)]

/-- Reading another address is unaffected by a size-preserving update. -/
theorem getBlkAux_updBlks_other (bs : List Blk) (base a x : Nat) (f : Blk → Blk)
    (hsz : ∀ b, (f b).size = b.size) (hne : x ≠ a) :
    getBlkAux (updBlks bs base a f) base x = getBlkAux bs base x := by
  induction bs generalizing base with
  | nil => simp [updBlks, getBlkAux]
  | cons b rest ih =>
    simp only [updBlks, getBlkAux]
    by_cases hba : a = base
    · have hxb : ¬(x = base) := fun hx => hne (hx.trans hba.symm)
      simp only [if_pos hba, getBlkAux, if_neg hxb, hsz b]
    · by_cases hxb : x = base
      · simp [if_neg hba, getBlkAux, if_pos hxb]
      · simp only [if_neg hba, getBlkAux, if_neg hxb, ih (base + b.size)]

/-- Two updates at the same address compose. -/
theorem updBlks_updBlks_same (bs : List Blk) (base a : Nat) (f g : Blk → Blk) :
    updBlks (updBlks bs base a f) base a g = updBlks bs base a (fun b => g (f b)) := by
  induction bs generalizing base with
  | nil => simp [updBlks]
  | cons b rest ih =>
    simp only [updBlks]
    by_cases hba : a = base
    · simp [if_pos hba, updBlks, hba]
    · simp only [if_neg hba, updBlks, ih (base + b.size)]

/-- An update that fixes the block it touches is the identity. -/
theorem updBlks_congr_id (bs : List Blk) (base a : Nat) (f : Blk → Blk)
    (hf : ∀ b, getBlkAux bs base a = some b → f b = b) :
    updBlks bs base a f = bs := by
  induction bs generalizing base with
  | nil => simp [updBlks]
  | cons b rest ih =>
    simp only [updBlks]
    by_cases hba : a = base
    · rw [if_pos hba, hf b (by simp [getBlkAux, hba])]
    · rw [if_neg hba, ih (base + b.size)
        (fun b2 hb2 => hf b2 (by simp only [getBlkAux, if_neg hba]; exact hb2))]

/-- Setting an index to the value already there changes nothing. -/
theorem set_getD_self {α : Type} (l : List α) (i : Nat) (d : α) :
    l.set i (l.getD i d) = l := by
  induction l generalizing i with
  | nil => simp
  | cons x xs ih =>
    cases i with
    | zero => simp
    | succ j => simpa [List.getD] using ih j

/-- Claim C10: inserting a block that is in no list and immediately
removing it restores the state completely, except for the two link words
of the inserted block itself (which the claim excludes: it speaks of the
heads and of the remaining nodes).  The hypotheses are what
well-formedness of the segregated index gives: the head of `bp`'s class,
if non-null, is a block other than `bp` whose `prev` link is null. -/
theorem c10_insert_remove_roundtrip (st : State) (bp : Nat) (b0 : Blk)
    (hb : getBlk st bp = some b0)
    (hhd : ∀ hd, st.heads.getD (get_list_index b0.size) none = some hd →
      hd ≠ bp ∧ ∃ bh, getBlk st hd = some bh ∧ bh.prev = none) :
    remove_free_block (insert_free_block st bp) bp =
      updateAt st bp (fun b =>
        { b with prev := none, next := st.heads.getD (get_list_index b0.size) none }) := by
  have hszAt : sizeAt st bp = b0.size := by
    unfold sizeAt
    rw [hb]
    rfl
  cases hcase : st.heads.getD (get_list_index b0.size) none with
  | none =>
    have hins : insert_free_block st bp =
        { updateAt st bp (fun b => { b with prev := none, next := none }) with
          heads := st.heads.set (get_list_index b0.size) (some bp) } := by
      unfold insert_free_block
      dsimp only
      rw [hszAt, hcase]
      rfl
    rw [hins]
    have hbpI : getBlk { updateAt st bp (fun b => { b with prev := none, next := none }) with
        heads := st.heads.set (get_list_index b0.size) (some bp) } bp =
        some { b0 with prev := none, next := none } := by
      simp only [getBlk, updateAt]
      rw [getBlkAux_updBlks_same]
      rw [show getBlkAux st.blocks 16 bp = some b0 from hb]
      rfl
    unfold remove_free_block
    rw [show sizeAt { updateAt st bp (fun b => { b with prev := none, next := none }) with
        heads := st.heads.set (get_list_index b0.size) (some bp) } bp = b0.size from by
      unfold sizeAt; rw [hbpI]; rfl]
    rw [show prevLinkAt { updateAt st bp (fun b => { b with prev := none, next := none }) with
        heads := st.heads.set (get_list_index b0.size) (some bp) } bp = none from by
      unfold prevLinkAt; rw [hbpI]; rfl]
    rw [show nextLinkAt { updateAt st bp (fun b => { b with prev := none, next := none }) with
        heads := st.heads.set (get_list_index b0.size) (some bp) } bp = none from by
      unfold nextLinkAt; rw [hbpI]; rfl]
    show State.mk _ _ _ = State.mk _ _ _
    rw [State.mk.injEq]
    refine ⟨rfl, ?_, rfl⟩
    show (st.heads.set (get_list_index b0.size) (some bp)).set (get_list_index b0.size) none =
      st.heads
    rw [List.set_set, ← hcase, set_getD_self]
  | some hd =>
    obtain ⟨hne, bh, hbh, hbhprev⟩ := hhd hd hcase
    have hins : insert_free_block st bp =
        { updateAt (updateAt st bp (fun b => { b with prev := none, next := some hd })) hd
            (fun b => { b with prev := some bp }) with
          heads := st.heads.set (get_list_index b0.size) (some bp) } := by
      unfold insert_free_block
      dsimp only
      rw [hszAt, hcase]
      rfl
    rw [hins]
    have hbpI : getBlk { updateAt (updateAt st bp
          (fun b => { b with prev := none, next := some hd })) hd
          (fun b => { b with prev := some bp }) with
        heads := st.heads.set (get_list_index b0.size) (some bp) } bp =
        some { b0 with prev := none, next := some hd } := by
      simp only [getBlk, updateAt]
      rw [getBlkAux_updBlks_other _ 16 hd bp (fun b => { b with prev := some bp }) (fun _ => rfl) (Ne.symm hne)]
      rw [getBlkAux_updBlks_same]
      rw [show getBlkAux st.blocks 16 bp = some b0 from hb]
      rfl
    unfold remove_free_block
    rw [show sizeAt { updateAt (updateAt st bp
          (fun b => { b with prev := none, next := some hd })) hd
          (fun b => { b with prev := some bp }) with
        heads := st.heads.set (get_list_index b0.size) (some bp) } bp = b0.size from by
      unfold sizeAt; rw [hbpI]; rfl]
    rw [show prevLinkAt { updateAt (updateAt st bp
          (fun b => { b with prev := none, next := some hd })) hd
          (fun b => { b with prev := some bp }) with
        heads := st.heads.set (get_list_index b0.size) (some bp) } bp = none from by
      unfold prevLinkAt; rw [hbpI]; rfl]
    rw [show nextLinkAt { updateAt (updateAt st bp
          (fun b => { b with prev := none, next := some hd })) hd
          (fun b => { b with prev := some bp }) with
        heads := st.heads.set (get_list_index b0.size) (some bp) } bp = some hd from by
      unfold nextLinkAt; rw [hbpI]; rfl]
    show State.mk _ _ _ = State.mk _ _ _
    rw [State.mk.injEq]
    refine ⟨?_, ?_, rfl⟩
    · show updBlks (updBlks (updBlks st.blocks 16 bp
          (fun b => { b with prev := none, next := some hd })) 16 hd
          (fun b => { b with prev := some bp })) 16 hd
          (fun b => { b with prev := none }) =
        updBlks st.blocks 16 bp (fun b => { b with prev := none, next := some hd })
      rw [updBlks_updBlks_same]
      apply updBlks_congr_id
      intro b hbk
      rw [getBlkAux_updBlks_other _ 16 bp hd (fun b => { b with prev := none, next := some hd }) (fun _ => rfl) hne] at hbk
      rw [show getBlkAux st.blocks 16 hd = some bh from hbh] at hbk
      rw [Option.some_inj] at hbk
      subst hbk
      cases bh
      simp only at hbhprev
      simp [hbhprev]
    · show (st.heads.set (get_list_index b0.size) (some bp)).set (get_list_index b0.size)
          (some hd) = st.heads
      rw [List.set_set, ← hcase, set_getD_self]

/-- Witness for `c10_insert_remove_roundtrip`: a two-block heap whose
class-0 list holds the second block (payload address 32). -/
theorem c10_insert_remove_roundtrip_witness :
    remove_free_block (insert_free_block
      ⟨[⟨16, false, none, none, List.replicate 8 0⟩, ⟨16, false, none, none, List.replicate 8 0⟩],
        some 32 :: List.replicate 15 none, false⟩ 16) 16 =
    updateAt
      ⟨[⟨16, false, none, none, List.replicate 8 0⟩, ⟨16, false, none, none, List.replicate 8 0⟩],
        some 32 :: List.replicate 15 none, false⟩ 16
      (fun b => { b with prev := none, next := some 32 }) :=
  c10_insert_remove_roundtrip
    ⟨[⟨16, false, none, none, List.replicate 8 0⟩, ⟨16, false, none, none, List.replicate 8 0⟩],
      some 32 :: List.replicate 15 none, false⟩ 16
    ⟨16, false, none, none, List.replicate 8 0⟩ rfl
    (fun hd hh => by
      have h32 : (some 32 : Option Nat) = some hd := hh
      have hhd : hd = 32 := (Option.some_inj.mp h32).symm
      subst hhd
      exact ⟨by decide, ⟨16, false, none, none, List.replicate 8 0⟩, rfl, rfl⟩)

/-- A size-preserving update keeps the per-block sizes. -/
theorem map_size_updBlks (bs : List Blk) (base a : Nat) (f : Blk → Blk)
    (hsz : ∀ b, (f b).size = b.size) :
    (updBlks bs base a f).map Blk.size = bs.map Blk.size := by
  induction bs generalizing base with
  | nil => simp [updBlks]
  | cons b rest ih =>
    simp only [updBlks]
    by_cases hba : a = base
    · simp [if_pos hba, hsz b]
    · simp [if_neg hba, ih (base + b.size)]

/-- A size-preserving update keeps the total of sizes. -/
theorem sumSizes_updBlks (bs : List Blk) (base a : Nat) (f : Blk → Blk)
    (hsz : ∀ b, (f b).size = b.size) : sumSizes (updBlks bs base a f) = sumSizes bs := by
  unfold sumSizes
  rw [map_size_updBlks bs base a f hsz]

/-- `insert_free_block` keeps the total of sizes. -/
theorem sumSizes_insert (st : State) (bp : Nat) :
    sumSizes (insert_free_block st bp).blocks = sumSizes st.blocks := by
  unfold insert_free_block
  dsimp only
  cases hh : st.heads.getD (get_list_index (sizeAt st bp)) none with
  | none =>
    dsimp only [updateAt]
    exact sumSizes_updBlks _ 16 bp (fun b => { b with prev := none, next := none }) (fun _ => rfl)
  | some hd =>
    dsimp only [updateAt]
    rw [sumSizes_updBlks _ 16 hd (fun b => { b with prev := some bp }) (fun _ => rfl)]
    exact sumSizes_updBlks _ 16 bp (fun b => { b with prev := none, next := some hd }) (fun _ => rfl)

/-- `remove_free_block` keeps the total of sizes. -/
theorem sumSizes_remove (st : State) (bp : Nat) :
    sumSizes (remove_free_block st bp).blocks = sumSizes st.blocks := by
  unfold remove_free_block
  dsimp only
  cases hn : nextLinkAt st bp with
  | none =>
    cases hp : prevLinkAt st bp with
    | none => rfl
    | some pb =>
      dsimp only [updateAt]
      exact sumSizes_updBlks _ 16 pb (fun b => { b with next := none }) (fun _ => rfl)
  | some nb =>
    cases hp : prevLinkAt st bp with
    | none =>
      dsimp only [updateAt]
      exact sumSizes_updBlks _ 16 nb (fun b => { b with prev := none }) (fun _ => rfl)
    | some pb =>
      dsimp only [updateAt]
      rw [sumSizes_updBlks _ 16 nb (fun b => { b with prev := some pb }) (fun _ => rfl)]
      exact sumSizes_updBlks _ 16 pb (fun b => { b with next := some nb }) (fun _ => rfl)

/-- `remove_free_block` keeps the per-block sizes. -/
theorem map_size_remove (st : State) (bp : Nat) :
    (remove_free_block st bp).blocks.map Blk.size = st.blocks.map Blk.size := by
  unfold remove_free_block
  dsimp only
  cases hn : nextLinkAt st bp with
  | none =>
    cases hp : prevLinkAt st bp with
    | none => rfl
    | some pb =>
      dsimp only [updateAt]
      exact map_size_updBlks _ 16 pb (fun b => { b with next := none }) (fun _ => rfl)
  | some nb =>
    cases hp : prevLinkAt st bp with
    | none =>
      dsimp only [updateAt]
      exact map_size_updBlks _ 16 nb (fun b => { b with prev := none }) (fun _ => rfl)
    | some pb =>
      dsimp only [updateAt]
      rw [map_size_updBlks _ 16 nb (fun b => { b with prev := some pb }) (fun _ => rfl)]
      exact map_size_updBlks _ 16 pb (fun b => { b with next := some nb }) (fun _ => rfl)

/-- Splitting off the first element of a drop at an index in bounds. -/
theorem sumSizes_drop_succ (bs : List Blk) (j : Nat) (h : j < bs.length) :
    sumSizes (bs.drop j) = (bs.getD j default).size + sumSizes (bs.drop (j + 1)) := by
  rw [List.drop_eq_getElem_cons h]
  unfold sumSizes
  rw [List.map_cons, List.sum_cons, List.getD_eq_getElem bs default h]

/-- The total of sizes splits at any index. -/
theorem sumSizes_take_drop (bs : List Blk) (j : Nat) :
    sumSizes bs = sumSizes (bs.take j) + sumSizes (bs.drop j) := by
  conv_lhs => rw [← List.take_append_drop j bs]
  unfold sumSizes
  rw [List.map_append, List.sum_append]

/-- Sizes of a splice. -/
theorem sumSizes_splice (bs : List Blk) (j k : Nat) (nbs : List Blk) :
    sumSizes (splice bs j k nbs) =
      sumSizes (bs.take j) + sumSizes nbs + sumSizes (bs.drop (j + k)) := by
  unfold splice sumSizes
  rw [List.map_append, List.map_append, List.sum_append, List.sum_append]

/-- Equal size maps give equal size sums. -/
theorem sumSizes_eq_of_map (bs1 bs2 : List Blk)
    (h : bs1.map Blk.size = bs2.map Blk.size) : sumSizes bs1 = sumSizes bs2 := by
  unfold sumSizes
  rw [h]

/-- Equal size maps give equal size sums on every take. -/
theorem sumSizes_take_eq (bs1 bs2 : List Blk) (j : Nat)
    (h : bs1.map Blk.size = bs2.map Blk.size) :
    sumSizes (bs1.take j) = sumSizes (bs2.take j) := by
  unfold sumSizes
  rw [List.map_take, List.map_take, h]

/-- Equal size maps give equal size sums on every drop. -/
theorem sumSizes_drop_eq (bs1 bs2 : List Blk) (j : Nat)
    (h : bs1.map Blk.size = bs2.map Blk.size) :
    sumSizes (bs1.drop j) = sumSizes (bs2.drop j) := by
  unfold sumSizes
  rw [List.map_drop, List.map_drop, h]

/-- `coalesce` preserves the total of block sizes: merging loses no bytes. -/
theorem coalesce_sumSizes (st : State) (bp : Nat) :
    sumSizes (coalesce st bp).1.blocks = sumSizes st.blocks := by
  unfold coalesce
  cases hi : idxOf st bp with
  | none => rfl
  | some i =>
    dsimp only
    have hlen := idxAux_lt_length _ _ _ _ hi
    split
    · exact sumSizes_insert st bp
    · rename_i hc1
      split
      · rename_i hc2
        have hna : (decide (i + 1 = st.blocks.length) ||
            (st.blocks.getD (i + 1) default).alloc) = false := by
          cases hx : (decide (i + 1 = st.blocks.length) || (st.blocks.getD (i + 1) default).alloc)
          · rfl
          · rw [hx] at hc2; simp at hc2
        have hi1 : i + 1 < st.blocks.length := by
          simp only [Bool.or_eq_false_iff, decide_eq_false_iff_not] at hna
          omega
        rw [sumSizes_insert, sumSizes_splice]
        have hm := map_size_remove st (bp + (st.blocks.getD i default).size)
        rw [sumSizes_take_eq _ st.blocks i hm, sumSizes_drop_eq _ st.blocks (i + 2) hm]
        rw [sumSizes_take_drop st.blocks i, sumSizes_drop_succ st.blocks i hlen,
          sumSizes_drop_succ st.blocks (i + 1) hi1, show i + 1 + 1 = i + 2 from rfl]
        unfold sumSizes freeBlk
        simp only [List.map_cons, List.map_nil, List.sum_cons, List.sum_nil]
        omega
      · rename_i hc2
        split
        · rename_i hc3
          have hpa : (decide (i = 0) || (st.blocks.getD (i - 1) default).alloc) = false := by
            cases hx : (decide (i = 0) || (st.blocks.getD (i - 1) default).alloc)
            · rfl
            · rw [hx] at hc3; simp at hc3
          have hi0 : i ≠ 0 := by
            simp only [Bool.or_eq_false_iff, decide_eq_false_iff_not] at hpa
            exact hpa.1
          have him : i - 1 < st.blocks.length := by omega
          rw [sumSizes_insert, sumSizes_splice]
          have hm := map_size_remove st (bp - (st.blocks.getD (i - 1) default).size)
          rw [sumSizes_take_eq _ st.blocks (i - 1) hm,
            sumSizes_drop_eq _ st.blocks (i - 1 + 2) hm]
          rw [sumSizes_take_drop st.blocks (i - 1), sumSizes_drop_succ st.blocks (i - 1) him]
          rw [show i - 1 + 1 = i from by omega, sumSizes_drop_succ st.blocks i hlen,
            show i - 1 + 2 = i + 1 from by omega]
          unfold sumSizes freeBlk
          simp only [List.map_cons, List.map_nil, List.sum_cons, List.sum_nil]
          omega
        · rename_i hc3
          have hP : (decide (i = 0) || (st.blocks.getD (i - 1) default).alloc) = false := by
            cases hx : (decide (i = 0) || (st.blocks.getD (i - 1) default).alloc)
            · rfl
            · cases hy : (decide (i + 1 = st.blocks.length) ||
                  (st.blocks.getD (i + 1) default).alloc)
              · rw [hx, hy] at hc2; simp at hc2
              · rw [hx, hy] at hc1; simp at hc1
          have hN : (decide (i + 1 = st.blocks.length) ||
              (st.blocks.getD (i + 1) default).alloc) = false := by
            cases hy : (decide (i + 1 = st.blocks.length) ||
                (st.blocks.getD (i + 1) default).alloc)
            · rfl
            · rw [hP, hy] at hc3; simp at hc3
          have hi0 : i ≠ 0 := by
            simp only [Bool.or_eq_false_iff, decide_eq_false_iff_not] at hP
            exact hP.1
          have hi1 : i + 1 < st.blocks.length := by
            simp only [Bool.or_eq_false_iff, decide_eq_false_iff_not] at hN
            omega
          have him : i - 1 < st.blocks.length := by omega
          rw [sumSizes_insert, sumSizes_splice]
          have hm1 := map_size_remove (remove_free_block st
            (bp - (st.blocks.getD (i - 1) default).size))
            (bp + (st.blocks.getD i default).size)
          have hm2 := map_size_remove st (bp - (st.blocks.getD (i - 1) default).size)
          have hm := hm1.trans hm2
          rw [sumSizes_take_eq _ st.blocks (i - 1) hm,
            sumSizes_drop_eq _ st.blocks (i - 1 + 3) hm]
          rw [sumSizes_take_drop st.blocks (i - 1), sumSizes_drop_succ st.blocks (i - 1) him]
          rw [show i - 1 + 1 = i from by omega, sumSizes_drop_succ st.blocks i hlen,
            sumSizes_drop_succ st.blocks (i + 1) hi1, show i + 1 + 1 = i + 2 from rfl,
            show i - 1 + 3 = i + 2 from by omega]
          unfold sumSizes freeBlk
          simp only [List.map_cons, List.map_nil, List.sum_cons, List.sum_nil]
          omega

/-- Claim C4: `coalesce` on the block at index `i` (payload pointer `bp`)
follows exactly the four-case boundary-tag scheme.  Writing `P`/`N` for
"the previous/next physical block is allocated (or is the
prologue/epilogue sentinel)": (P, N) inserts the block as is and returns
`bp`; (P, ¬N) unlinks the next block and replaces the two blocks by one
free block of the summed sizes, then inserts it at `bp`; (¬P, N) unlinks
the previous block, the merged block starts at the previous block's
payload pointer, which is returned; (¬P, ¬N) unlinks both neighbours and
merges all three.  In every case the merged block is inserted into the
segregated list of its size class (`insert_free_block` computes the class
from the merged size), and the total of block sizes is preserved. -/
theorem c4_coalesce_four_cases (st : State) (bp i : Nat) (hi : idxOf st bp = some i) :
    ((decide (i = 0) || (st.blocks.getD (i - 1) default).alloc) = true →
      (decide (i + 1 = st.blocks.length) || (st.blocks.getD (i + 1) default).alloc) = true →
      coalesce st bp = (insert_free_block st bp, bp)) ∧
    ((decide (i = 0) || (st.blocks.getD (i - 1) default).alloc) = true →
      (decide (i + 1 = st.blocks.length) || (st.blocks.getD (i + 1) default).alloc) = false →
      coalesce st bp =
        (insert_free_block
          { remove_free_block st (bp + (st.blocks.getD i default).size) with
            blocks := splice (remove_free_block st
                (bp + (st.blocks.getD i default).size)).blocks i 2
              [freeBlk ((st.blocks.getD i default).size +
                (st.blocks.getD (i + 1) default).size)] } bp, bp)) ∧
    ((decide (i = 0) || (st.blocks.getD (i - 1) default).alloc) = false →
      (decide (i + 1 = st.blocks.length) || (st.blocks.getD (i + 1) default).alloc) = true →
      coalesce st bp =
        (insert_free_block
          { remove_free_block st (bp - (st.blocks.getD (i - 1) default).size) with
            blocks := splice (remove_free_block st
                (bp - (st.blocks.getD (i - 1) default).size)).blocks (i - 1) 2
              [freeBlk ((st.blocks.getD (i - 1) default).size +
                (st.blocks.getD i default).size)] }
          (bp - (st.blocks.getD (i - 1) default).size),
         bp - (st.blocks.getD (i - 1) default).size)) ∧
    ((decide (i = 0) || (st.blocks.getD (i - 1) default).alloc) = false →
      (decide (i + 1 = st.blocks.length) || (st.blocks.getD (i + 1) default).alloc) = false →
      coalesce st bp =
        (insert_free_block
          { remove_free_block (remove_free_block st
              (bp - (st.blocks.getD (i - 1) default).size))
              (bp + (st.blocks.getD i default).size) with
            blocks := splice (remove_free_block (remove_free_block st
                (bp - (st.blocks.getD (i - 1) default).size))
                (bp + (st.blocks.getD i default).size)).blocks (i - 1) 3
              [freeBlk ((st.blocks.getD (i - 1) default).size +
                (st.blocks.getD i default).size +
                (st.blocks.getD (i + 1) default).size)] }
          (bp - (st.blocks.getD (i - 1) default).size),
         bp - (st.blocks.getD (i - 1) default).size)) ∧
    sumSizes (coalesce st bp).1.blocks = sumSizes st.blocks := by
  refine ⟨?_, ?_, ?_, ?_, coalesce_sumSizes st bp⟩ <;>
    (intro hP hN
     unfold coalesce
     rw [hi]
     dsimp only
     rw [hP, hN]
     rfl)

/-- Witness for `c4_coalesce_four_cases`: the single free block of the
freshly initialised heap has the sentinels on both sides (case 1). -/
theorem c4_coalesce_four_cases_witness :
    coalesce (mm_init 24) 16 = (insert_free_block (mm_init 24) 16, 16) :=
  (c4_coalesce_four_cases (mm_init 24) 16 0 (by decide)).1 (by decide) (by decide)

/-- Scan 1 of `mm_check`, as a quantified property. -/
theorem checkListsFree_iff (st : State) :
    checkListsFree st = true ↔
      ∀ c < 16, ∀ a ∈ walkList st (walkFuel st) (st.heads.getD c none),
        allocAt st a = false := by
  unfold checkListsFree
  rw [List.all_eq_true]
  constructor
  · intro h c hc a ha
    have h2 := h c (List.mem_range.mpr hc)
    simp only [List.all_eq_true] at h2
    have := h2 a ha
    simpa using this
  · intro h c hc
    simp only [List.all_eq_true]
    intro a ha
    simpa using h c (List.mem_range.mp hc) a ha

/-- Scan 2 of `mm_check`, as a quantified property. -/
theorem checkNoAdjacentFree_iff (bs : List Blk) :
    checkNoAdjacentFree bs = true ↔
      ∀ j, j + 1 < bs.length → (bs.getD j default).alloc = true ∨
        (bs.getD (j + 1) default).alloc = true := by
  induction bs with
  | nil => simp [checkNoAdjacentFree]
  | cons b rest ih =>
    cases rest with
    | nil => simp [checkNoAdjacentFree]
    | cons b2 rest2 =>
      rw [checkNoAdjacentFree, Bool.and_eq_true, ih]
      constructor
      · rintro ⟨hpair, hrest⟩ j hj
        cases j with
        | zero =>
          simp only [List.getD_cons_zero, List.getD_cons_succ]
          simpa using Bool.or_eq_true _ _ ▸ hpair
        | succ k =>
          have := hrest k (by simp only [List.length_cons] at hj ⊢; omega)
          simpa using this
      · intro h
        constructor
        · have := h 0 (by simp only [List.length_cons]; omega)
          simp only [List.getD_cons_zero, List.getD_cons_succ] at this
          simp only [Bool.or_eq_true]
          exact this
        · intro j hj
          have := h (j + 1) (by simp only [List.length_cons] at hj ⊢; omega)
          simpa using this

/-- Scan 3 of `mm_check`, as a quantified property. -/
theorem checkFreeInList_iff (st : State) :
    checkFreeInList st = true ↔
      ∀ ab ∈ addrBlocks st, ab.2.alloc = false →
        ab.1 ∈ walkList st (walkFuel st)
          (st.heads.getD (get_list_index ab.2.size) none) := by
  unfold checkFreeInList
  rw [List.all_eq_true]
  constructor
  · intro h ab hab hfree
    have h2 := h ab hab
    simp only [Bool.or_eq_true, hfree] at h2
    rcases h2 with h2 | h2
    · exact absurd h2 (by simp)
    · exact List.elem_iff.mp h2
  · intro h ab hab
    simp only [Bool.or_eq_true]
    cases hfree : ab.2.alloc with
    | true => exact Or.inl rfl
    | false => exact Or.inr (List.elem_iff.mpr (h ab hab hfree))

/-- Scan 4 of `mm_check`, as a quantified property. -/
theorem checkLinksInHeap_iff (st : State) :
    checkLinksInHeap st = true ↔
      ∀ c < 16, ∀ a ∈ walkList st (walkFuel st) (st.heads.getD c none),
        (∀ x, nextLinkAt st a = some x → x + 1 ≤ heapEnd st) ∧
        (∀ x, prevLinkAt st a = some x → x + 1 ≤ heapEnd st) := by
  unfold checkLinksInHeap
  rw [List.all_eq_true]
  constructor
  · intro h c hc a ha
    have h2 := h c (List.mem_range.mpr hc)
    simp only [List.all_eq_true] at h2
    have h3 := h2 a ha
    simp only [Bool.and_eq_true] at h3
    constructor
    · intro x hx
      have := h3.1
      rw [hx] at this
      simpa using this
    · intro x hx
      have := h3.2
      rw [hx] at this
      simpa using this
  · intro h c hc
    simp only [List.all_eq_true]
    intro a ha
    have h3 := h c (List.mem_range.mp hc) a ha
    simp only [Bool.and_eq_true]
    constructor
    · cases hx : nextLinkAt st a with
      | none => rfl
      | some x => simpa using h3.1 x hx
    · cases hx : prevLinkAt st a with
      | none => rfl
      | some x => simpa using h3.2 x hx

/-- Claim C9, amended: `mm_check` returns true exactly when its four scans
pass: every node of every segregated list is marked free; no two adjacent
blocks are both free; every free block of the heap occurs in the list of
its size class; and every list node's links are null or inside the heap.
It does not verify the other §3 invariants — block-size bounds, tag
equality, or the sentinels — and a reachable state violating the size
bounds passes it (see `c9_counterexample`). -/
theorem c9_amended (st : State) :
    mm_check st = true ↔
      ((∀ c < 16, ∀ a ∈ walkList st (walkFuel st) (st.heads.getD c none),
          allocAt st a = false) ∧
       (∀ j, j + 1 < st.blocks.length → (st.blocks.getD j default).alloc = true ∨
          (st.blocks.getD (j + 1) default).alloc = true) ∧
       (∀ ab ∈ addrBlocks st, ab.2.alloc = false →
          ab.1 ∈ walkList st (walkFuel st)
            (st.heads.getD (get_list_index ab.2.size) none)) ∧
       (∀ c < 16, ∀ a ∈ walkList st (walkFuel st) (st.heads.getD c none),
          (∀ x, nextLinkAt st a = some x → x + 1 ≤ heapEnd st) ∧
          (∀ x, prevLinkAt st a = some x → x + 1 ≤ heapEnd st))) := by
  unfold mm_check
  simp only [Bool.and_eq_true]
  rw [checkListsFree_iff, checkNoAdjacentFree_iff, checkFreeInList_iff, checkLinksInHeap_iff]
  tauto

/-- A hit in the first part of an append is a hit in the whole. -/
theorem getBlkAux_append_some (l1 l2 : List Blk) (base x : Nat) (b : Blk)
    (h : getBlkAux l1 base x = some b) : getBlkAux (l1 ++ l2) base x = some b := by
  induction l1 generalizing base with
  | nil => simp [getBlkAux] at h
  | cons y ys ih =>
    simp only [getBlkAux, List.cons_append] at h ⊢
    by_cases hxb : x = base
    · rwa [if_pos hxb] at h ⊢
    · rw [if_neg hxb] at h ⊢
      exact ih (base + y.size) h

/-- A miss in the first part of an append defers to the second. -/
theorem getBlkAux_append_none (l1 l2 : List Blk) (base x : Nat)
    (h : getBlkAux l1 base x = none) :
    getBlkAux (l1 ++ l2) base x = getBlkAux l2 (base + sumSizes l1) x := by
  induction l1 generalizing base with
  | nil => simp [getBlkAux, sumSizes]
  | cons y ys ih =>
    simp only [getBlkAux, List.cons_append] at h ⊢
    by_cases hxb : x = base
    · rw [if_pos hxb] at h
      simp at h
    · rw [if_neg hxb] at h ⊢
      rw [List.append_eq, ih (base + y.size) h]
      unfold sumSizes
      simp only [List.map_cons, List.sum_cons]
      rw [show base + (y.size + (ys.map Blk.size).sum) = base + y.size + (ys.map Blk.size).sum
        from by omega]

/-- No block lives at or beyond the end of the walked range. -/
theorem getBlkAux_none_of_le (bs : List Blk) (base x : Nat)
    (hpos : ∀ b ∈ bs, 0 < b.size) (hx : base + sumSizes bs ≤ x) :
    getBlkAux bs base x = none := by
  induction bs generalizing base with
  | nil => rfl
  | cons b rest ih =>
    have hb : 0 < b.size := hpos b (List.mem_cons_self b rest)
    have hsum : base + b.size + sumSizes rest ≤ x := by
      unfold sumSizes at hx ⊢
      simp only [List.map_cons, List.sum_cons] at hx
      omega
    simp only [getBlkAux]
    rw [if_neg (by omega)]
    exact ih (base + b.size) (fun y hy => hpos y (List.mem_cons_of_mem _ hy)) hsum

/-- Reading at the address of index `m` yields block `m`, when sizes are
positive. -/
theorem getBlkAux_at_idx (bs : List Blk) (base m : Nat)
    (hpos : ∀ b ∈ bs, 0 < b.size) (hm : m < bs.length) :
    getBlkAux bs base (base + sumSizes (bs.take m)) = some (bs.getD m default) := by
  induction bs generalizing base m with
  | nil => simp at hm
  | cons b rest ih =>
    cases m with
    | zero => simp [getBlkAux, sumSizes]
    | succ j =>
      have hb : 0 < b.size := hpos b (List.mem_cons_self b rest)
      simp only [getBlkAux]
      have haddr : base + sumSizes ((b :: rest).take (j + 1)) =
          base + b.size + sumSizes (rest.take j) := by
        simp only [List.take_cons_succ]
        unfold sumSizes
        simp only [List.map_cons, List.sum_cons]
        omega
      rw [haddr, if_neg (by
        have : 0 ≤ sumSizes (rest.take j) := Nat.zero_le _
        omega)]
      simp only [List.getD_cons_succ]
      exact ih (base + b.size) j (fun y hy => hpos y (List.mem_cons_of_mem _ hy))
        (by simp only [List.length_cons] at hm; omega)

/-- Every successful read is the block at some index, at that index's
address. -/
theorem getBlkAux_to_idx (bs : List Blk) (base x : Nat) (b : Blk)
    (h : getBlkAux bs base x = some b) :
    ∃ m, m < bs.length ∧ x = base + sumSizes (bs.take m) ∧ bs.getD m default = b := by
  induction bs generalizing base with
  | nil => simp [getBlkAux] at h
  | cons y ys ih =>
    simp only [getBlkAux] at h
    by_cases hxb : x = base
    · rw [if_pos hxb] at h
      exact ⟨0, by simp, by simp [sumSizes, hxb], by simpa using h⟩
    · rw [if_neg hxb] at h
      obtain ⟨m, hm, hx, hb⟩ := ih (base + y.size) h
      refine ⟨m + 1, by simp only [List.length_cons]; omega, ?_, by simpa using hb⟩
      simp only [List.take_cons_succ]
      unfold sumSizes at hx ⊢
      simp only [List.map_cons, List.sum_cons]
      omega

/-- `idxAux` names the index whose block and address the read yields. -/
theorem idxAux_getD (bs : List Blk) (base x i : Nat) (h : idxAux bs base x = some i) :
    getBlkAux bs base x = some (bs.getD i default) ∧ x = base + sumSizes (bs.take i) := by
  induction bs generalizing base i with
  | nil => simp [idxAux] at h
  | cons y ys ih =>
    simp only [idxAux] at h
    by_cases hxb : x = base
    · rw [if_pos hxb] at h
      cases h
      exact ⟨by simp [getBlkAux, hxb], by simp [sumSizes, hxb]⟩
    · rw [if_neg hxb] at h
      cases hrec : idxAux ys (base + y.size) x with
      | none => rw [hrec] at h; simp at h
      | some j =>
        rw [hrec] at h
        have hij : j + 1 = i := by simpa using h
        obtain ⟨hg, hx⟩ := ih (base + y.size) j hrec
        constructor
        · simp only [getBlkAux, if_neg hxb]
          rw [hg, ← hij]
          simp
        · rw [← hij]
          simp only [List.take_cons_succ]
          unfold sumSizes at hx ⊢
          simp only [List.map_cons, List.sum_cons]
          omega

/-- Sizes add across a split of the take. -/
theorem sumSizes_take_add (bs : List Blk) (j k : Nat) :
    sumSizes (bs.take (j + k)) = sumSizes (bs.take j) + sumSizes ((bs.drop j).take k) := by
  rw [List.take_add]
  unfold sumSizes
  rw [List.map_append, List.sum_append]

/-- Reads at addresses resolved in the prefix, or beyond the replaced
span, are unchanged by a sum-preserving splice. -/
theorem getBlkAux_splice_outside (bs : List Blk) (base j k : Nat) (nbs : List Blk) (x : Nat)
    (hpos : ∀ b ∈ bs, 0 < b.size) (hposn : ∀ b ∈ nbs, 0 < b.size)
    (hsum : sumSizes nbs = sumSizes ((bs.drop j).take k))
    (hcase : (getBlkAux (bs.take j) base x).isSome = true ∨
      base + sumSizes (bs.take j) + sumSizes nbs ≤ x) :
    getBlkAux (splice bs j k nbs) base x = getBlkAux bs base x := by
  have hposTake : ∀ b ∈ bs.take j, 0 < b.size := fun b hb => hpos b (List.take_subset j bs hb)
  rcases hcase with hsome | hge
  · cases hg : getBlkAux (bs.take j) base x with
    | none => rw [hg] at hsome; simp at hsome
    | some b =>
      rw [show splice bs j k nbs = bs.take j ++ (nbs ++ bs.drop (j + k)) from by
        simp [splice]]
      rw [getBlkAux_append_some _ _ _ _ _ hg]
      conv_rhs => rw [← List.take_append_drop j bs]
      rw [getBlkAux_append_some _ _ _ _ _ hg]
  · have hnone1 : getBlkAux (bs.take j) base x = none :=
      getBlkAux_none_of_le _ _ _ hposTake (by omega)
    rw [show splice bs j k nbs = bs.take j ++ (nbs ++ bs.drop (j + k)) from by
      simp [splice]]
    rw [getBlkAux_append_none _ _ _ _ hnone1]
    rw [getBlkAux_append_none _ _ _ _ (getBlkAux_none_of_le _ _ _ hposn (by omega))]
    conv_rhs => rw [← List.take_append_drop (j + k) bs]
    rw [getBlkAux_append_none _ _ _ _ (getBlkAux_none_of_le _ _ _
      (fun b hb => hpos b (List.take_subset _ bs hb))
      (by rw [sumSizes_take_add bs j k]; omega))]
    rw [sumSizes_take_add bs j k, ← hsum, Nat.add_assoc]

/-- Unpack a geometric view into its block. -/
theorem blkView_some (st : State) (x : Nat) (v : Nat × Bool × List Nat)
    (h : blkView st x = some v) :
    ∃ b, getBlk st x = some b ∧ b.size = v.1 ∧ b.alloc = v.2.1 ∧ b.data = v.2.2 := by
  unfold blkView at h
  cases hg : getBlk st x with
  | none => rw [hg] at h; simp at h
  | some b =>
    rw [hg] at h
    have h2 : some (b.size, b.alloc, b.data) = some v := h
    injection h2 with h3
    exact ⟨b, rfl, by rw [← h3], by rw [← h3], by rw [← h3]⟩

/-- Pack a block into a geometric view. -/
theorem blkView_of_getBlk (st : State) (x : Nat) (b : Blk) (h : getBlk st x = some b) :
    blkView st x = some (b.size, b.alloc, b.data) := by
  unfold blkView
  rw [h]
  rfl

/-- `dataAt` factors through the view. -/
theorem dataAt_of_blkView (st : State) (x : Nat) (v : Nat × Bool × List Nat)
    (h : blkView st x = some v) : dataAt st x = v.2.2 := by
  obtain ⟨b, hg, _, _, hd⟩ := blkView_some st x v h
  unfold dataAt
  rw [hg, ← hd]
  rfl

/-- `allocAt` factors through the view. -/
theorem allocAt_of_blkView (st : State) (x : Nat) (v : Nat × Bool × List Nat)
    (h : blkView st x = some v) : allocAt st x = v.2.1 := by
  obtain ⟨b, hg, _, ha, _⟩ := blkView_some st x v h
  unfold allocAt
  rw [hg, ← ha]
  rfl

/-- The view ignores the segregated-list heads. -/
theorem blkView_heads (st : State) (hs : List (Option Nat)) (x : Nat) :
    blkView { st with heads := hs } x = blkView st x := rfl

/-- The view ignores the placement toggle. -/
theorem blkView_alt (st : State) (a : Bool) (x : Nat) :
    blkView { st with alt := a } x = blkView st x := rfl

/-- A `getD` read of an updated block list is the old block or its image. -/
theorem getD_updBlks_or (bs : List Blk) (base a : Nat) (f : Blk → Blk) (i : Nat) :
    (updBlks bs base a f).getD i default = bs.getD i default ∨
    (updBlks bs base a f).getD i default = f (bs.getD i default) := by
  induction bs generalizing base i with
  | nil => left; simp [updBlks]
  | cons b rest ih =>
    simp only [updBlks]
    by_cases hba : a = base
    · rw [if_pos hba]
      cases i with
      | zero => right; simp
      | succ j => left; simp
    · rw [if_neg hba]
      cases i with
      | zero => left; simp
      | succ j =>
        simp only [List.getD_cons_succ]
        exact ih (base + b.size) j

/-- Views are unaffected by a link-only update, anywhere. -/
theorem blkView_updateAt (st : State) (a : Nat) (f : Blk → Blk) (x : Nat)
    (hf : ∀ b, (f b).size = b.size ∧ (f b).alloc = b.alloc ∧ (f b).data = b.data) :
    blkView (updateAt st a f) x = blkView st x := by
  unfold blkView getBlk updateAt
  dsimp only
  by_cases hx : x = a
  · subst hx
    rw [getBlkAux_updBlks_same]
    cases getBlkAux st.blocks 16 x with
    | none => rfl
    | some b =>
      show some ((f b).size, (f b).alloc, (f b).data) = some (b.size, b.alloc, b.data)
      rw [(hf b).1, (hf b).2.1, (hf b).2.2]
  · rw [getBlkAux_updBlks_other _ _ _ _ _ (fun b => (hf b).1) hx]

/-- Views are unaffected by a free-list insertion. -/
theorem blkView_insert (st : State) (bp x : Nat) :
    blkView (insert_free_block st bp) x = blkView st x := by
  unfold insert_free_block
  dsimp only
  cases hh : st.heads.getD (get_list_index (sizeAt st bp)) none with
  | none =>
    dsimp only
    rw [blkView_heads]
    exact blkView_updateAt st bp (fun b => { b with prev := none, next := none }) x
      (fun b => ⟨rfl, rfl, rfl⟩)
  | some hd =>
    dsimp only
    rw [blkView_heads,
      blkView_updateAt _ hd (fun b => { b with prev := some bp }) x
        (fun b => ⟨rfl, rfl, rfl⟩)]
    exact blkView_updateAt st bp (fun b => { b with prev := none, next := some hd }) x
      (fun b => ⟨rfl, rfl, rfl⟩)

/-- Views are unaffected by a free-list removal. -/
theorem blkView_remove (st : State) (bp x : Nat) :
    blkView (remove_free_block st bp) x = blkView st x := by
  have h1 : blkView (match prevLinkAt st bp with
      | some pb => updateAt st pb (fun b => { b with next := nextLinkAt st bp })
      | none => { st with
          heads := st.heads.set (get_list_index (sizeAt st bp)) (nextLinkAt st bp) }) x =
      blkView st x := by
    cases hp : prevLinkAt st bp with
    | none => exact blkView_heads _ _ _
    | some pb => exact blkView_updateAt _ _ _ _ (fun b => ⟨rfl, rfl, rfl⟩)
  unfold remove_free_block
  dsimp only
  cases hn : nextLinkAt st bp with
  | none =>
    rw [hn] at h1
    exact h1
  | some nb =>
    rw [hn] at h1
    rw [blkView_updateAt _ nb (fun b => { b with prev := prevLinkAt st bp }) x
      (fun b => ⟨rfl, rfl, rfl⟩)]
    exact h1

/-- Positional views are unaffected by a free-list removal. -/
theorem getD_remove_view (st : State) (bp i : Nat) :
    ((remove_free_block st bp).blocks.getD i default).size =
      (st.blocks.getD i default).size ∧
    ((remove_free_block st bp).blocks.getD i default).alloc =
      (st.blocks.getD i default).alloc ∧
    ((remove_free_block st bp).blocks.getD i default).data =
      (st.blocks.getD i default).data := by
  have key : ∀ (bs : List Blk) (base a : Nat) (f : Blk → Blk),
      (∀ b, (f b).size = b.size ∧ (f b).alloc = b.alloc ∧ (f b).data = b.data) →
      ((updBlks bs base a f).getD i default).size = (bs.getD i default).size ∧
      ((updBlks bs base a f).getD i default).alloc = (bs.getD i default).alloc ∧
      ((updBlks bs base a f).getD i default).data = (bs.getD i default).data := by
    intro bs base a f hf
    rcases getD_updBlks_or bs base a f i with h | h <;> rw [h]
    · exact ⟨rfl, rfl, rfl⟩
    · exact hf _
  have h1 : ∀ st2 : State, (match prevLinkAt st bp with
      | some pb => updateAt st pb (fun b => { b with next := nextLinkAt st bp })
      | none => { st with
          heads := st.heads.set (get_list_index (sizeAt st bp)) (nextLinkAt st bp) }) = st2 →
      (st2.blocks.getD i default).size = (st.blocks.getD i default).size ∧
      (st2.blocks.getD i default).alloc = (st.blocks.getD i default).alloc ∧
      (st2.blocks.getD i default).data = (st.blocks.getD i default).data := by
    intro st2 hst2
    rw [← hst2]
    cases hp : prevLinkAt st bp with
    | none => exact ⟨rfl, rfl, rfl⟩
    | some pb => exact key _ _ _ _ (fun b => ⟨rfl, rfl, rfl⟩)
  unfold remove_free_block
  dsimp only
  cases hn : nextLinkAt st bp with
  | none =>
    rw [hn] at h1
    exact h1 _ rfl
  | some nb =>
    rw [hn] at h1
    obtain ⟨hs, ha, hd⟩ := h1 _ rfl
    unfold updateAt
    dsimp only
    obtain ⟨hs2, ha2, hd2⟩ := key _ 16 nb (fun b => { b with prev := prevLinkAt st bp })
      (fun b => ⟨rfl, rfl, rfl⟩)
    exact ⟨hs2.trans hs, ha2.trans ha, hd2.trans hd⟩

/-- Positivity of sizes transports along equal size maps. -/
theorem pos_of_map_size_eq (bs1 bs2 : List Blk) (h : bs1.map Blk.size = bs2.map Blk.size)
    (hpos : ∀ b ∈ bs2, 0 < b.size) : ∀ b ∈ bs1, 0 < b.size := by
  intro b hb
  have hm : b.size ∈ bs1.map Blk.size := List.mem_map_of_mem _ hb
  rw [h] at hm
  obtain ⟨b2, hb2, he⟩ := List.mem_map.1 hm
  rw [← he]
  exact hpos b2 hb2

/-- Sizes are monotone along takes. -/
theorem sumSizes_take_mono (bs : List Blk) (j m : Nat) (h : j ≤ m) :
    sumSizes (bs.take j) ≤ sumSizes (bs.take m) := by
  have h2 := sumSizes_take_add bs j (m - j)
  rw [show j + (m - j) = m from by omega] at h2
  omega

/-- A nonempty list of blocks of positive sizes has positive total size. -/
theorem sumSizes_pos (bs : List Blk) (hpos : ∀ b ∈ bs, 0 < b.size) (hne : bs ≠ []) :
    0 < sumSizes bs := by
  cases bs with
  | nil => exact absurd rfl hne
  | cons b rest =>
    have := hpos b (List.mem_cons_self b rest)
    unfold sumSizes
    simp only [List.map_cons, List.sum_cons]
    omega

/-- With positive sizes, takes of strictly more blocks are strictly
larger. -/
theorem sumSizes_take_lt (bs : List Blk) (hpos : ∀ b ∈ bs, 0 < b.size) (m i : Nat)
    (hmi : m < i) (hi : i ≤ bs.length) :
    sumSizes (bs.take m) < sumSizes (bs.take i) := by
  have hadd := sumSizes_take_add bs m (i - m)
  rw [show m + (i - m) = i from by omega] at hadd
  have hmid : 0 < sumSizes ((bs.drop m).take (i - m)) := by
    apply sumSizes_pos
    · intro b hb
      exact hpos b (List.drop_subset m bs (List.take_subset _ _ hb))
    · intro h0
      have hlen : ((bs.drop m).take (i - m)).length = min (i - m) (bs.length - m) := by
        simp
      rw [h0] at hlen
      simp only [List.length_nil] at hlen
      omega
  omega

/-- With positive sizes, block addresses are injective. -/
theorem sumSizes_take_inj (bs : List Blk) (hpos : ∀ b ∈ bs, 0 < b.size) (m i : Nat)
    (hm : m ≤ bs.length) (hi : i ≤ bs.length)
    (h : sumSizes (bs.take m) = sumSizes (bs.take i)) : m = i := by
  rcases Nat.lt_trichotomy m i with hlt | heq | hgt
  · have := sumSizes_take_lt bs hpos m i hlt hi
    omega
  · exact heq
  · have := sumSizes_take_lt bs hpos i m hgt hm
    omega

/-- The replaced span of one block sums to its size. -/
theorem sumSizes_drop_take_one (bs : List Blk) (i : Nat) (h : i < bs.length) :
    sumSizes ((bs.drop i).take 1) = (bs.getD i default).size := by
  rw [List.drop_eq_getElem_cons h, List.getD_eq_getElem bs default h,
    show ∀ (a : Blk) (l : List Blk), (a :: l).take 1 = [a] from fun a l => rfl]
  unfold sumSizes
  simp

/-- The replaced span of two blocks sums to their sizes. -/
theorem sumSizes_drop_take_two (bs : List Blk) (i : Nat) (h : i + 1 < bs.length) :
    sumSizes ((bs.drop i).take 2) =
      (bs.getD i default).size + (bs.getD (i + 1) default).size := by
  rw [List.drop_eq_getElem_cons (by omega : i < bs.length), List.drop_eq_getElem_cons h,
    List.getD_eq_getElem bs default (by omega : i < bs.length),
    List.getD_eq_getElem bs default h,
    show ∀ (a b : Blk) (l : List Blk), (a :: b :: l).take 2 = [a, b] from fun a b l => rfl]
  unfold sumSizes
  simp

/-- The replaced span of three blocks sums to their sizes. -/
theorem sumSizes_drop_take_three (bs : List Blk) (i : Nat) (h : i + 2 < bs.length) :
    sumSizes ((bs.drop i).take 3) =
      (bs.getD i default).size + (bs.getD (i + 1) default).size +
        (bs.getD (i + 2) default).size := by
  rw [List.drop_eq_getElem_cons (by omega : i < bs.length),
    List.drop_eq_getElem_cons (by omega : i + 1 < bs.length), List.drop_eq_getElem_cons h,
    List.getD_eq_getElem bs default (by omega : i < bs.length),
    List.getD_eq_getElem bs default (by omega : i + 1 < bs.length),
    List.getD_eq_getElem bs default h,
    show ∀ (a b c : Blk) (l : List Blk), (a :: b :: c :: l).take 3 = [a, b, c] from
      fun a b c l => rfl]
  unfold sumSizes
  simp
  omega

/-- Reading the splice point yields the first replacement block. -/
theorem getBlkAux_splice_head (bs : List Blk) (base i k : Nat) (nb : Blk) (rest : List Blk)
    (hpos : ∀ b ∈ bs, 0 < b.size) :
    getBlkAux (splice bs i k (nb :: rest)) base (base + sumSizes (bs.take i)) = some nb := by
  rw [show splice bs i k (nb :: rest) = bs.take i ++ ((nb :: rest) ++ bs.drop (i + k)) from by
    simp [splice]]
  rw [getBlkAux_append_none _ _ _ _ (getBlkAux_none_of_le _ _ _
    (fun b hb => hpos b (List.take_subset i bs hb)) (le_refl _))]
  simp [getBlkAux]

/-- The positional read of the splice point. -/
theorem splice_getD_head (bs : List Blk) (i k : Nat) (nb : Blk) (rest : List Blk)
    (hi : i ≤ bs.length) :
    (splice bs i k (nb :: rest)).getD i default = nb := by
  unfold splice
  rw [List.append_assoc]
  have hlen : (bs.take i).length = i := by
    rw [List.length_take]
    omega
  rw [List.getD_eq_getElem?_getD, List.getElem?_append_right (by omega), hlen, Nat.sub_self]
  simp

/-- The prefix before the splice point is untouched. -/
theorem splice_take (bs : List Blk) (i k : Nat) (nbs : List Blk) (hi : i ≤ bs.length) :
    (splice bs i k nbs).take i = bs.take i := by
  unfold splice
  rw [List.append_assoc, List.take_append_of_le_length (by rw [List.length_take]; omega),
    List.take_take, min_self]

/-- The length of a splice. -/
theorem splice_length (bs : List Blk) (i k : Nat) (nbs : List Blk) (hi : i + k ≤ bs.length) :
    (splice bs i k nbs).length = bs.length - k + nbs.length := by
  unfold splice
  rw [List.length_append, List.length_append, List.length_take, List.length_drop,
    min_eq_left (by omega)]
  omega

/-- Positivity of sizes survives a splice with positive replacements. -/
theorem pos_splice (bs : List Blk) (i k : Nat) (nbs : List Blk)
    (hpos : ∀ b ∈ bs, 0 < b.size) (hposn : ∀ b ∈ nbs, 0 < b.size) :
    ∀ b ∈ splice bs i k nbs, 0 < b.size := by
  intro b hb
  rcases mem_splice_or bs i k nbs b hb with h | h
  · exact hpos b h
  · exact hposn b h

/-- Reads at the address of a block outside the replaced span are
unchanged by a sum-preserving splice. -/
theorem getBlk_splice_outside (st : State) (j k : Nat) (nbs : List Blk) (m : Nat)
    (hpos : ∀ b ∈ st.blocks, 0 < b.size) (hposn : ∀ b ∈ nbs, 0 < b.size)
    (hsum : sumSizes nbs = sumSizes ((st.blocks.drop j).take k))
    (hm : m < st.blocks.length) (hcase : m < j ∨ j + k ≤ m) :
    getBlk { st with blocks := splice st.blocks j k nbs }
        (16 + sumSizes (st.blocks.take m)) =
      getBlk st (16 + sumSizes (st.blocks.take m)) := by
  unfold getBlk
  dsimp only
  apply getBlkAux_splice_outside _ _ _ _ _ _ hpos hposn hsum
  rcases hcase with hlt | hge
  · left
    have h1 : getBlkAux (st.blocks.take j) 16 (16 + sumSizes (st.blocks.take m)) =
        some ((st.blocks.take j).getD m default) := by
      have h2 := getBlkAux_at_idx (st.blocks.take j) 16 m
        (fun b hb => hpos b (List.take_subset j _ hb))
        (by rw [List.length_take]; omega)
      rwa [List.take_take, min_eq_left (le_of_lt hlt)] at h2
    rw [h1]
    rfl
  · right
    have h2 : sumSizes (st.blocks.take (j + k)) ≤ sumSizes (st.blocks.take m) :=
      sumSizes_take_mono _ _ _ hge
    rw [sumSizes_take_add st.blocks j k] at h2
    omega

/-- An address strictly inside a block's span is no block's address. -/
theorem getBlk_interior_none (st : State) (i d : Nat)
    (hpos : ∀ b ∈ st.blocks, 0 < b.size) (hi : i < st.blocks.length)
    (hd : 0 < d) (hd2 : d < (st.blocks.getD i default).size) :
    getBlk st (16 + sumSizes (st.blocks.take i) + d) = none := by
  cases hg : getBlk st (16 + sumSizes (st.blocks.take i) + d) with
  | none => rfl
  | some b =>
    exfalso
    obtain ⟨m, hm, hxm, _⟩ := getBlkAux_to_idx _ _ _ _ hg
    have hsz : sumSizes (st.blocks.take (i + 1)) =
        sumSizes (st.blocks.take i) + (st.blocks.getD i default).size := by
      rw [sumSizes_take_add st.blocks i 1, sumSizes_drop_take_one st.blocks i hi]
    rcases Nat.lt_or_ge m (i + 1) with hmi | hmi
    · have := sumSizes_take_mono st.blocks m i (by omega)
      omega
    · have := sumSizes_take_mono st.blocks (i + 1) m hmi
      omega

/-- Block well-formedness, unpacked. -/
theorem GoodSt_blocks (st : State) (h : GoodSt st = true) :
    ∀ b ∈ st.blocks, 16 ≤ b.size ∧ b.size % 8 = 0 ∧ b.data.length = b.size - 8 := by
  intro b hb
  have h1 : blocksWF st = true := by
    unfold GoodSt at h
    simp only [Bool.and_eq_true] at h
    exact h.1
  unfold blocksWF at h1
  rw [List.all_eq_true] at h1
  have h2 := h1 b hb
  simp only [Bool.and_eq_true, decide_eq_true_eq] at h2
  tauto

/-- Sizes are positive in a well-formed state. -/
theorem GoodSt_pos (st : State) (h : GoodSt st = true) : ∀ b ∈ st.blocks, 0 < b.size := by
  intro b hb
  have := (GoodSt_blocks st h b hb).1
  omega

/-- The list part of well-formedness. -/
theorem GoodSt_lists (st : State) (h : GoodSt st = true) : goodLists st = true := by
  unfold GoodSt at h
  simp only [Bool.and_eq_true] at h
  exact h.2

/-- Every node of every segregated list of a well-formed state is the
address of a free block. -/
theorem goodLists_walk (st : State) (h : goodLists st = true) (c : Nat) (hc : c < 16) :
    ∀ a ∈ walkList st (walkFuel st) (st.heads.getD c none), isFreeAddr st a = true := by
  intro a ha
  have h2 : (List.range 16).all (fun c =>
      (walkList st (walkFuel st) (st.heads.getD c none)).all fun a => isFreeAddr st a) =
      true := by
    unfold goodLists at h
    simp only [Bool.and_eq_true] at h
    exact h.2
  rw [List.all_eq_true] at h2
  have h3 := h2 c (List.mem_range.2 hc)
  rw [List.all_eq_true] at h3
  exact h3 a ha

/-- The adjusted size covers the payload plus the 8 tag bytes. -/
theorem adjust_size_ge (n : Nat) : n + 8 ≤ adjust_size n := by
  unfold adjust_size DSIZE
  split <;> omega

/-- A free address carries a free block. -/
theorem isFreeAddr_some (st : State) (a : Nat) (h : isFreeAddr st a = true) :
    ∃ b, getBlk st a = some b ∧ b.alloc = false := by
  unfold isFreeAddr at h
  cases hg : getBlk st a with
  | none => rw [hg] at h; simp at h
  | some b =>
    rw [hg] at h
    dsimp only at h
    refine ⟨b, rfl, ?_⟩
    cases hb : b.alloc
    · rfl
    · rw [hb] at h
      simp at h

/-- Every block address the inner best-fit scan returns is free. -/
theorem fit_in_list_free (st : State) (asize : Nat) :
    ∀ fuel cur depth best,
      (∀ a ∈ walkList st fuel cur, isFreeAddr st a = true) →
      (∀ p q, best = some (p, q) → isFreeAddr st p = true) →
      ∀ p q, fit_in_list st asize fuel cur depth best = some (p, q) →
        isFreeAddr st p = true := by
  intro fuel
  induction fuel with
  | zero =>
    intro cur depth best _ hbest p q hf
    exact hbest p q hf
  | succ m ih =>
    intro cur depth best hcur hbest p q hf
    cases cur with
    | none => exact hbest p q hf
    | some bp =>
      have hbp : isFreeAddr st bp = true := hcur bp (by exact List.mem_cons_self _ _)
      have htail : ∀ a ∈ walkList st m (nextLinkAt st bp), isFreeAddr st a = true := by
        intro a ha
        exact hcur a (by exact List.mem_cons_of_mem _ ha)
      rw [fit_in_list] at hf
      dsimp only at hf
      cases best with
      | none =>
        dsimp only at hf
        split at hf
        · split at hf
          · rw [Option.some_inj] at hf
            rw [show p = bp from (congrArg Prod.fst hf).symm]
            exact hbp
          · refine ih (nextLinkAt st bp) (depth + 1) _ htail ?_ p q hf
            intro p2 q2 hb2
            split at hb2
            · rw [Option.some_inj] at hb2
              rw [show p2 = bp from (congrArg Prod.fst hb2).symm]
              exact hbp
            · exact absurd hb2 (by simp)
        · exact absurd hf (by simp)
      | some pr =>
        obtain ⟨bb, bsz⟩ := pr
        have hbb : isFreeAddr st bb = true := hbest bb bsz rfl
        dsimp only at hf
        split at hf
        · split at hf
          · rw [Option.some_inj] at hf
            rw [show p = bp from (congrArg Prod.fst hf).symm]
            exact hbp
          · refine ih (nextLinkAt st bp) (depth + 1) _ htail ?_ p q hf
            intro p2 q2 hb2
            split at hb2
            · rw [Option.some_inj] at hb2
              rw [show p2 = bp from (congrArg Prod.fst hb2).symm]
              exact hbp
            · rw [Option.some_inj] at hb2
              rw [show p2 = bb from (congrArg Prod.fst hb2).symm]
              exact hbb
        · rw [Option.some_inj] at hf
          rw [show p = bb from (congrArg Prod.fst hf).symm]
          exact hbb

/-- The outer class scan returns free block addresses. -/
theorem fit_from_free (st : State) (asize : Nat) (hl : goodLists st = true) :
    ∀ fuel i a, fit_from st asize i fuel = some a → isFreeAddr st a = true := by
  intro fuel
  induction fuel with
  | zero =>
    intro i a hf
    rw [fit_from] at hf
    exact absurd hf (by simp)
  | succ m ih =>
    intro i a hf
    rw [fit_from] at hf
    by_cases h16 : 16 ≤ i
    · rw [if_pos h16] at hf
      exact absurd hf (by simp)
    · rw [if_neg h16] at hf
      cases hfit : fit_in_list st asize (walkFuel st) (st.heads.getD i none) 0 none with
      | some pq =>
        rw [hfit] at hf
        have hp : pq.1 = a := by
          cases pq
          rw [Option.some_inj] at hf
          exact hf
        rw [← hp]
        exact fit_in_list_free st asize (walkFuel st) _ 0 none
          (goodLists_walk st hl i (by omega))
          (fun p q hpq => by cases hpq) pq.1 pq.2 (by rw [hfit])
      | none =>
        rw [hfit] at hf
        exact ih (i + 1) a hf

/-- `find_fit` returns free block addresses. -/
theorem find_fit_free (st : State) (asize a : Nat) (hl : goodLists st = true)
    (h : find_fit st asize = some a) : isFreeAddr st a = true := by
  unfold find_fit at h
  exact fit_from_free st asize hl 16 _ a h

/-- `insert_free_block` keeps the per-block sizes. -/
theorem map_size_insert (st : State) (bp : Nat) :
    (insert_free_block st bp).blocks.map Blk.size = st.blocks.map Blk.size := by
  unfold insert_free_block
  dsimp only
  cases hh : st.heads.getD (get_list_index (sizeAt st bp)) none with
  | none =>
    exact map_size_updBlks _ 16 bp (fun b => { b with prev := none, next := none })
      (fun _ => rfl)
  | some hd =>
    dsimp only [updateAt]
    rw [map_size_updBlks _ 16 hd (fun b => { b with prev := some bp }) (fun _ => rfl)]
    exact map_size_updBlks _ 16 bp (fun b => { b with prev := none, next := some hd })
      (fun _ => rfl)

/-- Equal size maps give equal lengths. -/
theorem length_eq_of_map_size (bs1 bs2 : List Blk)
    (h : bs1.map Blk.size = bs2.map Blk.size) : bs1.length = bs2.length := by
  have h2 := congrArg List.length h
  simpa using h2

/-- The size sum of a single block. -/
theorem sumSizes_single (b : Blk) : sumSizes [b] = b.size := by
  unfold sumSizes
  simp

/-- Common shape of the merging branches of `coalesce`: a state `st1` with
the views and sizes of `st`, whose blocks `j, …, j+k-1` — all free in
`st` — are replaced by one free block of their total size `s`, after which
the result is inserted at the address of block `j`.  Sizes stay positive,
the returned pointer addresses a free block, and the view of every
allocated block of `st` is preserved. -/
theorem merge_step_good (st st1 : State) (j k s ptr : Nat)
    (hview1 : ∀ x, blkView st1 x = blkView st x)
    (hmap1 : st1.blocks.map Blk.size = st.blocks.map Blk.size)
    (hgdv : ∀ m, (st1.blocks.getD m default).alloc = (st.blocks.getD m default).alloc)
    (hpos : ∀ b ∈ st.blocks, 0 < b.size)
    (hs : 0 < s)
    (hsum : s = sumSizes ((st1.blocks.drop j).take k))
    (hptr : ptr = 16 + sumSizes (st.blocks.take j))
    (hfree : ∀ m, j ≤ m → m < j + k → (st.blocks.getD m default).alloc = false) :
    (∀ b ∈ (insert_free_block
        { st1 with blocks := splice st1.blocks j k [freeBlk s] } ptr).blocks, 0 < b.size) ∧
    (∃ bf2, getBlk (insert_free_block
        { st1 with blocks := splice st1.blocks j k [freeBlk s] } ptr) ptr = some bf2 ∧
        bf2.alloc = false) ∧
    (∀ x bx, getBlk st x = some bx → bx.alloc = true →
      blkView (insert_free_block
        { st1 with blocks := splice st1.blocks j k [freeBlk s] } ptr) x =
        some (bx.size, bx.alloc, bx.data)) := by
  have pos1 : ∀ b ∈ st1.blocks, 0 < b.size := pos_of_map_size_eq _ _ hmap1 hpos
  have hposn : ∀ b ∈ [freeBlk s], 0 < b.size := by
    intro b hb
    simp only [List.mem_singleton] at hb
    subst hb
    exact hs
  have possp : ∀ b ∈ splice st1.blocks j k [freeBlk s], 0 < b.size :=
    pos_splice _ j k _ pos1 hposn
  have hptr1 : ptr = 16 + sumSizes (st1.blocks.take j) := by
    rw [hptr, sumSizes_take_eq st1.blocks st.blocks j hmap1]
  have hget2 : getBlk { st1 with blocks := splice st1.blocks j k [freeBlk s] } ptr =
      some (freeBlk s) := by
    show getBlkAux (splice st1.blocks j k [freeBlk s]) 16 ptr = some (freeBlk s)
    rw [hptr1]
    exact getBlkAux_splice_head st1.blocks 16 j k (freeBlk s) [] pos1
  refine ⟨?_, ?_, ?_⟩
  · exact pos_of_map_size_eq _ _ (map_size_insert _ ptr) possp
  · have hv2 : blkView (insert_free_block
        { st1 with blocks := splice st1.blocks j k [freeBlk s] } ptr) ptr =
        some ((freeBlk s).size, (freeBlk s).alloc, (freeBlk s).data) := by
      rw [blkView_insert]
      exact blkView_of_getBlk _ _ _ hget2
    obtain ⟨bf2, hg2, _, ha2, _⟩ := blkView_some _ _ _ hv2
    exact ⟨bf2, hg2, ha2⟩
  · intro x bx hx hax
    have bv1 : blkView st1 x = some (bx.size, bx.alloc, bx.data) :=
      (hview1 x).trans (blkView_of_getBlk st x bx hx)
    obtain ⟨bx1, hgx1, hs1, ha1, hd1⟩ := blkView_some _ _ _ bv1
    have hgx1' : getBlkAux st1.blocks 16 x = some bx1 := hgx1
    obtain ⟨m, hm, hxm, hgdm⟩ := getBlkAux_to_idx _ _ _ _ hgx1'
    have hcase : m < j ∨ j + k ≤ m := by
      by_cases hin : j ≤ m ∧ m < j + k
      · exfalso
        have hb1 : (st1.blocks.getD m default).alloc = false := by
          rw [hgdv m]
          exact hfree m hin.1 hin.2
        rw [hgdm] at hb1
        rw [ha1, hax] at hb1
        exact Bool.noConfusion hb1
      · omega
    have hro := getBlk_splice_outside st1 j k [freeBlk s] m pos1 hposn
      (by rw [sumSizes_single, ← hsum]; rfl) hm hcase
    rw [blkView_insert]
    show (getBlk { st1 with blocks := splice st1.blocks j k [freeBlk s] } x).map
        (fun b => (b.size, b.alloc, b.data)) = some (bx.size, bx.alloc, bx.data)
    rw [hxm, hro, ← hxm]
    show (getBlk st1 x).map (fun b => (b.size, b.alloc, b.data)) =
      some (bx.size, bx.alloc, bx.data)
    rw [hgx1]
    show some (bx1.size, bx1.alloc, bx1.data) = some (bx.size, bx.alloc, bx.data)
    rw [hs1, ha1, hd1]

/-- `coalesce` on a free block keeps sizes positive, returns the address
of a free block, and preserves the view of every allocated block. -/
theorem coalesce_good (st : State) (bp : Nat) (bf : Blk)
    (hpos : ∀ b ∈ st.blocks, 0 < b.size)
    (hbf : getBlk st bp = some bf) (hbfree : bf.alloc = false) :
    (∀ b ∈ (coalesce st bp).1.blocks, 0 < b.size) ∧
    (∃ bf2, getBlk (coalesce st bp).1 (coalesce st bp).2 = some bf2 ∧ bf2.alloc = false) ∧
    (∀ x bx, getBlk st x = some bx → bx.alloc = true →
      blkView (coalesce st bp).1 x = some (bx.size, bx.alloc, bx.data)) := by
  unfold coalesce
  cases hi : idxOf st bp with
  | none =>
    exact ⟨hpos, ⟨bf, hbf, hbfree⟩,
      fun x bx hx hax => blkView_of_getBlk st x bx hx⟩
  | some i =>
    dsimp only
    have hlen : i < st.blocks.length := idxAux_lt_length _ _ _ _ hi
    obtain ⟨hgd, hbp⟩ := idxAux_getD st.blocks 16 bp i hi
    have hbfi : st.blocks.getD i default = bf := by
      have h2 : getBlk st bp = some (st.blocks.getD i default) := hgd
      rw [hbf] at h2
      exact (Option.some_inj.mp h2).symm
    have hfi : (st.blocks.getD i default).alloc = false := by rw [hbfi]; exact hbfree
    have hposi : 0 < (st.blocks.getD i default).size :=
      hpos _ (getD_mem st.blocks i default hlen)
    split
    · refine ⟨pos_of_map_size_eq _ _ (map_size_insert st bp) hpos, ?_, ?_⟩
      · have hv2 : blkView (insert_free_block st bp) bp =
            some (bf.size, bf.alloc, bf.data) := by
          rw [blkView_insert]
          exact blkView_of_getBlk st bp bf hbf
        obtain ⟨bf2, hg2, _, ha2, _⟩ := blkView_some _ _ _ hv2
        exact ⟨bf2, hg2, by rw [ha2, hbfree]⟩
      · intro x bx hx hax
        rw [blkView_insert]
        exact blkView_of_getBlk st x bx hx
    · rename_i hc1
      split
      · rename_i hc2
        have hna : (decide (i + 1 = st.blocks.length) ||
            (st.blocks.getD (i + 1) default).alloc) = false := by
          cases hx : (decide (i + 1 = st.blocks.length) || (st.blocks.getD (i + 1) default).alloc)
          · rfl
          · rw [hx] at hc2; simp at hc2
        have hi1 : i + 1 < st.blocks.length := by
          simp only [Bool.or_eq_false_iff, decide_eq_false_iff_not] at hna
          omega
        have hfn : (st.blocks.getD (i + 1) default).alloc = false := by
          simp only [Bool.or_eq_false_iff, decide_eq_false_iff_not] at hna
          exact hna.2
        have hposn : 0 < (st.blocks.getD (i + 1) default).size :=
          hpos _ (getD_mem st.blocks (i + 1) default hi1)
        have hmap1 := map_size_remove st (bp + (st.blocks.getD i default).size)
        have hlen1 := length_eq_of_map_size _ _ hmap1
        have hsum2 : (st.blocks.getD i default).size + (st.blocks.getD (i + 1) default).size =
            sumSizes (((remove_free_block st
              (bp + (st.blocks.getD i default).size)).blocks.drop i).take 2) := by
          rw [sumSizes_drop_take_two _ i (by omega),
            (getD_remove_view st (bp + (st.blocks.getD i default).size) i).1,
            (getD_remove_view st (bp + (st.blocks.getD i default).size) (i + 1)).1]
        exact merge_step_good st _ i 2 _ bp
          (fun x => blkView_remove st _ x) hmap1
          (fun m => (getD_remove_view st _ m).2.1) hpos (by omega) hsum2 hbp
          (fun m hm1 hm2 => by
            have : m = i ∨ m = i + 1 := by omega
            rcases this with h | h <;> subst h
            · exact hfi
            · exact hfn)
      · rename_i hc2
        split
        · rename_i hc3
          have hpa : (decide (i = 0) || (st.blocks.getD (i - 1) default).alloc) = false := by
            cases hx : (decide (i = 0) || (st.blocks.getD (i - 1) default).alloc)
            · rfl
            · rw [hx] at hc3; simp at hc3
          have hi0 : i ≠ 0 := by
            simp only [Bool.or_eq_false_iff, decide_eq_false_iff_not] at hpa
            exact hpa.1
          have hfp : (st.blocks.getD (i - 1) default).alloc = false := by
            simp only [Bool.or_eq_false_iff, decide_eq_false_iff_not] at hpa
            exact hpa.2
          have him : i - 1 < st.blocks.length := by omega
          have hposp : 0 < (st.blocks.getD (i - 1) default).size :=
            hpos _ (getD_mem st.blocks (i - 1) default him)
          have hstep : sumSizes (st.blocks.take i) =
              sumSizes (st.blocks.take (i - 1)) + (st.blocks.getD (i - 1) default).size := by
            have h2 := sumSizes_take_add st.blocks (i - 1) 1
            rw [show i - 1 + 1 = i from by omega] at h2
            rw [h2, sumSizes_drop_take_one st.blocks (i - 1) him]
          have haddr : bp - (st.blocks.getD (i - 1) default).size =
              16 + sumSizes (st.blocks.take (i - 1)) := by omega
          have hmap1 := map_size_remove st (bp - (st.blocks.getD (i - 1) default).size)
          have hlen1 := length_eq_of_map_size _ _ hmap1
          have hsum2 : (st.blocks.getD (i - 1) default).size +
              (st.blocks.getD i default).size =
              sumSizes (((remove_free_block st
                (bp - (st.blocks.getD (i - 1) default).size)).blocks.drop (i - 1)).take 2) := by
            rw [sumSizes_drop_take_two _ (i - 1) (by omega),
              show i - 1 + 1 = i from by omega,
              (getD_remove_view st (bp - (st.blocks.getD (i - 1) default).size) (i - 1)).1,
              (getD_remove_view st (bp - (st.blocks.getD (i - 1) default).size) i).1]
          exact merge_step_good st _ (i - 1) 2 _ _
            (fun x => blkView_remove st _ x) hmap1
            (fun m => (getD_remove_view st _ m).2.1) hpos (by omega) hsum2 haddr
            (fun m hm1 hm2 => by
              have : m = i - 1 ∨ m = i := by omega
              rcases this with h | h <;> subst h
              · exact hfp
              · exact hfi)
        · rename_i hc3
          have hP : (decide (i = 0) || (st.blocks.getD (i - 1) default).alloc) = false := by
            cases hx : (decide (i = 0) || (st.blocks.getD (i - 1) default).alloc)
            · rfl
            · cases hy : (decide (i + 1 = st.blocks.length) ||
                  (st.blocks.getD (i + 1) default).alloc)
              · rw [hx, hy] at hc2; simp at hc2
              · rw [hx, hy] at hc1; simp at hc1
          have hN : (decide (i + 1 = st.blocks.length) ||
              (st.blocks.getD (i + 1) default).alloc) = false := by
            cases hy : (decide (i + 1 = st.blocks.length) ||
                (st.blocks.getD (i + 1) default).alloc)
            · rfl
            · rw [hP, hy] at hc3; simp at hc3
          have hi0 : i ≠ 0 := by
            simp only [Bool.or_eq_false_iff, decide_eq_false_iff_not] at hP
            exact hP.1
          have hfp : (st.blocks.getD (i - 1) default).alloc = false := by
            simp only [Bool.or_eq_false_iff, decide_eq_false_iff_not] at hP
            exact hP.2
          have hi1 : i + 1 < st.blocks.length := by
            simp only [Bool.or_eq_false_iff, decide_eq_false_iff_not] at hN
            omega
          have hfn : (st.blocks.getD (i + 1) default).alloc = false := by
            simp only [Bool.or_eq_false_iff, decide_eq_false_iff_not] at hN
            exact hN.2
          have him : i - 1 < st.blocks.length := by omega
          have hposp : 0 < (st.blocks.getD (i - 1) default).size :=
            hpos _ (getD_mem st.blocks (i - 1) default him)
          have hstep : sumSizes (st.blocks.take i) =
              sumSizes (st.blocks.take (i - 1)) + (st.blocks.getD (i - 1) default).size := by
            have h2 := sumSizes_take_add st.blocks (i - 1) 1
            rw [show i - 1 + 1 = i from by omega] at h2
            rw [h2, sumSizes_drop_take_one st.blocks (i - 1) him]
          have haddr : bp - (st.blocks.getD (i - 1) default).size =
              16 + sumSizes (st.blocks.take (i - 1)) := by omega
          have hview1 : ∀ x, blkView (remove_free_block (remove_free_block st
              (bp - (st.blocks.getD (i - 1) default).size))
              (bp + (st.blocks.getD i default).size)) x = blkView st x :=
            fun x => (blkView_remove _ _ x).trans (blkView_remove st _ x)
          have hmap1 : (remove_free_block (remove_free_block st
              (bp - (st.blocks.getD (i - 1) default).size))
              (bp + (st.blocks.getD i default).size)).blocks.map Blk.size =
              st.blocks.map Blk.size :=
            (map_size_remove _ _).trans (map_size_remove st _)
          have hgdv : ∀ m, ((remove_free_block (remove_free_block st
              (bp - (st.blocks.getD (i - 1) default).size))
              (bp + (st.blocks.getD i default).size)).blocks.getD m default).alloc =
              (st.blocks.getD m default).alloc :=
            fun m => ((getD_remove_view _ _ m).2.1).trans ((getD_remove_view st _ m).2.1)
          have hgdsz : ∀ m, ((remove_free_block (remove_free_block st
              (bp - (st.blocks.getD (i - 1) default).size))
              (bp + (st.blocks.getD i default).size)).blocks.getD m default).size =
              (st.blocks.getD m default).size :=
            fun m => ((getD_remove_view _ _ m).1).trans ((getD_remove_view st _ m).1)
          have hsum2 : (st.blocks.getD (i - 1) default).size +
              (st.blocks.getD i default).size + (st.blocks.getD (i + 1) default).size =
              sumSizes (((remove_free_block (remove_free_block st
                (bp - (st.blocks.getD (i - 1) default).size))
                (bp + (st.blocks.getD i default).size)).blocks.drop (i - 1)).take 3) := by
            rw [sumSizes_drop_take_three _ (i - 1)
                (by rw [length_eq_of_map_size _ _ hmap1]; omega),
              show i - 1 + 1 = i from by omega, show i - 1 + 2 = i + 1 from by omega,
              hgdsz, hgdsz, hgdsz]
          exact merge_step_good st _ (i - 1) 3 _ _
            hview1 hmap1 hgdv hpos (by omega) hsum2 haddr
            (fun m hm1 hm2 => by
              have : m = i - 1 ∨ m = i ∨ m = i + 1 := by omega
              rcases this with h | h | h <;> subst h
              · exact hfp
              · exact hfi
              · exact hfn)

/-- In `place`, replacing the unlinked free block at `bp` by blocks of the
same total size preserves the view of every allocated block of `st`. -/
theorem place_splice_view (st : State) (bp : Nat) (bf : Blk) (i : Nat) (nbs : List Blk)
    (hpos : ∀ b ∈ st.blocks, 0 < b.size)
    (hbp : getBlk st bp = some bf) (hfree : bf.alloc = false)
    (hio : idxOf (remove_free_block st bp) bp = some i)
    (hposn : ∀ b ∈ nbs, 0 < b.size)
    (hsum : sumSizes nbs = bf.size) :
    ∀ x bx, getBlk st x = some bx → bx.alloc = true →
      blkView { remove_free_block st bp with
        blocks := splice (remove_free_block st bp).blocks i 1 nbs } x =
        some (bx.size, bx.alloc, bx.data) := by
  intro x bx hx hax
  have hview0 : ∀ y, blkView (remove_free_block st bp) y = blkView st y :=
    fun y => blkView_remove st bp y
  have hpos0 : ∀ b ∈ (remove_free_block st bp).blocks, 0 < b.size :=
    pos_of_map_size_eq _ _ (map_size_remove st bp) hpos
  obtain ⟨hgd0, hbp0⟩ := idxAux_getD _ 16 bp i hio
  have hleni : i < (remove_free_block st bp).blocks.length := idxAux_lt_length _ _ _ _ hio
  obtain ⟨bf0, hgbf0, hs0, ha0, hd0⟩ :=
    blkView_some _ _ _ ((hview0 bp).trans (blkView_of_getBlk st bp bf hbp))
  have hs0' : bf0.size = bf.size := hs0
  have hbfi : (remove_free_block st bp).blocks.getD i default = bf0 := by
    have h2 : getBlkAux (remove_free_block st bp).blocks 16 bp =
        some ((remove_free_block st bp).blocks.getD i default) := hgd0
    have h3 : getBlkAux (remove_free_block st bp).blocks 16 bp = some bf0 := hgbf0
    rw [h3] at h2
    exact (Option.some_inj.mp h2).symm
  have hsum2 : sumSizes nbs =
      sumSizes (((remove_free_block st bp).blocks.drop i).take 1) := by
    rw [sumSizes_drop_take_one _ i hleni, hbfi, hs0']
    exact hsum
  obtain ⟨bx1, hgx1, hs1, ha1, hd1⟩ :=
    blkView_some _ _ _ ((hview0 x).trans (blkView_of_getBlk st x bx hx))
  have hs1' : bx1.size = bx.size := hs1
  have ha1' : bx1.alloc = bx.alloc := ha1
  have hd1' : bx1.data = bx.data := hd1
  have hgx1' : getBlkAux (remove_free_block st bp).blocks 16 x = some bx1 := hgx1
  obtain ⟨m, hm, hxm, hgdm⟩ := getBlkAux_to_idx _ _ _ _ hgx1'
  have hne : x ≠ bp := by
    intro he
    rw [he, hbp] at hx
    rw [(Option.some_inj.mp hx).symm, hfree] at hax
    exact Bool.noConfusion hax
  have hmi : m ≠ i := by
    intro he
    rw [he, ← hbp0] at hxm
    exact hne hxm
  have hro := getBlk_splice_outside (remove_free_block st bp) i 1 nbs m hpos0 hposn
    hsum2 hm (by omega)
  unfold blkView
  rw [hxm, hro, ← hxm]
  show (getBlk (remove_free_block st bp) x).map (fun b => (b.size, b.alloc, b.data)) =
    some (bx.size, bx.alloc, bx.data)
  rw [hgx1]
  show some (bx1.size, bx1.alloc, bx1.data) = some (bx.size, bx.alloc, bx.data)
  rw [hs1', ha1', hd1']

/-- `place` on a free block keeps sizes positive, preserves the view of
every allocated block, returns a payload address holding an allocated
block, and that address was not an allocated block's address before. -/
theorem place_good (st : State) (bp asize : Nat) (bf : Blk)
    (hpos : ∀ b ∈ st.blocks, 0 < b.size) (h16 : 16 ≤ asize)
    (hbp : getBlk st bp = some bf) (hfree : bf.alloc = false) :
    (∀ b ∈ (place st bp asize).1.blocks, 0 < b.size) ∧
    (∀ x bx, getBlk st x = some bx → bx.alloc = true →
      blkView (place st bp asize).1 x = some (bx.size, bx.alloc, bx.data)) ∧
    (∃ v : Nat × Bool × List Nat,
      blkView (place st bp asize).1 (place st bp asize).2 = some v ∧ v.2.1 = true) ∧
    allocAt st (place st bp asize).2 = false := by
  have hview0 : ∀ x, blkView (remove_free_block st bp) x = blkView st x :=
    fun x => blkView_remove st bp x
  have hpos0 : ∀ b ∈ (remove_free_block st bp).blocks, 0 < b.size :=
    pos_of_map_size_eq _ _ (map_size_remove st bp) hpos
  obtain ⟨bf0, hgbf0, hs0, ha0, hd0⟩ :=
    blkView_some _ _ _ ((hview0 bp).trans (blkView_of_getBlk st bp bf hbp))
  have hgbf0' : getBlkAux (remove_free_block st bp).blocks 16 bp = some bf0 := hgbf0
  have hszeq : sizeAt st bp = bf.size := by
    unfold sizeAt
    rw [hbp]
    rfl
  have hallocbp : allocAt st bp = false := by
    unfold allocAt
    rw [hbp]
    exact hfree
  obtain ⟨iS, hiS, hbpS, hgdiS⟩ := getBlkAux_to_idx st.blocks 16 bp bf hbp
  unfold place
  dsimp only
  rw [hszeq]
  split
  · rename_i hsplit
    have h24 : asize + 24 ≤ bf.size := by
      unfold MINIMUM_UNALLOC at hsplit
      omega
    split
    · -- allocated piece on the right
      cases hio : idxOf (remove_free_block st bp) bp with
      | none =>
        exfalso
        have hiso := idxAux_isSome_iff (remove_free_block st bp).blocks 16 bp
        have hio' : idxAux (remove_free_block st bp).blocks 16 bp = none := hio
        rw [hio', hgbf0'] at hiso
        exact Bool.noConfusion hiso
      | some i =>
        dsimp only
        obtain ⟨hgd0, hbp0⟩ := idxAux_getD _ 16 bp i hio
        refine ⟨?_, ?_, ?_, ?_⟩
        · apply pos_of_map_size_eq _ _ (map_size_insert _ bp)
          apply pos_splice _ i 1 _ hpos0
          intro b hb
          simp only [List.mem_cons, List.mem_singleton, List.not_mem_nil, or_false] at hb
          rcases hb with hb | hb <;> subst hb
          · show 0 < bf.size - asize
            omega
          · show 0 < asize
            omega
        · intro x bx hx hax
          rw [blkView_alt, blkView_insert]
          apply place_splice_view st bp bf i _ hpos hbp hfree hio ?_ ?_ x bx hx hax
          · intro b hb
            simp only [List.mem_cons, List.mem_singleton, List.not_mem_nil, or_false] at hb
            rcases hb with hb | hb <;> subst hb
            · show 0 < bf.size - asize
              omega
            · show 0 < asize
              omega
          · show bf.size - asize + (asize + 0) = bf.size
            omega
        · have hread0 := getBlkAux_splice_head (remove_free_block st bp).blocks 16 i 1
            (⟨bf.size - asize, false, none, none,
              ((remove_free_block st bp).blocks.getD i default).data.take
                (bf.size - asize - 8)⟩ : Blk)
            [⟨asize, true, none, none,
              ((remove_free_block st bp).blocks.getD i default).data.drop
                (bf.size - asize)⟩] hpos0
          -- the result is the second replacement block, at offset bf.size - asize
          refine ⟨(asize, true,
            ((remove_free_block st bp).blocks.getD i default).data.drop (bf.size - asize)),
            ?_, rfl⟩
          rw [blkView_alt, blkView_insert]
          apply blkView_of_getBlk _ _
            (⟨asize, true, none, none,
              ((remove_free_block st bp).blocks.getD i default).data.drop
                (bf.size - asize)⟩ : Blk)
          show getBlkAux (splice (remove_free_block st bp).blocks i 1 _) 16 _ = _
          rw [show splice (remove_free_block st bp).blocks i 1
              [⟨bf.size - asize, false, none, none,
                ((remove_free_block st bp).blocks.getD i default).data.take
                  (bf.size - asize - 8)⟩,
               ⟨asize, true, none, none,
                ((remove_free_block st bp).blocks.getD i default).data.drop
                  (bf.size - asize)⟩] =
              (remove_free_block st bp).blocks.take i ++
              ([⟨bf.size - asize, false, none, none,
                ((remove_free_block st bp).blocks.getD i default).data.take
                  (bf.size - asize - 8)⟩,
               ⟨asize, true, none, none,
                ((remove_free_block st bp).blocks.getD i default).data.drop
                  (bf.size - asize)⟩] ++
                (remove_free_block st bp).blocks.drop (i + 1)) from by simp [splice]]
          rw [getBlkAux_append_none _ _ _ _ (getBlkAux_none_of_le _ _ _
            (fun b hb => hpos0 b (List.take_subset i _ hb)) (by omega))]
          simp only [List.cons_append, getBlkAux]
          rw [if_neg (by omega), if_pos (by
            show bp + (bf.size - asize) = 16 +
              sumSizes ((remove_free_block st bp).blocks.take i) + (bf.size - asize)
            omega)]
        · show allocAt st (bp + (bf.size - asize)) = false
          have hint := getBlk_interior_none st iS (bf.size - asize) hpos hiS (by omega)
            (by rw [hgdiS]; omega)
          unfold allocAt
          rw [show bp + (bf.size - asize) =
            16 + sumSizes (st.blocks.take iS) + (bf.size - asize) from by omega, hint]
          rfl
    · -- allocated piece on the left
      cases hio : idxOf (remove_free_block st bp) bp with
      | none =>
        exfalso
        have hiso := idxAux_isSome_iff (remove_free_block st bp).blocks 16 bp
        have hio' : idxAux (remove_free_block st bp).blocks 16 bp = none := hio
        rw [hio', hgbf0'] at hiso
        exact Bool.noConfusion hiso
      | some i =>
        dsimp only
        obtain ⟨hgd0, hbp0⟩ := idxAux_getD _ 16 bp i hio
        refine ⟨?_, ?_, ?_, ?_⟩
        · apply pos_of_map_size_eq _ _ (map_size_insert _ (bp + asize))
          apply pos_splice _ i 1 _ hpos0
          intro b hb
          simp only [List.mem_cons, List.mem_singleton, List.not_mem_nil, or_false] at hb
          rcases hb with hb | hb <;> subst hb
          · show 0 < asize
            omega
          · show 0 < bf.size - asize
            omega
        · intro x bx hx hax
          rw [blkView_alt, blkView_insert]
          apply place_splice_view st bp bf i _ hpos hbp hfree hio ?_ ?_ x bx hx hax
          · intro b hb
            simp only [List.mem_cons, List.mem_singleton, List.not_mem_nil, or_false] at hb
            rcases hb with hb | hb <;> subst hb
            · show 0 < asize
              omega
            · show 0 < bf.size - asize
              omega
          · show asize + (bf.size - asize + 0) = bf.size
            omega
        · have hread0 := getBlkAux_splice_head (remove_free_block st bp).blocks 16 i 1
            (⟨asize, true, none, none,
              ((remove_free_block st bp).blocks.getD i default).data.take (asize - 8)⟩ : Blk)
            [⟨bf.size - asize, false, none, none,
              ((remove_free_block st bp).blocks.getD i default).data.drop asize⟩] hpos0
          rw [← hbp0] at hread0
          refine ⟨(asize, true,
            ((remove_free_block st bp).blocks.getD i default).data.take (asize - 8)),
            ?_, rfl⟩
          rw [blkView_alt, blkView_insert]
          unfold blkView
          show (getBlkAux (splice (remove_free_block st bp).blocks i 1
              [⟨asize, true, none, none,
                ((remove_free_block st bp).blocks.getD i default).data.take (asize - 8)⟩,
               ⟨bf.size - asize, false, none, none,
                ((remove_free_block st bp).blocks.getD i default).data.drop asize⟩]) 16 bp).map
              (fun b => (b.size, b.alloc, b.data)) =
            some (asize, true,
              ((remove_free_block st bp).blocks.getD i default).data.take (asize - 8))
          rw [hread0]
          rfl
        · exact hallocbp
  · -- no split: mark the whole block allocated
    refine ⟨?_, ?_, ?_, ?_⟩
    · apply pos_of_map_size_eq _ _
        (map_size_updBlks _ 16 bp (fun b => { b with alloc := true }) (fun _ => rfl))
      exact hpos0
    · intro x bx hx hax
      obtain ⟨bx1, hgx1, hs1, ha1, hd1⟩ :=
        blkView_some _ _ _ ((hview0 x).trans (blkView_of_getBlk st x bx hx))
      have hs1' : bx1.size = bx.size := hs1
      have ha1' : bx1.alloc = bx.alloc := ha1
      have hd1' : bx1.data = bx.data := hd1
      have hne : x ≠ bp := by
        intro he
        rw [he, hbp] at hx
        rw [(Option.some_inj.mp hx).symm, hfree] at hax
        exact Bool.noConfusion hax
      have hg2 : getBlk (updateAt (remove_free_block st bp) bp
          (fun b => { b with alloc := true })) x = getBlk (remove_free_block st bp) x :=
        getBlkAux_updBlks_other _ 16 bp x _ (fun _ => rfl) hne
      rw [blkView_alt]
      unfold blkView
      rw [hg2, hgx1]
      show some (bx1.size, bx1.alloc, bx1.data) = some (bx.size, bx.alloc, bx.data)
      rw [hs1', ha1', hd1']
    · have hg3 : getBlk (updateAt (remove_free_block st bp) bp
          (fun b => { b with alloc := true })) bp = some { bf0 with alloc := true } := by
        show getBlkAux (updBlks (remove_free_block st bp).blocks 16 bp _) 16 bp = _
        rw [getBlkAux_updBlks_same, hgbf0']
        rfl
      refine ⟨(bf0.size, true, bf0.data), ?_, rfl⟩
      rw [blkView_alt]
      exact blkView_of_getBlk _ _ _ hg3
    · exact hallocbp

/-- `extend_heap` keeps sizes positive, returns the address of a free
block, and preserves the view of every allocated block. -/
theorem extend_good (st : State) (words : Nat) (ok : Bool) (st1 : State) (bp2 : Nat)
    (hpos : ∀ b ∈ st.blocks, 0 < b.size)
    (he : extend_heap st words ok = some (st1, bp2)) :
    (∀ b ∈ st1.blocks, 0 < b.size) ∧
    (∃ bf, getBlk st1 bp2 = some bf ∧ bf.alloc = false) ∧
    (∀ x bx, getBlk st x = some bx → bx.alloc = true →
      blkView st1 x = some (bx.size, bx.alloc, bx.data)) := by
  cases ok with
  | false =>
    exfalso
    unfold extend_heap at he
    simp at he
  | true =>
    unfold extend_heap at he
    simp only [Bool.not_true] at he
    rw [if_neg (by simp)] at he
    have he2 := Option.some_inj.mp he
    have hsz24 : MINIMUM_UNALLOC ≤
        (if (if words % 2 = 1 then (words + 1) * 4 else words * 4) < MINIMUM_UNALLOC
          then MINIMUM_UNALLOC
          else (if words % 2 = 1 then (words + 1) * 4 else words * 4)) := by
      unfold MINIMUM_UNALLOC
      by_cases h2 : (if words % 2 = 1 then (words + 1) * 4 else words * 4) < 24
      · rw [if_pos h2]
      · rw [if_neg h2]
        omega
    have hpos' : ∀ b ∈ st.blocks ++
        [freeBlk (if (if words % 2 = 1 then (words + 1) * 4 else words * 4) < MINIMUM_UNALLOC
          then MINIMUM_UNALLOC
          else (if words % 2 = 1 then (words + 1) * 4 else words * 4))], 0 < b.size := by
      intro b hb
      rcases List.mem_append.mp hb with hb | hb
      · exact hpos b hb
      · simp only [List.mem_singleton] at hb
        subst hb
        show 0 < (if (if words % 2 = 1 then (words + 1) * 4 else words * 4) < MINIMUM_UNALLOC
          then MINIMUM_UNALLOC
          else (if words % 2 = 1 then (words + 1) * 4 else words * 4))
        unfold MINIMUM_UNALLOC at hsz24 ⊢
        omega
    have hbf' : getBlk { st with blocks := st.blocks ++
        [freeBlk (if (if words % 2 = 1 then (words + 1) * 4 else words * 4) < MINIMUM_UNALLOC
          then MINIMUM_UNALLOC
          else (if words % 2 = 1 then (words + 1) * 4 else words * 4))] }
        (16 + sumSizes st.blocks) =
        some (freeBlk (if (if words % 2 = 1 then (words + 1) * 4 else words * 4) <
            MINIMUM_UNALLOC
          then MINIMUM_UNALLOC
          else (if words % 2 = 1 then (words + 1) * 4 else words * 4))) := by
      show getBlkAux (st.blocks ++ [freeBlk _]) 16 (16 + sumSizes st.blocks) = _
      rw [getBlkAux_append_none _ _ _ _ (getBlkAux_none_of_le _ _ _ hpos (le_refl _))]
      simp [getBlkAux]
    obtain ⟨posc, freec, viewc⟩ := coalesce_good _ (16 + sumSizes st.blocks) _ hpos' hbf' rfl
    have hst1 : (coalesce { st with blocks := st.blocks ++
        [freeBlk (if (if words % 2 = 1 then (words + 1) * 4 else words * 4) < MINIMUM_UNALLOC
          then MINIMUM_UNALLOC
          else (if words % 2 = 1 then (words + 1) * 4 else words * 4))] }
        (16 + sumSizes st.blocks)).1 = st1 := congrArg Prod.fst he2
    have hbp2 : (coalesce { st with blocks := st.blocks ++
        [freeBlk (if (if words % 2 = 1 then (words + 1) * 4 else words * 4) < MINIMUM_UNALLOC
          then MINIMUM_UNALLOC
          else (if words % 2 = 1 then (words + 1) * 4 else words * 4))] }
        (16 + sumSizes st.blocks)).2 = bp2 := congrArg Prod.snd he2
    subst hst1
    subst hbp2
    refine ⟨posc, freec, ?_⟩
    intro x bx hx hax
    exact viewc x bx (getBlkAux_append_some _ _ _ _ _ hx) hax

/-- `mm_free` keeps sizes positive and preserves the view of every other
allocated block. -/
theorem free_good (st : State) (p : Nat)
    (hpos : ∀ b ∈ st.blocks, 0 < b.size) :
    (∀ b ∈ (mm_free st p).blocks, 0 < b.size) ∧
    (∀ x bx, getBlk st x = some bx → bx.alloc = true → x ≠ p →
      blkView (mm_free st p) x = some (bx.size, bx.alloc, bx.data)) := by
  unfold mm_free
  by_cases hp0 : p = 0
  · rw [if_pos hp0]
    exact ⟨hpos, fun x bx hx hax _ => blkView_of_getBlk st x bx hx⟩
  · rw [if_neg hp0]
    cases hip : idxOf st p with
    | none => exact ⟨hpos, fun x bx hx hax _ => blkView_of_getBlk st x bx hx⟩
    | some ip =>
      dsimp only
      obtain ⟨hgd, hpaddr⟩ := idxAux_getD st.blocks 16 p ip hip
      have hpos1 : ∀ b ∈ (updateAt st p (fun b => { b with alloc := false })).blocks,
          0 < b.size :=
        pos_of_map_size_eq _ _
          (map_size_updBlks _ 16 p (fun b => { b with alloc := false }) (fun _ => rfl)) hpos
      have hg1 : getBlk (updateAt st p (fun b => { b with alloc := false })) p =
          some { st.blocks.getD ip default with alloc := false } := by
        show getBlkAux (updBlks st.blocks 16 p _) 16 p = _
        rw [getBlkAux_updBlks_same]
        have hgd' : getBlkAux st.blocks 16 p = some (st.blocks.getD ip default) := hgd
        rw [hgd']
        rfl
      obtain ⟨posc, freec, viewc⟩ := coalesce_good
        (updateAt st p (fun b => { b with alloc := false })) p
        { st.blocks.getD ip default with alloc := false } hpos1 hg1 rfl
      refine ⟨posc, ?_⟩
      intro x bx hx hax hne
      have hx1 : getBlk (updateAt st p (fun b => { b with alloc := false })) x =
          some bx := by
        show getBlkAux (updBlks st.blocks 16 p
          (fun b => { b with alloc := false })) 16 x = some bx
        rw [getBlkAux_updBlks_other st.blocks 16 p x
          (fun b => { b with alloc := false }) (fun _ => rfl) hne]
        exact hx
      exact viewc x bx hx1 hax

/-- A successful `mm_malloc` preserves the view of every allocated block,
returns the address of an allocated block, and that address was not an
allocated block's address before the call. -/
theorem malloc_good (chunk : Nat) (st : State) (n : Nat) (ok : Bool)
    (hpos : ∀ b ∈ st.blocks, 0 < b.size) (hlists : goodLists st = true)
    (hq : (mm_malloc chunk st n ok).2 ≠ 0) :
    (∀ b ∈ (mm_malloc chunk st n ok).1.blocks, 0 < b.size) ∧
    (∀ x bx, getBlk st x = some bx → bx.alloc = true →
      blkView (mm_malloc chunk st n ok).1 x = some (bx.size, bx.alloc, bx.data)) ∧
    (∃ v : Nat × Bool × List Nat,
      blkView (mm_malloc chunk st n ok).1 (mm_malloc chunk st n ok).2 = some v ∧
      v.2.1 = true) ∧
    allocAt st (mm_malloc chunk st n ok).2 = false := by
  unfold mm_malloc at hq ⊢
  by_cases hn : n = 0
  · rw [if_pos hn] at hq
    simp at hq
  · rw [if_neg hn] at hq ⊢
    dsimp only at hq ⊢
    cases hfit : find_fit st (adjust_size n) with
    | some bp =>
      rw [hfit] at hq
      dsimp only at hq ⊢
      obtain ⟨bf, hbf, hfree⟩ := isFreeAddr_some st bp (find_fit_free st _ bp hlists hfit)
      obtain ⟨p1, p2, p3, p4⟩ := place_good st bp (adjust_size n) bf hpos
        (adjust_size_basic n).2 hbf hfree
      exact ⟨p1, p2, p3, p4⟩
    | none =>
      rw [hfit] at hq
      dsimp only at hq ⊢
      cases hext : extend_heap st (max (adjust_size n) chunk / 4) ok with
      | none =>
        rw [hext] at hq
        simp at hq
      | some pr =>
        obtain ⟨st1, bp⟩ := pr
        rw [hext] at hq
        dsimp only at hq ⊢
        obtain ⟨epos, hbfe, eviews⟩ := extend_good st _ ok st1 bp hpos hext
        obtain ⟨bf, hbf, hfree⟩ := hbfe
        have hbf' : getBlk { st1 with alt := !st1.alt } bp = some bf := hbf
        have hpos' : ∀ b ∈ ({ st1 with alt := !st1.alt } : State).blocks, 0 < b.size := epos
        obtain ⟨p1, p2, p3, p4⟩ := place_good { st1 with alt := !st1.alt } bp
          (adjust_size n) bf hpos' (adjust_size_basic n).2 hbf' hfree
        refine ⟨p1, ?_, p3, ?_⟩
        · intro x bx hx hax
          obtain ⟨bx1, hgx1, hs1, ha1, hd1⟩ := blkView_some _ _ _ (eviews x bx hx hax)
          have hs1' : bx1.size = bx.size := hs1
          have ha1' : bx1.alloc = bx.alloc := ha1
          have hd1' : bx1.data = bx.data := hd1
          have hgx1' : getBlk { st1 with alt := !st1.alt } x = some bx1 := hgx1
          have hv := p2 x bx1 hgx1' (by rw [ha1', hax])
          rw [hv, hs1', ha1', hd1']
        · by_cases hal : allocAt st
              (place { st1 with alt := !st1.alt } bp (adjust_size n)).2 = true
          · exfalso
            obtain ⟨bq, hgq, haq⟩ : ∃ bq, getBlk st
                (place { st1 with alt := !st1.alt } bp (adjust_size n)).2 = some bq ∧
                bq.alloc = true := by
              unfold allocAt at hal
              cases hg : getBlk st
                  (place { st1 with alt := !st1.alt } bp (adjust_size n)).2 with
              | none =>
                rw [hg] at hal
                simp at hal
              | some bq =>
                rw [hg] at hal
                exact ⟨bq, rfl, hal⟩
            have hv := eviews _ bq hgq haq
            obtain ⟨bq1, hgq1, hsq1, haq1, hdq1⟩ := blkView_some _ _ _ hv
            have haq1' : bq1.alloc = bq.alloc := haq1
            have hgq1' : getBlk { st1 with alt := !st1.alt }
                (place { st1 with alt := !st1.alt } bp (adjust_size n)).2 = some bq1 := hgq1
            unfold allocAt at p4
            rw [hgq1'] at p4
            have : bq1.alloc = false := p4
            rw [haq1', haq] at this
            exact Bool.noConfusion this
          · exact Bool.eq_false_iff.mpr hal

/-- Equal views give equal payload reads. -/
theorem dataAt_congr {st1 st2 : State} (x : Nat) (h : blkView st1 x = blkView st2 x) :
    dataAt st1 x = dataAt st2 x := by
  unfold blkView at h
  unfold dataAt
  cases hg1 : getBlk st1 x with
  | none =>
    cases hg2 : getBlk st2 x with
    | none => rfl
    | some b2 =>
      rw [hg1, hg2] at h
      simp at h
  | some b1 =>
    cases hg2 : getBlk st2 x with
    | none =>
      rw [hg1, hg2] at h
      simp at h
    | some b2 =>
      rw [hg1, hg2] at h
      have h2 : (b1.size, b1.alloc, b1.data) = (b2.size, b2.alloc, b2.data) :=
        Option.some_inj.mp h
      have h3 : b1.data = b2.data := congrArg (fun t => t.2.2) h2
      show ((some b1).map Blk.data).getD [] = ((some b2).map Blk.data).getD []
      rw [show ((some b1).map Blk.data).getD [] = b1.data from rfl,
        show ((some b2).map Blk.data).getD [] = b2.data from rfl, h3]

/-- Payload reads are unaffected by a free-list insertion. -/
theorem dataAt_insert_any (A : State) (bp x : Nat) :
    dataAt (insert_free_block A bp) x = dataAt A x :=
  dataAt_congr x (blkView_insert A bp x)

/-- Reading the payload at the splice point. -/
theorem dataAt_splice_head2 {blocks : List Blk} {heads : List (Option Nat)} {alt : Bool}
    {i k : Nat} {nb : Blk} {rest : List Blk} {x : Nat}
    (hpos : ∀ b ∈ blocks, 0 < b.size) (hx : x = 16 + sumSizes (blocks.take i)) :
    dataAt ⟨splice blocks i k (nb :: rest), heads, alt⟩ x = nb.data := by
  unfold dataAt
  show ((getBlkAux (splice blocks i k (nb :: rest)) 16 x).map Blk.data).getD [] = nb.data
  rw [hx, getBlkAux_splice_head blocks 16 i k nb rest hpos]
  rfl

/-- The positional read of the splice point, with inferred arguments. -/
theorem splice_getD_head2 {bs : List Blk} {i k : Nat} {nb : Blk} {rest : List Blk}
    (hi : i ≤ bs.length) :
    (splice bs i k (nb :: rest)).getD i default = nb :=
  splice_getD_head bs i k nb rest hi

/-- The relocation path of `mm_realloc`: malloc a new block, copy the
first `k` payload bytes, free the old block.  The copied prefix at the new
address equals the old block's first `k` bytes. -/
theorem realloc_relocate_case (chunk : Nat) (st : State) (p n : Nat) (ok : Bool)
    (b0 : Blk) (k : Nat)
    (hpos : ∀ b ∈ st.blocks, 0 < b.size) (hlists : goodLists st = true)
    (hb0 : getBlk st p = some b0) (hab0 : b0.alloc = true)
    (hlen : b0.data.length = b0.size - 8) (hk : k ≤ b0.size - 8)
    (hq2 : (mm_malloc chunk st (n * 1) ok).2 ≠ 0) :
    (dataAt (mm_free (updateAt (mm_malloc chunk st (n * 1) ok).1
        (mm_malloc chunk st (n * 1) ok).2
        (fun b => { b with data :=
          (dataAt (mm_malloc chunk st (n * 1) ok).1 p).take k ++ b.data.drop k })) p)
      (mm_malloc chunk st (n * 1) ok).2).take k = b0.data.take k := by
  obtain ⟨mpos, mviews, ⟨v, hv, hva⟩, mallocfalse⟩ :=
    malloc_good chunk st (n * 1) ok hpos hlists hq2
  have hqp : (mm_malloc chunk st (n * 1) ok).2 ≠ p := by
    intro he
    rw [he] at mallocfalse
    unfold allocAt at mallocfalse
    rw [hb0] at mallocfalse
    have h2 : b0.alloc = false := mallocfalse
    rw [hab0] at h2
    exact Bool.noConfusion h2
  have hvp := mviews p b0 hb0 hab0
  have hdp : dataAt (mm_malloc chunk st (n * 1) ok).1 p = b0.data :=
    dataAt_of_blkView _ _ _ hvp
  obtain ⟨bq, hgq, hsq, haq, hdq⟩ := blkView_some _ _ _ hv
  have haq' : bq.alloc = true := by
    have h2 : bq.alloc = v.2.1 := haq
    rw [h2, hva]
  have hgq' : getBlkAux (mm_malloc chunk st (n * 1) ok).1.blocks 16
      (mm_malloc chunk st (n * 1) ok).2 = some bq := hgq
  have hg2 : getBlk (updateAt (mm_malloc chunk st (n * 1) ok).1
      (mm_malloc chunk st (n * 1) ok).2
      (fun b => { b with data :=
        (dataAt (mm_malloc chunk st (n * 1) ok).1 p).take k ++ b.data.drop k }))
      (mm_malloc chunk st (n * 1) ok).2 =
      some { bq with data :=
        (dataAt (mm_malloc chunk st (n * 1) ok).1 p).take k ++ bq.data.drop k } := by
    show getBlkAux (updBlks (mm_malloc chunk st (n * 1) ok).1.blocks 16
      (mm_malloc chunk st (n * 1) ok).2 _) 16 (mm_malloc chunk st (n * 1) ok).2 = _
    rw [getBlkAux_updBlks_same, hgq']
    rfl
  have hpos2 : ∀ b ∈ (updateAt (mm_malloc chunk st (n * 1) ok).1
      (mm_malloc chunk st (n * 1) ok).2
      (fun b => { b with data :=
        (dataAt (mm_malloc chunk st (n * 1) ok).1 p).take k ++ b.data.drop k })).blocks,
      0 < b.size :=
    pos_of_map_size_eq _ _ (map_size_updBlks _ 16 _ _ (fun _ => rfl)) mpos
  obtain ⟨fpos, fviews⟩ := free_good (updateAt (mm_malloc chunk st (n * 1) ok).1
      (mm_malloc chunk st (n * 1) ok).2
      (fun b => { b with data :=
        (dataAt (mm_malloc chunk st (n * 1) ok).1 p).take k ++ b.data.drop k })) p hpos2
  have hvq := fviews (mm_malloc chunk st (n * 1) ok).2
    { bq with data :=
      (dataAt (mm_malloc chunk st (n * 1) ok).1 p).take k ++ bq.data.drop k }
    hg2 haq' hqp
  have hdq2 := dataAt_of_blkView _ _ _ hvq
  rw [hdq2]
  show ((dataAt (mm_malloc chunk st (n * 1) ok).1 p).take k ++ bq.data.drop k).take k =
    b0.data.take k
  rw [hdp, List.take_append_of_le_length (by rw [List.length_take]; omega),
    List.take_take, min_self]

/-- Claim C5: for every realloc of an allocated payload pointer `p` with
request `n > 0` in a well-formed state, if the returned pointer `q` is
non-null then the first `min(old_payload, n)` payload bytes at `q` equal
the bytes stored at `p` before the call — in the in-place shrink and grow
cases (including the overlapping grow-into-previous copy, whose bytes the
embedding reads from the pre-write state exactly as `memmove` does) and in
the relocation case alike. -/
theorem c5_realloc_preserves_payload (chunk : Nat) (st : State) (p n : Nat) (ok : Bool)
    (hg : GoodSt st = true) (ha : allocAt st p = true) (hn : 0 < n)
    (hq : (mm_realloc chunk st p n ok).2 ≠ 0) :
    (dataAt (mm_realloc chunk st p n ok).1 (mm_realloc chunk st p n ok).2).take
        (min (sizeAt st p - DSIZE) n) =
      (dataAt st p).take (min (sizeAt st p - DSIZE) n) := by
  have hpos := GoodSt_pos st hg
  have hlists := GoodSt_lists st hg
  obtain ⟨b0, hb0, hab0⟩ : ∃ b0, getBlk st p = some b0 ∧ b0.alloc = true := by
    unfold allocAt at ha
    cases hgp : getBlk st p with
    | none =>
      rw [hgp] at ha
      simp at ha
    | some b0 =>
      rw [hgp] at ha
      exact ⟨b0, rfl, ha⟩
  have hb0m : b0 ∈ st.blocks := getBlkAux_mem st.blocks 16 p b0 hb0
  obtain ⟨hsz16, hsz8, hdlen⟩ := GoodSt_blocks st hg b0 hb0m
  have hsz : sizeAt st p = b0.size := by
    unfold sizeAt
    rw [hb0]
    rfl
  have hdst : dataAt st p = b0.data := by
    unfold dataAt
    rw [hb0]
    rfl
  cases hip : idxOf st p with
  | none =>
    exfalso
    have hiso := idxAux_isSome_iff st.blocks 16 p
    have hip' : idxAux st.blocks 16 p = none := hip
    have hb0' : getBlkAux st.blocks 16 p = some b0 := hb0
    rw [hip', hb0'] at hiso
    exact Bool.noConfusion hiso
  | some i =>
    obtain ⟨hgd, hpaddr⟩ := idxAux_getD st.blocks 16 p i hip
    have hleni : i < st.blocks.length := idxAux_lt_length _ _ _ _ hip
    have hbfi : st.blocks.getD i default = b0 := by
      have h2 : getBlkAux st.blocks 16 p = some (st.blocks.getD i default) := hgd
      have h3 : getBlkAux st.blocks 16 p = some b0 := hb0
      rw [h3] at h2
      exact (Option.some_inj.mp h2).symm
    have hp0 : ¬ p = 0 := by omega
    have hn0 : ¬ n = 0 := by omega
    have hD : DSIZE = 8 := rfl
    have hadjge := adjust_size_ge n
    unfold mm_realloc at hq ⊢
    rw [if_neg hp0, if_neg hn0] at hq ⊢
    rw [hip] at hq ⊢
    dsimp only at hq ⊢
    rw [hbfi] at hq ⊢
    rw [hD] at hq ⊢
    rw [hsz, hdst]
    by_cases hc1 : adjust_size n ≤ b0.size
    · rw [if_pos hc1] at hq ⊢
      by_cases hc2 : chunk ≤ b0.size - adjust_size n
      · -- shrink with split
        rw [if_pos hc2] at hq ⊢
        dsimp only at hq ⊢
        rw [dataAt_insert_any, dataAt_splice_head2 ?hp1 ?hx1, List.take_take,
          min_eq_left (by omega)]
        case hp1 => exact hpos
        case hx1 => exact hpaddr
      · -- shrink without split: nothing changes
        rw [if_neg hc2] at hq ⊢
        dsimp only at hq ⊢
        rw [hdst]
    · rw [if_neg hc1] at hq ⊢
      cases hNA : (decide (i + 1 = st.blocks.length) ||
          (st.blocks.getD (i + 1) default).alloc) with
      | false =>
        have hi1 : i + 1 < st.blocks.length := by
          simp only [Bool.or_eq_false_iff, decide_eq_false_iff_not] at hNA
          omega
        rw [hNA] at hq
        simp only [Bool.not_false, Bool.true_and, Bool.false_eq_true, if_false,
          decide_eq_true_eq] at hq ⊢
        by_cases hg1 : adjust_size n ≤ b0.size + (st.blocks.getD (i + 1) default).size
        · -- grow into the next block
          rw [if_pos hg1] at hq ⊢
          by_cases hs1 : chunk ≤ b0.size + (st.blocks.getD (i + 1) default).size -
              adjust_size n
          · rw [if_pos hs1] at hq ⊢
            dsimp only at hq ⊢
            rw [dataAt_insert_any, splice_getD_head2 ?hl1, dataAt_splice_head2 ?hp2 ?hx2,
              List.take_take, min_eq_left (by omega),
              (getD_remove_view st (p + b0.size) i).2.2, hbfi, List.append_assoc,
              List.take_append_of_le_length ?hlen1]
            case hl1 =>
              rw [length_eq_of_map_size _ _ (map_size_remove st (p + b0.size))]
              omega
            case hp2 =>
              apply pos_splice
              · exact pos_of_map_size_eq _ _ (map_size_remove st (p + b0.size)) hpos
              · intro b hb
                simp only [List.mem_singleton] at hb
                subst hb
                show 0 < b0.size + (st.blocks.getD (i + 1) default).size
                omega
            case hx2 =>
              rw [splice_take _ i 2 _ (by
                rw [length_eq_of_map_size _ _ (map_size_remove st (p + b0.size))]
                omega)]
              rw [sumSizes_take_eq _ st.blocks i (map_size_remove st (p + b0.size))]
              exact hpaddr
            case hlen1 => omega
          · rw [if_neg hs1] at hq ⊢
            dsimp only at hq ⊢
            rw [dataAt_splice_head2 ?hp3 ?hx3,
              (getD_remove_view st (p + b0.size) i).2.2, hbfi, List.append_assoc,
              List.take_append_of_le_length ?hlen2]
            case hp3 => exact pos_of_map_size_eq _ _ (map_size_remove st (p + b0.size)) hpos
            case hx3 =>
              rw [sumSizes_take_eq _ st.blocks i (map_size_remove st (p + b0.size))]
              exact hpaddr
            case hlen2 => omega
        · rw [if_neg hg1] at hq ⊢
          cases hPA : (decide (i = 0) || (st.blocks.getD (i - 1) default).alloc) with
          | false =>
            have hi0 : ¬ i = 0 := by
              simp only [Bool.or_eq_false_iff, decide_eq_false_iff_not] at hPA
              exact hPA.1
            have hstep : sumSizes (st.blocks.take i) =
                sumSizes (st.blocks.take (i - 1)) + (st.blocks.getD (i - 1) default).size := by
              have h2 := sumSizes_take_add st.blocks (i - 1) 1
              rw [show i - 1 + 1 = i from by omega] at h2
              rw [h2, sumSizes_drop_take_one st.blocks (i - 1) (by omega)]
            rw [hPA] at hq
            simp only [Bool.not_false, Bool.true_and, Bool.false_eq_true, if_false,
              decide_eq_true_eq] at hq ⊢
            by_cases hg2 : adjust_size n ≤ (st.blocks.getD (i - 1) default).size + b0.size
            · -- grow into the previous block (overlap-safe copy)
              rw [if_pos hg2] at hq ⊢
              by_cases hs2 : chunk ≤ (st.blocks.getD (i - 1) default).size + b0.size -
                  adjust_size n
              · rw [if_pos hs2] at hq ⊢
                dsimp only at hq ⊢
                rw [dataAt_insert_any, splice_getD_head2 ?hl3,
                  dataAt_splice_head2 ?hp4 ?hx4, List.take_take, min_eq_left (by omega),
                  (getD_remove_view st (p - (st.blocks.getD (i - 1) default).size) i).2.2,
                  hbfi, List.take_append_of_le_length ?hlen3, List.take_take, min_self]
                case hl3 =>
                  rw [length_eq_of_map_size _ _
                    (map_size_remove st (p - (st.blocks.getD (i - 1) default).size))]
                  omega
                case hp4 =>
                  apply pos_splice
                  · exact pos_of_map_size_eq _ _
                      (map_size_remove st (p - (st.blocks.getD (i - 1) default).size)) hpos
                  · intro b hb
                    simp only [List.mem_singleton] at hb
                    subst hb
                    show 0 < (st.blocks.getD (i - 1) default).size + b0.size
                    omega
                case hx4 =>
                  rw [splice_take _ (i - 1) 2 _ (by
                    rw [length_eq_of_map_size _ _
                      (map_size_remove st (p - (st.blocks.getD (i - 1) default).size))]
                    omega)]
                  rw [sumSizes_take_eq _ st.blocks (i - 1)
                    (map_size_remove st (p - (st.blocks.getD (i - 1) default).size))]
                  omega
                case hlen3 =>
                  rw [List.length_take]
                  omega
              · rw [if_neg hs2] at hq ⊢
                dsimp only at hq ⊢
                rw [dataAt_splice_head2 ?hp5 ?hx5,
                  (getD_remove_view st (p - (st.blocks.getD (i - 1) default).size) i).2.2,
                  hbfi, List.take_append_of_le_length ?hlen4, List.take_take, min_self]
                case hp5 =>
                  exact pos_of_map_size_eq _ _
                    (map_size_remove st (p - (st.blocks.getD (i - 1) default).size)) hpos
                case hx5 =>
                  rw [sumSizes_take_eq _ st.blocks (i - 1)
                    (map_size_remove st (p - (st.blocks.getD (i - 1) default).size))]
                  omega
                case hlen4 =>
                  rw [List.length_take]
                  omega
            · rw [if_neg hg2] at hq ⊢
              by_cases hg3 : adjust_size n ≤ (st.blocks.getD (i - 1) default).size +
                  b0.size + (st.blocks.getD (i + 1) default).size
              · -- grow into both neighbours
                rw [if_pos hg3] at hq ⊢
                by_cases hs3 : chunk ≤ (st.blocks.getD (i - 1) default).size + b0.size +
                    (st.blocks.getD (i + 1) default).size - adjust_size n
                · rw [if_pos hs3] at hq ⊢
                  dsimp only at hq ⊢
                  rw [dataAt_insert_any, splice_getD_head2 ?hl5,
                    dataAt_splice_head2 ?hp6 ?hx6, List.take_take, min_eq_left (by omega),
                    ((getD_remove_view _
                        (p + b0.size) i).2.2).trans
                      ((getD_remove_view st
                        (p - (st.blocks.getD (i - 1) default).size) i).2.2),
                    hbfi, List.take_append_of_le_length ?hlen5, List.take_take, min_self]
                  case hl5 =>
                    rw [length_eq_of_map_size _ _ ((map_size_remove _ _).trans
                      (map_size_remove st (p - (st.blocks.getD (i - 1) default).size)))]
                    omega
                  case hp6 =>
                    apply pos_splice
                    · exact pos_of_map_size_eq _ _ ((map_size_remove _ _).trans
                        (map_size_remove st (p - (st.blocks.getD (i - 1) default).size)))
                        hpos
                    · intro b hb
                      simp only [List.mem_singleton] at hb
                      subst hb
                      show 0 < (st.blocks.getD (i - 1) default).size + b0.size +
                        (st.blocks.getD (i + 1) default).size
                      omega
                  case hx6 =>
                    rw [splice_take _ (i - 1) 3 _ (by
                      rw [length_eq_of_map_size _ _ ((map_size_remove _ _).trans
                        (map_size_remove st (p - (st.blocks.getD (i - 1) default).size)))]
                      omega)]
                    rw [sumSizes_take_eq _ st.blocks (i - 1) ((map_size_remove _ _).trans
                      (map_size_remove st (p - (st.blocks.getD (i - 1) default).size)))]
                    omega
                  case hlen5 =>
                    rw [List.length_take]
                    omega
                · rw [if_neg hs3] at hq ⊢
                  dsimp only at hq ⊢
                  rw [dataAt_splice_head2 ?hp7 ?hx7,
                    ((getD_remove_view _
                        (p + b0.size) i).2.2).trans
                      ((getD_remove_view st
                        (p - (st.blocks.getD (i - 1) default).size) i).2.2),
                    hbfi, List.take_append_of_le_length ?hlen6, List.take_take, min_self]
                  case hp7 =>
                    exact pos_of_map_size_eq _ _ ((map_size_remove _ _).trans
                      (map_size_remove st (p - (st.blocks.getD (i - 1) default).size)))
                      hpos
                  case hx7 =>
                    rw [sumSizes_take_eq _ st.blocks (i - 1) ((map_size_remove _ _).trans
                      (map_size_remove st (p - (st.blocks.getD (i - 1) default).size)))]
                    omega
                  case hlen6 =>
                    rw [List.length_take]
                    omega
              · -- relocate
                rw [if_neg hg3] at hq ⊢
                by_cases hr0 : (mm_malloc chunk st (n * 1) ok).2 = 0
                · rw [if_pos hr0] at hq
                  simp at hq
                · rw [if_neg hr0] at hq ⊢
                  dsimp only at hq ⊢
                  exact realloc_relocate_case chunk st p n ok b0 _ hpos hlists hb0 hab0
                    hdlen (by omega) hr0
          | true =>
            rw [hPA] at hq
            simp only [Bool.not_true, Bool.false_and, Bool.false_eq_true, if_false] at hq ⊢
            by_cases hr0 : (mm_malloc chunk st (n * 1) ok).2 = 0
            · rw [if_pos hr0] at hq
              simp at hq
            · rw [if_neg hr0] at hq ⊢
              dsimp only at hq ⊢
              exact realloc_relocate_case chunk st p n ok b0 _ hpos hlists hb0 hab0
                hdlen (by omega) hr0
      | true =>
        rw [hNA] at hq
        simp only [Bool.not_true, Bool.false_and, Bool.false_eq_true, if_false] at hq ⊢
        cases hPA : (decide (i = 0) || (st.blocks.getD (i - 1) default).alloc) with
        | false =>
          have hi0 : ¬ i = 0 := by
            simp only [Bool.or_eq_false_iff, decide_eq_false_iff_not] at hPA
            exact hPA.1
          have hstep : sumSizes (st.blocks.take i) =
              sumSizes (st.blocks.take (i - 1)) + (st.blocks.getD (i - 1) default).size := by
            have h2 := sumSizes_take_add st.blocks (i - 1) 1
            rw [show i - 1 + 1 = i from by omega] at h2
            rw [h2, sumSizes_drop_take_one st.blocks (i - 1) (by omega)]
          rw [hPA] at hq
          simp only [Bool.not_false, Bool.true_and, Bool.false_eq_true, if_false,
            decide_eq_true_eq] at hq ⊢
          by_cases hg2 : adjust_size n ≤ (st.blocks.getD (i - 1) default).size + b0.size
          · -- grow into the previous block (next is allocated)
            rw [if_pos hg2] at hq ⊢
            by_cases hs2 : chunk ≤ (st.blocks.getD (i - 1) default).size + b0.size -
                adjust_size n
            · rw [if_pos hs2] at hq ⊢
              dsimp only at hq ⊢
              rw [dataAt_insert_any, splice_getD_head2 ?hl7,
                dataAt_splice_head2 ?hp8 ?hx8, List.take_take, min_eq_left (by omega),
                (getD_remove_view st (p - (st.blocks.getD (i - 1) default).size) i).2.2,
                hbfi, List.take_append_of_le_length ?hlen7, List.take_take, min_self]
              case hl7 =>
                rw [length_eq_of_map_size _ _
                  (map_size_remove st (p - (st.blocks.getD (i - 1) default).size))]
                omega
              case hp8 =>
                apply pos_splice
                · exact pos_of_map_size_eq _ _
                    (map_size_remove st (p - (st.blocks.getD (i - 1) default).size)) hpos
                · intro b hb
                  simp only [List.mem_singleton] at hb
                  subst hb
                  show 0 < (st.blocks.getD (i - 1) default).size + b0.size
                  omega
              case hx8 =>
                rw [splice_take _ (i - 1) 2 _ (by
                  rw [length_eq_of_map_size _ _
                    (map_size_remove st (p - (st.blocks.getD (i - 1) default).size))]
                  omega)]
                rw [sumSizes_take_eq _ st.blocks (i - 1)
                  (map_size_remove st (p - (st.blocks.getD (i - 1) default).size))]
                omega
              case hlen7 =>
                rw [List.length_take]
                omega
            · rw [if_neg hs2] at hq ⊢
              dsimp only at hq ⊢
              rw [dataAt_splice_head2 ?hp9 ?hx9,
                (getD_remove_view st (p - (st.blocks.getD (i - 1) default).size) i).2.2,
                hbfi, List.take_append_of_le_length ?hlen8, List.take_take, min_self]
              case hp9 =>
                exact pos_of_map_size_eq _ _
                  (map_size_remove st (p - (st.blocks.getD (i - 1) default).size)) hpos
              case hx9 =>
                rw [sumSizes_take_eq _ st.blocks (i - 1)
                  (map_size_remove st (p - (st.blocks.getD (i - 1) default).size))]
                omega
              case hlen8 =>
                rw [List.length_take]
                omega
          · rw [if_neg hg2] at hq ⊢
            by_cases hr0 : (mm_malloc chunk st (n * 1) ok).2 = 0
            · rw [if_pos hr0] at hq
              simp at hq
            · rw [if_neg hr0] at hq ⊢
              exact realloc_relocate_case chunk st p n ok b0 _ hpos hlists hb0 hab0
                hdlen (by omega) hr0
        | true =>
          rw [hPA] at hq
          simp only [Bool.not_true, Bool.false_and, Bool.false_eq_true, if_false] at hq ⊢
          by_cases hr0 : (mm_malloc chunk st (n * 1) ok).2 = 0
          · rw [if_pos hr0] at hq
            simp at hq
          · rw [if_neg hr0] at hq ⊢
            dsimp only at hq ⊢
            exact realloc_relocate_case chunk st p n ok b0 _ hpos hlists hb0 hab0
              hdlen (by omega) hr0

/-- Witness for `c5_realloc_preserves_payload`: a well-formed two-block
heap whose allocated 16-byte block holds the bytes 1…8; realloc(p, 20)
grows it in place into the free 32-byte neighbour, and the 8 copied bytes
survive the merge. -/
theorem c5_realloc_preserves_payload_witness :
    GoodSt ⟨[⟨16, true, none, none, [1, 2, 3, 4, 5, 6, 7, 8]⟩,
        ⟨32, false, none, none, List.replicate 24 0⟩],
      some 32 :: List.replicate 15 none, false⟩ = true ∧
    allocAt ⟨[⟨16, true, none, none, [1, 2, 3, 4, 5, 6, 7, 8]⟩,
        ⟨32, false, none, none, List.replicate 24 0⟩],
      some 32 :: List.replicate 15 none, false⟩ 16 = true ∧
    (mm_realloc 4096 ⟨[⟨16, true, none, none, [1, 2, 3, 4, 5, 6, 7, 8]⟩,
        ⟨32, false, none, none, List.replicate 24 0⟩],
      some 32 :: List.replicate 15 none, false⟩ 16 20 false).2 ≠ 0 ∧
    (dataAt (mm_realloc 4096 ⟨[⟨16, true, none, none, [1, 2, 3, 4, 5, 6, 7, 8]⟩,
          ⟨32, false, none, none, List.replicate 24 0⟩],
        some 32 :: List.replicate 15 none, false⟩ 16 20 false).1
      (mm_realloc 4096 ⟨[⟨16, true, none, none, [1, 2, 3, 4, 5, 6, 7, 8]⟩,
          ⟨32, false, none, none, List.replicate 24 0⟩],
        some 32 :: List.replicate 15 none, false⟩ 16 20 false).2).take
        (min (sizeAt ⟨[⟨16, true, none, none, [1, 2, 3, 4, 5, 6, 7, 8]⟩,
            ⟨32, false, none, none, List.replicate 24 0⟩],
          some 32 :: List.replicate 15 none, false⟩ 16 - DSIZE) 20) =
      (dataAt ⟨[⟨16, true, none, none, [1, 2, 3, 4, 5, 6, 7, 8]⟩,
          ⟨32, false, none, none, List.replicate 24 0⟩],
        some 32 :: List.replicate 15 none, false⟩ 16).take
        (min (sizeAt ⟨[⟨16, true, none, none, [1, 2, 3, 4, 5, 6, 7, 8]⟩,
            ⟨32, false, none, none, List.replicate 24 0⟩],
          some 32 :: List.replicate 15 none, false⟩ 16 - DSIZE) 20) :=
  ⟨by decide, by decide, by decide,
    c5_realloc_preserves_payload 4096
      ⟨[⟨16, true, none, none, [1, 2, 3, 4, 5, 6, 7, 8]⟩,
          ⟨32, false, none, none, List.replicate 24 0⟩],
        some 32 :: List.replicate 15 none, false⟩ 16 20 false
      (by decide) (by decide) (by decide) (by decide)⟩
